import Mathlib

/-!
Verification of the perimeter-calculator repository: the JSON-backed record
store in `utils_json.py` (cache layer, append/batch writers, statistics,
search) and the figure dispatch in `calcu_peri.py`.

Python/JSON data is embedded as the `PyVal` type.  JSON numbers are modelled
as decimal tokens (integer part plus literal fractional digit string); float
representation issues, exponent literals, `NaN` and `Infinity` are outside
the model.  Strings are lists of characters.
-/

/-- Python/JSON runtime values, as loaded by `json.load` and manipulated by
the repository.  `tup` models Python tuples (produced by `datos_a_tuple`,
never by the JSON parser). -/
inductive PyVal where
  | none : PyVal
  | bool (b : Bool) : PyVal
  | num (i : Int) (frac : List Char) : PyVal
  | str (s : List Char) : PyVal
  | list (l : List PyVal) : PyVal
  | tup (l : List PyVal) : PyVal
  | dict (entries : List (List Char × PyVal)) : PyVal

mutual

/-- Structural equality test on `PyVal`. -/
def pvBeq : PyVal → PyVal → Bool
  | .none, .none => true
  | .bool a, .bool b => a == b
  | .num i f, .num i' f' => i == i' && f == f'
  | .str s, .str s' => s == s'
  | .list l, .list l' => pvBeqL l l'
  | .tup l, .tup l' => pvBeqL l l'
  | .dict e, .dict e' => pvBeqE e e'
  | _, _ => false

/-- Structural equality test on lists of `PyVal`. -/
def pvBeqL : List PyVal → List PyVal → Bool
  | [], [] => true
  | a :: as, b :: bs => pvBeq a b && pvBeqL as bs
  | _, _ => false

/-- Structural equality test on dict entry lists. -/
def pvBeqE : List (List Char × PyVal) → List (List Char × PyVal) → Bool
  | [], [] => true
  | (k, v) :: as, (k', v') :: bs => k == k' && pvBeq v v' && pvBeqE as bs
  | _, _ => false

end

mutual

def pvBeq_iff : ∀ a b : PyVal, pvBeq a b = true ↔ a = b
  | a, b => by
    cases a <;> cases b <;>
      simp only [pvBeq, Bool.and_eq_true, beq_iff_eq, reduceCtorEq, iff_false,
        PyVal.bool.injEq, PyVal.num.injEq, PyVal.str.injEq, PyVal.list.injEq,
        PyVal.tup.injEq, PyVal.dict.injEq]
    case list.list l l' => exact pvBeqL_iff l l'
    case tup.tup l l' => exact pvBeqL_iff l l'
    case dict.dict e e' => exact pvBeqE_iff e e'

def pvBeqL_iff : ∀ l l' : List PyVal, pvBeqL l l' = true ↔ l = l'
  | [], [] => by simp [pvBeqL]
  | [], _ :: _ => by simp [pvBeqL]
  | _ :: _, [] => by simp [pvBeqL]
  | a :: as, b :: bs => by
    simp only [pvBeqL, Bool.and_eq_true, List.cons.injEq]
    exact and_congr (pvBeq_iff a b) (pvBeqL_iff as bs)

def pvBeqE_iff : ∀ e e' : List (List Char × PyVal), pvBeqE e e' = true ↔ e = e'
  | [], [] => by simp [pvBeqE]
  | [], _ :: _ => by simp [pvBeqE]
  | _ :: _, [] => by simp [pvBeqE]
  | (k, v) :: as, (k', v') :: bs => by
    simp only [pvBeqE, Bool.and_eq_true, List.cons.injEq, Prod.mk.injEq, and_assoc]
    exact and_congr beq_iff_eq (and_congr (pvBeq_iff v v') (pvBeqE_iff as bs))

end

instance : DecidableEq PyVal := fun a b =>
  decidable_of_iff (pvBeq a b = true) (pvBeq_iff a b)

/-! ## String utilities: Python `str.lower` and `str.strip` -/

/-- Strings are lists of characters. -/
abbrev Str := List Char

/-- Convert a Lean string literal to the `Str` representation. -/
def s2l (s : String) : Str := s.data

/-- Python whitespace characters recognised by `str.strip()` (ASCII range). -/
def pyIsSpace (c : Char) : Bool :=
  c == ' ' || c == '\t' || c == '\n' || c == '\r' || c == '\x0b' || c == '\x0c'

/-- ASCII lowercasing of a single character, as `str.lower()` does on the
ASCII range (the repository only lowercases figure names, which are ASCII). -/
def asciiLower (c : Char) : Char :=
  match c with
  | 'A' => 'a' | 'B' => 'b' | 'C' => 'c' | 'D' => 'd' | 'E' => 'e' | 'F' => 'f'
  | 'G' => 'g' | 'H' => 'h' | 'I' => 'i' | 'J' => 'j' | 'K' => 'k' | 'L' => 'l'
  | 'M' => 'm' | 'N' => 'n' | 'O' => 'o' | 'P' => 'p' | 'Q' => 'q' | 'R' => 'r'
  | 'S' => 's' | 'T' => 't' | 'U' => 'u' | 'V' => 'v' | 'W' => 'w' | 'X' => 'x'
  | 'Y' => 'y' | 'Z' => 'z'
  | other => other

/-- Python `str.lower()`. -/
def pyLower (s : Str) : Str := s.map asciiLower

/-- Python `str.strip()`: drop leading and trailing whitespace. -/
def pyStrip (s : Str) : Str :=
  ((s.dropWhile pyIsSpace).reverse.dropWhile pyIsSpace).reverse

/-! ## Python runtime helpers -/

/-- Python exception kinds raised by the embedded code. -/
inductive PyErr where
  | attributeError : PyErr
  | typeError : PyErr
  | keyError : PyErr
  | valueError (msg : Str) : PyErr
deriving DecidableEq

/-- Python `dict.get(key, default)` on an entry list (keys are unique in a
Python dict; the first match is returned). -/
def dictGet (entries : List (Str × PyVal)) (key : Str) (dflt : PyVal) : PyVal :=
  match entries.lookup key with
  | some v => v
  | Option.none => dflt

/-- Python truthiness of a value (`if x:`). -/
def pyTruthy (v : PyVal) : Bool :=
  match v with
  | .none => false
  | .bool b => b
  | .num i f => !(i == 0 && f.all (· == '0'))
  | .str s => !s.isEmpty
  | .list l => !l.isEmpty
  | .tup l => !l.isEmpty
  | .dict e => !e.isEmpty

/-! ## Query layer: `buscar_por_figura` (utils_json.py lines 594-621)

The display part of the function prints a Rich table; the observable outcome
is one of three conditions: the loaded data is not a list, the search found
nothing, or a table of matching records is shown. -/

/-- Distinct observable outcomes of `buscar_por_figura`. -/
inductive BusquedaResultado where
  | noEsLista : BusquedaResultado
  | sinResultados : BusquedaResultado
  | tabla (resultados : List PyVal) : BusquedaResultado
deriving DecidableEq

/-- The list comprehension in `buscar_por_figura`:
`[registro for registro in datos if isinstance(registro, dict) and
registro.get('figura','').lower() == figura]`.  Calling `.lower()` on a
non-string `figura` value raises `AttributeError`. -/
def filtrarFigura (figura : Str) : List PyVal → Except PyErr (List PyVal)
  | [] => .ok []
  | r :: rest =>
    match r with
    | .dict e =>
      match dictGet e (s2l "figura") (.str []) with
      | .str s => do
          let tail ← filtrarFigura figura rest
          pure (if pyLower s == figura then r :: tail else tail)
      | _ => .error .attributeError
    | _ => filtrarFigura figura rest

/-- `buscar_por_figura`, after the history has been loaded: checks that the
data is a list, lowercases and strips the query, filters, and reports one of
the three outcomes. -/
def buscar_por_figura (figura : Str) (datos : PyVal) : Except PyErr BusquedaResultado :=
  match datos with
  | .list l => do
      let fig := pyStrip (pyLower figura)
      let res ← filtrarFigura fig l
      pure (if res.isEmpty then .sinResultados else .tabla res)
  | _ => .ok .noEsLista

/-- Spec-side match predicate: the record's `figura` value equals the query
compared case-insensitively after trimming surrounding whitespace from the
query. -/
def matchesFigura (name : Str) (r : PyVal) : Bool :=
  match r with
  | .dict e =>
    match dictGet e (s2l "figura") (.str []) with
    | .str s => pyLower s == pyLower (pyStrip name)
    | _ => false
  | _ => false

/-! ## Aggregation engine (utils_json.py lines 284-362, 485-512)

Statistics are computed over Rat values; a decimal token `num i f` denotes
the rational `i ± f/10^len` (for tokens with integer part 0 and a negative
sign the model loses the sign; the repository never produces such values). -/

/-- Numeric value of a decimal digit character. -/
def digitVal (c : Char) : Nat := c.toNat - '0'.toNat

/-- Value of a decimal digit string, most significant digit first. -/
def digitsToNat (ds : List Char) : Nat :=
  ds.foldl (fun acc c => 10 * acc + digitVal c) 0

/-- A natural number as a rational (kernel-computable, avoiding the cast
instances). -/
def natQ (n : Nat) : ℚ := mkRat n 1

/-- An integer as a rational. -/
def intQ (i : Int) : ℚ := mkRat i 1

/-- Exact rational division (equal to division on `ℚ`; spelled out with
`Rat.divInt` so that it evaluates inside the kernel). -/
def qdiv (a b : ℚ) : ℚ := Rat.divInt (a.num * b.den) (a.den * b.num)

/-- Binary maximum, as Python `max` accumulates it. -/
def qmax (a b : ℚ) : ℚ := if Rat.blt a b then b else a

/-- Binary minimum, as Python `min` accumulates it. -/
def qmin (a b : ℚ) : ℚ := if Rat.blt b a then b else a

/-- Value of a fractional digit string: `"57"` denotes `57/100`. -/
def fracVal (f : List Char) : ℚ :=
  qdiv (natQ (digitsToNat f)) (natQ (10 ^ f.length))

/-- Python `sum` over rationals (left fold starting at 0, spelled with the
kernel-computable core addition). -/
def qsum (l : List ℚ) : ℚ := List.foldl Rat.add 0 l

/-- Numeric value of a decimal token. -/
def tokVal (i : Int) (f : List Char) : ℚ :=
  if i < 0 then Rat.sub (intQ i) (fracVal f) else Rat.add (intQ i) (fracVal f)

/-- Python `isinstance(x, (int, float))`.  True for `bool` values as well,
because `bool` is a subtype of `int` in Python. -/
def isNumerico (v : PyVal) : Bool :=
  match v with
  | .num _ _ => true
  | .bool _ => true
  | _ => false

/-- Numeric value of a `PyVal` that passed `isNumerico` (booleans count as
1 and 0, as in Python arithmetic). -/
def numVal (v : PyVal) : ℚ :=
  match v with
  | .num i f => tokVal i f
  | .bool b => if b then 1 else 0
  | _ => 0

/-- Python `max` over a nonempty list (0 for the empty list, never used). -/
def maxLista (l : List ℚ) : ℚ :=
  match l with
  | [] => 0
  | x :: xs => xs.foldl qmax x

/-- Python `min` over a nonempty list (0 for the empty list, never used). -/
def minLista (l : List ℚ) : ℚ :=
  match l with
  | [] => 0
  | x :: xs => xs.foldl qmin x

/-- `Counter(l).most_common(1)[0][0]`: the element with the highest
occurrence count; ties are broken by first insertion order (Python ≥ 3.7
`Counter` semantics). -/
def masFrecuente (l : List PyVal) : Option PyVal :=
  match l with
  | [] => Option.none
  | x :: xs => some ((x :: xs).foldl (fun best y =>
      if (x :: xs).count y > (x :: xs).count best then y else best) x)

/-- Python `d.get('perimetro')` (default `None`); raises `AttributeError` on
a non-dict (in particular on the tuples produced by `datos_a_tuple`). -/
def getPerimetro (d : PyVal) : Except PyErr PyVal :=
  match d with
  | .dict e => .ok (dictGet e (s2l "perimetro") .none)
  | _ => .error .attributeError

/-- The comprehension
`[d.get('perimetro', 0) for d in datos if isinstance(d.get('perimetro'), (int, float))]`
from both statistics functions, as numeric values. -/
def perimetrosNumericos : List PyVal → Except PyErr (List ℚ)
  | [] => .ok []
  | d :: rest => do
    let v ← getPerimetro d
    let tail ← perimetrosNumericos rest
    pure (if isNumerico v then numVal v :: tail else tail)

/-- Test whether the first string starts the second. -/
def empiezaCon : Str → Str → Bool
  | [], _ => true
  | _ :: _, [] => false
  | a :: as, b :: bs => a == b && empiezaCon as bs

/-- Test whether the first string occurs inside the second. -/
def subcadena (k : Str) : Str → Bool
  | [] => k.isEmpty
  | c :: rest => empiezaCon k (c :: rest) || subcadena k rest

/-- Python `'figura' in d` (`in` on a dict tests keys, on a list/tuple tests
elements, on a string tests substrings; on other values raises `TypeError`). -/
def pyIn (k : Str) (v : PyVal) : Except PyErr Bool :=
  match v with
  | .dict e => .ok (e.any (·.1 == k))
  | .tup l => .ok (l.any (· == PyVal.str k))
  | .list l => .ok (l.any (· == PyVal.str k))
  | .str s => .ok (subcadena k s)
  | _ => .error .typeError

/-- Python `d.get('figura', 'desconocida')`. -/
def getFigura (d : PyVal) : Except PyErr PyVal :=
  match d with
  | .dict e => .ok (dictGet e (s2l "figura") (.str (s2l "desconocida")))
  | _ => .error .attributeError

/-- The comprehension `[d.get('figura', 'desconocida') for d in datos if 'figura' in d]`
from `calcular_estadisticas_sin_cache`. -/
def figurasPresentes : List PyVal → Except PyErr (List PyVal)
  | [] => .ok []
  | d :: rest => do
    let b ← pyIn (s2l "figura") d
    if b then do
      let v ← getFigura d
      let tail ← figurasPresentes rest
      pure (v :: tail)
    else
      figurasPresentes rest

instance {e a : Type} [DecidableEq e] [DecidableEq a] : DecidableEq (Except e a) := fun x y =>
  match x, y with
  | .ok u, .ok v =>
    if h : u = v then isTrue (by rw [h]) else isFalse (by intro hc; cases hc; exact h rfl)
  | .error u, .error v =>
    if h : u = v then isTrue (by rw [h]) else isFalse (by intro hc; cases hc; exact h rfl)
  | .ok _, .error _ => isFalse (by intro hc; cases hc)
  | .error _, .ok _ => isFalse (by intro hc; cases hc)

/-- The result dict of the statistics functions. -/
structure Estadisticas where
  total_calculos : Nat
  perimetro_promedio : ℚ
  perimetro_maximo : ℚ
  perimetro_minimo : ℚ
  figura_mas_calculada : PyVal
deriving DecidableEq

/-- `calcular_estadisticas_sin_cache` (utils_json.py lines 485-512). -/
def calcular_estadisticas_sin_cache (datos : List PyVal) : Except PyErr Estadisticas := do
  let perimetros ← perimetrosNumericos datos
  let figuras ← figurasPresentes datos
  let figMas : PyVal :=
    if figuras.isEmpty then .str (s2l "ninguna")
    else (masFrecuente figuras).getD (.str (s2l "ninguna"))
  if perimetros.isEmpty then
    pure ⟨datos.length, 0, 0, 0, figMas⟩
  else
    pure ⟨datos.length, qdiv (qsum perimetros) (natQ perimetros.length),
      maxLista perimetros, minLista perimetros, figMas⟩

/-- Python subscript `d['figura']` (`KeyError` on a missing key,
`TypeError` on an unsubscriptable value). -/
def pyItem (d : PyVal) (k : Str) : Except PyErr PyVal :=
  match d with
  | .dict e =>
    match e.lookup k with
    | some v => .ok v
    | Option.none => .error .keyError
  | _ => .error .typeError

/-- The comprehension `[dato['figura'] for dato in datos_tuple if 'figura' in dato]`
from `obtener_figura_mas_frecuente_cached`. -/
def figurasItem : List PyVal → Except PyErr (List PyVal)
  | [] => .ok []
  | d :: rest => do
    let b ← pyIn (s2l "figura") d
    if b then do
      let v ← pyItem d (s2l "figura")
      let tail ← figurasItem rest
      pure (v :: tail)
    else
      figurasItem rest

/-- `obtener_figura_mas_frecuente_cached` (utils_json.py lines 284-295). -/
def obtener_figura_mas_frecuente_cached (datos_tuple : PyVal) : Except PyErr PyVal := do
  let elems ← match datos_tuple with
    | .tup l => Except.ok l
    | .list l => Except.ok l
    | _ => Except.error PyErr.typeError
  let figuras ← figurasItem elems
  if figuras.isEmpty then
    pure (.str (s2l "ninguna"))
  else
    pure ((masFrecuente figuras).getD (.str (s2l "ninguna")))

/-- `calcular_estadisticas_cached` (utils_json.py lines 298-324).  The
`datos_tuple` argument is the structural fingerprint produced by
`datos_a_tuple`; `list(datos_tuple)` yields its elements. -/
def calcular_estadisticas_cached (datos_tuple : PyVal) : Except PyErr Estadisticas := do
  let datos ← match datos_tuple with
    | .tup l => Except.ok l
    | .list l => Except.ok l
    | _ => Except.error PyErr.typeError
  let perimetros ← perimetrosNumericos datos
  if perimetros.isEmpty then
    pure ⟨datos.length, 0, 0, 0, .str (s2l "ninguna")⟩
  else do
    let fig ← obtener_figura_mas_frecuente_cached datos_tuple
    pure ⟨datos.length, qdiv (qsum perimetros) (natQ perimetros.length),
      maxLista perimetros, minLista perimetros, fig⟩

/-- Lexicographic (code-point) comparison of strings, as Python `<`. -/
def strLtB : Str → Str → Bool
  | [], [] => false
  | [], _ :: _ => true
  | _ :: _, [] => false
  | a :: as, b :: bs => if a = b then strLtB as bs else decide (a < b)

/-- Insert an entry into a key-sorted entry list. -/
def insertaPorClave (p : Str × PyVal) : List (Str × PyVal) → List (Str × PyVal)
  | [] => [p]
  | q :: rest => if strLtB q.1 p.1 then q :: insertaPorClave p rest else p :: q :: rest

/-- Python `sorted(d.items())` for dicts with string keys (keys are unique in
a Python dict, so only the key ordering matters). -/
def ordenaPorClave (e : List (Str × PyVal)) : List (Str × PyVal) :=
  List.foldl (fun acc p => insertaPorClave p acc) [] e

mutual

/-- `dict_to_tuple` from `datos_a_tuple` (utils_json.py lines 344-354):
a dict becomes the tuple of its key-sorted `(key, converted value)` pairs,
converting nested dict values recursively and list values shallowly to
tuples; all other values pass through unchanged.  The source sorts the items
first and then converts the values; since conversion keeps the keys and the
sort compares only keys, converting first and sorting afterwards produces the
same list. -/
def dictToTuple : PyVal → PyVal
  | .dict e =>
    .tup ((ordenaPorClave (convierteValores e)).map (fun q => .tup [.str q.1, q.2]))
  | .list l => .tup l
  | .none => .none
  | .bool b => .bool b
  | .num i f => .num i f
  | .str s => .str s
  | .tup l => .tup l

/-- Apply `dict_to_tuple`'s value conversion to every entry value. -/
def convierteValores : List (Str × PyVal) → List (Str × PyVal)
  | [] => []
  | (k, v) :: rest => (k, dictToTuple v) :: convierteValores rest

end

/-- `datos_a_tuple` (utils_json.py lines 342-362) on a history whose records
are all dicts.  The md5-hash fallback, triggered only when conversion raises
(a non-dict element), is not modelled; `Option.none` marks that case. -/
def datos_a_tuple (datos : List PyVal) : Option PyVal :=
  if datos.all (fun d => match d with | .dict _ => true | _ => false) then
    some (.tup (datos.map dictToTuple))
  else
    Option.none

/-- Numeric perimeters of a History of record dicts: the value of
`perimetro` for exactly those records whose `perimetro` is an actual number
(in Python's sense, which includes booleans as `int` instances). -/
def perimetrosDe : List PyVal → List ℚ
  | [] => []
  | d :: rest =>
    match d with
    | .dict e =>
      if isNumerico (dictGet e (s2l "perimetro") .none) then
        numVal (dictGet e (s2l "perimetro") .none) :: perimetrosDe rest
      else
        perimetrosDe rest
    | _ => perimetrosDe rest

/-- Figure values of the records that carry a `figura` key. -/
def figurasDe : List PyVal → List PyVal
  | [] => []
  | d :: rest =>
    match d with
    | .dict e =>
      if e.any (·.1 == s2l "figura") then
        dictGet e (s2l "figura") (.str (s2l "desconocida")) :: figurasDe rest
      else
        figurasDe rest
    | _ => figurasDe rest

/-! ## Formula set and dispatch (calcu_peri.py)

Float parameters are modelled as rationals; `round(x, 2)` is embedded as
exact round-half-to-even on rationals (Python rounds the nearest double,
which agrees on the values these claims touch). -/

/-- Boolean `a ≤ b` on rationals via the kernel-computable `Rat.blt`. -/
def qle (a b : ℚ) : Bool := !Rat.blt b a

/-- Floor of a rational. -/
def qfloor (q : ℚ) : Int := Int.fdiv q.num q.den

/-- Round to the nearest integer, ties to even (Python `round`). -/
def roundHalfEven (q : ℚ) : Int :=
  let n := qfloor q
  let fr := Rat.sub q (intQ n)
  if Rat.blt (mkRat 1 2) fr then n + 1
  else if Rat.blt fr (mkRat 1 2) then n
  else if n % 2 == 0 then n else n + 1

/-- Python `round(x, 2)`. -/
def round2 (q : ℚ) : ℚ := qdiv (intQ (roundHalfEven (Rat.mul q (natQ 100)))) (natQ 100)

/-- The exact value of the double `math.pi`. -/
def mathPi : ℚ := mkRat 884279719003555 281474976710656

/-- Placeholder for `math.hypot`: the hypotenuse is irrational in general
and no claim depends on this figure's numeric perimeter. -/
def hypotQ (_ _ : ℚ) : ℚ := 0

def perimetro_cuadrado (lado : ℚ) : Except PyErr ℚ :=
  if qle lado 0 then .error (.valueError (s2l "⚠️ El lado debe ser mayor que cero."))
  else .ok (Rat.mul (natQ 4) lado)

def perimetro_rectangulo (base altura : ℚ) : Except PyErr ℚ :=
  if qle base 0 || qle altura 0 then
    .error (.valueError (s2l "⚠️ La base y altura deben ser mayores que cero."))
  else .ok (Rat.mul (natQ 2) (Rat.add base altura))

def perimetro_trapecio (base_mayor base_menor lado : ℚ) : Except PyErr ℚ :=
  if qle base_mayor 0 || qle base_menor 0 || qle lado 0 then
    .error (.valueError (s2l "⚠️ Todos los valores deben ser mayor que cero."))
  else .ok (Rat.add base_mayor (Rat.add base_menor (Rat.mul lado (natQ 2))))

def perimetro_circulo (radio : ℚ) : Except PyErr ℚ :=
  if qle radio 0 then .error (.valueError (s2l "⚠️ El radio debe ser mayor que cero."))
  else .ok (Rat.mul (Rat.mul (natQ 2) mathPi) radio)

def perimetro_poligono_regular (num_lados lado : ℚ) : Except PyErr ℚ :=
  if Rat.blt num_lados (natQ 3) then
    .error (.valueError (s2l "⚠️ Un poligono debe tener al menos 3 lados."))
  else if qle lado 0 then
    .error (.valueError (s2l "⚠️ El lado debe ser mayor que cero."))
  else .ok (Rat.mul num_lados lado)

def perimetro_triangulo_equilatero (lado : ℚ) : Except PyErr ℚ :=
  if qle lado 0 then .error (.valueError (s2l "⚠️ El lado debe ser mayor que cero."))
  else .ok (Rat.mul (natQ 3) lado)

def perimetro_triangulo_isosceles (lados_iguales lado : ℚ) : Except PyErr ℚ :=
  if qle lados_iguales 0 || qle lado 0 then
    .error (.valueError (s2l "⚠️ Todos los lados deben ser mayores que cero."))
  else .ok (Rat.add (Rat.mul (natQ 2) lados_iguales) lado)

/-- `perimetro_triangulo_escaleno` (calcu_peri.py lines 65-71), including
the operator-precedence slip in its triangle-inequality test: the condition is
`(not (lado_1+lado_2 > lado_3)) and (lado_2+lado_3 > lado_1) and
(lado_1+lado_3 > lado_2)`, not the negation of the whole conjunction. -/
def perimetro_triangulo_escaleno (lado_1 lado_2 lado_3 : ℚ) : Except PyErr ℚ :=
  if qle lado_1 0 || qle lado_2 0 || qle lado_3 0 then
    .error (.valueError (s2l "⚠️ Todos los lados deben ser mayores que cero."))
  else if !Rat.blt lado_3 (Rat.add lado_1 lado_2)
      && Rat.blt lado_1 (Rat.add lado_2 lado_3)
      && Rat.blt lado_2 (Rat.add lado_1 lado_3) then
    .error (.valueError (s2l "⚠️ Los valores no cumplen la desigualdad triangular."))
  else .ok (Rat.add lado_1 (Rat.add lado_2 lado_3))

def perimetro_triangulo_rectangulo (cateto_1 cateto_2 : ℚ) : Except PyErr ℚ :=
  if qle cateto_1 0 || qle cateto_2 0 then
    .error (.valueError (s2l "⚠️ Los catetos deben ser mayores que cero."))
  else .ok (Rat.add cateto_1 (Rat.add cateto_2 (hypotQ cateto_1 cateto_2)))

/-- The `figuras` dict: figure name to accepted parameter names. -/
def figurasParams : List (Str × List Str) :=
  [(s2l "cuadrado", [s2l "lado"]),
   (s2l "rectangulo", [s2l "base", s2l "altura"]),
   (s2l "trapecio", [s2l "base_mayor", s2l "base_menor", s2l "lado"]),
   (s2l "circulo", [s2l "radio"]),
   (s2l "poligono_regular", [s2l "num_lados", s2l "lado"]),
   (s2l "triangulo_equilatero", [s2l "lado"]),
   (s2l "triangulo_isosceles", [s2l "lados_iguales", s2l "lado"]),
   (s2l "triangulo_escaleno", [s2l "lado_1", s2l "lado_2", s2l "lado_3"]),
   (s2l "triangulo_rectangulo", [s2l "cateto_1", s2l "cateto_2"])]

/-- Value of a keyword argument (only consulted after the binding check has
confirmed that the name is present). -/
def kwargsGet (kwargs : List (Str × ℚ)) (k : Str) : ℚ := (kwargs.lookup k).getD 0

/-- Python keyword-argument binding for a function without defaults: every
supplied name must be accepted and every accepted name supplied, otherwise
the call raises `TypeError`. -/
def ligaCorrectamente (params : List Str) (kwargs : List (Str × ℚ)) : Bool :=
  kwargs.all (fun p => params.contains p.1) && params.all (fun q => kwargs.any (·.1 == q))

/-- Dispatch `figuras[figura](**kwargs)` after a successful binding check. -/
def aplicaFigura (figura : Str) (kwargs : List (Str × ℚ)) : Except PyErr ℚ :=
  if figura == s2l "cuadrado" then perimetro_cuadrado (kwargsGet kwargs (s2l "lado"))
  else if figura == s2l "rectangulo" then
    perimetro_rectangulo (kwargsGet kwargs (s2l "base")) (kwargsGet kwargs (s2l "altura"))
  else if figura == s2l "trapecio" then
    perimetro_trapecio (kwargsGet kwargs (s2l "base_mayor")) (kwargsGet kwargs (s2l "base_menor"))
      (kwargsGet kwargs (s2l "lado"))
  else if figura == s2l "circulo" then perimetro_circulo (kwargsGet kwargs (s2l "radio"))
  else if figura == s2l "poligono_regular" then
    perimetro_poligono_regular (kwargsGet kwargs (s2l "num_lados")) (kwargsGet kwargs (s2l "lado"))
  else if figura == s2l "triangulo_equilatero" then
    perimetro_triangulo_equilatero (kwargsGet kwargs (s2l "lado"))
  else if figura == s2l "triangulo_isosceles" then
    perimetro_triangulo_isosceles (kwargsGet kwargs (s2l "lados_iguales"))
      (kwargsGet kwargs (s2l "lado"))
  else if figura == s2l "triangulo_escaleno" then
    perimetro_triangulo_escaleno (kwargsGet kwargs (s2l "lado_1"))
      (kwargsGet kwargs (s2l "lado_2")) (kwargsGet kwargs (s2l "lado_3"))
  else if figura == s2l "triangulo_rectangulo" then
    perimetro_triangulo_rectangulo (kwargsGet kwargs (s2l "cateto_1"))
      (kwargsGet kwargs (s2l "cateto_2"))
  else .error .typeError

/-- Python result of `calcular_perimetro`: a float or an error string. -/
inductive CalcResultado where
  | numero (q : ℚ) : CalcResultado
  | cadena (s : Str) : CalcResultado
deriving DecidableEq

/-- The record that `registrar_resultado` builds and persists via
`guardar_json_append`. -/
structure RegistroCalculo where
  fecha : Str
  figura : Str
  perimetro : ℚ
  parametros : List (Str × ℚ)
deriving DecidableEq

/-- `calcular_perimetro` (calcu_peri.py lines 92-105): unknown figures raise
`ValueError` (uncaught); a failed keyword binding raises `TypeError`, caught
and converted to the error string, with no record registered; otherwise the
rounded perimeter is computed, registered (second component) and returned.
`ValueError` from the formula's validation propagates to the caller. -/
def calcular_perimetro (figura : Str) (fecha : Str) (kwargs : List (Str × ℚ)) :
    Except PyErr (CalcResultado × Option RegistroCalculo) :=
  match figurasParams.lookup figura with
  | Option.none =>
    .error (.valueError (s2l "Figura " ++ figura ++
      s2l " no valida. Usa: cuadrado,rectangulo,trapecio,circulo,poligono_regular,triangulo_equilatero,triangulo_isosceles,triangulo_escaleno,triangulo_rectangulo"))
  | some params =>
    if ligaCorrectamente params kwargs then do
      let p ← aplicaFigura figura kwargs
      let per := round2 p
      pure (.numero per, some ⟨fecha, figura, per, kwargs⟩)
    else
      .ok (.cadena (s2l "Argumentos incorrectos para la figura " ++ figura), Option.none)

/-! ## JSON serialisation (`json.dump`, as configured by utils_json.py)

The writers use three configurations: `indent=4` with default separators
`(',', ': ')` (the append path), `indent=4` with `(', ', ': ')`
(`guardar_json`/`guardar_json_batch` below 100 records) and compact
`(',', ':')` with no indent (batch above 100 records). -/

/-- A decimal digit as a character. -/
def digitChar (n : Nat) : Char := Char.ofNat ('0'.toNat + n)

/-- A hexadecimal digit as a lowercase character. -/
def hexChar (n : Nat) : Char :=
  if n < 10 then digitChar n else Char.ofNat ('a'.toNat + (n - 10))

/-- Decimal digits of a natural number, most significant first (fuel-based
so that it evaluates inside the kernel; the fuel `n` always suffices). -/
def natCharsGo : Nat → Nat → Str
  | 0, n => [digitChar n]
  | fuel + 1, n => if n < 10 then [digitChar n] else natCharsGo fuel (n / 10) ++ [digitChar (n % 10)]

/-- Decimal digits of a natural number. -/
def natChars (n : Nat) : Str := natCharsGo n n

/-- Decimal digits of an integer, `-`-prefixed when negative. -/
def intChars : Int → Str
  | Int.ofNat n => natChars n
  | Int.negSucc m => '-' :: natChars (m + 1)

/-- Serialisation of a decimal number token. -/
def numTok (i : Int) (f : List Char) : Str :=
  intChars i ++ (if f.isEmpty then [] else '.' :: f)

/-- JSON string escaping as `json.dumps(…, ensure_ascii=False)` performs it:
quote, backslash and the short control escapes have two-character forms, the
remaining control characters use `\u00xx`, everything else is copied. -/
def escChar (c : Char) : Str :=
  if c = '"' then ['\\', '"']
  else if c = '\\' then ['\\', '\\']
  else if c = '\n' then ['\\', 'n']
  else if c = '\r' then ['\\', 'r']
  else if c = '\t' then ['\\', 't']
  else if c.toNat = 8 then ['\\', 'b']
  else if c.toNat = 12 then ['\\', 'f']
  else if c.toNat < 32 then ['\\', 'u', '0', '0', hexChar (c.toNat / 16), hexChar (c.toNat % 16)]
  else [c]

/-- Escape every character of a string body. -/
def escRun : Str → Str
  | [] => []
  | c :: cs => escChar c ++ escRun cs

/-- A JSON string literal. -/
def dumpStr (s : Str) : Str := '"' :: (escRun s ++ ['"'])

/-- `n` spaces. -/
def espacios (n : Nat) : Str := List.replicate n ' '

/-- A `json.dump` configuration: item separator, key separator, and the
indent width (`Option.none` for the compact single-line format). -/
structure DumpCfg where
  itemSep : Str
  kvSep : Str
  indent : Option Nat
deriving DecidableEq

/-- Newline plus indentation at nesting level `lvl`, or nothing in compact
mode. -/
def nlInd (cfg : DumpCfg) (lvl : Nat) : Str :=
  match cfg.indent with
  | some n => '\n' :: espacios (n * lvl)
  | Option.none => []

mutual

/-- `json.dumps` of a value at nesting level `lvl` (tuples serialise as
arrays, as in Python). -/
def dumpVal (cfg : DumpCfg) (lvl : Nat) : PyVal → Str
  | .none => s2l "null"
  | .bool b => if b then s2l "true" else s2l "false"
  | .num i f => numTok i f
  | .str s => dumpStr s
  | .list l => dumpArr cfg lvl l
  | .tup l => dumpArr cfg lvl l
  | .dict e => dumpObj cfg lvl e

/-- Serialise an array. -/
def dumpArr (cfg : DumpCfg) (lvl : Nat) : List PyVal → Str
  | [] => s2l "[]"
  | x :: xs =>
    '[' :: (nlInd cfg (lvl + 1) ++ dumpVal cfg (lvl + 1) x ++ dumpArrRest cfg (lvl + 1) xs ++
      nlInd cfg lvl ++ [']'])

/-- Serialise the remaining array elements, each preceded by the item
separator and a fresh indented line. -/
def dumpArrRest (cfg : DumpCfg) (lvl : Nat) : List PyVal → Str
  | [] => []
  | x :: xs => cfg.itemSep ++ nlInd cfg lvl ++ dumpVal cfg lvl x ++ dumpArrRest cfg lvl xs

/-- Serialise an object. -/
def dumpObj (cfg : DumpCfg) (lvl : Nat) : List (Str × PyVal) → Str
  | [] => ['\x7b', '\x7d']
  | (k, v) :: rest =>
    '\x7b' :: (nlInd cfg (lvl + 1) ++ dumpStr k ++ cfg.kvSep ++ dumpVal cfg (lvl + 1) v ++
      dumpObjRest cfg (lvl + 1) rest ++ nlInd cfg lvl ++ ['\x7d'])

/-- Serialise the remaining object members. -/
def dumpObjRest (cfg : DumpCfg) (lvl : Nat) : List (Str × PyVal) → Str
  | [] => []
  | (k, v) :: rest =>
    cfg.itemSep ++ nlInd cfg lvl ++ dumpStr k ++ cfg.kvSep ++ dumpVal cfg lvl v ++
      dumpObjRest cfg lvl rest

end

/-- The append path's configuration: `json.dumps(…, indent=4)` with default
separators. -/
def cfgAppend : DumpCfg := ⟨s2l ",", s2l ": ", some 4⟩

/-- `guardar_json`/`guardar_json_batch` below the 100-record threshold:
`indent=4` with explicit separators `(', ', ': ')`. -/
def cfgPretty : DumpCfg := ⟨s2l ", ", s2l ": ", some 4⟩

/-- The compact configuration used above the 100-record threshold. -/
def cfgCompact : DumpCfg := ⟨s2l ",", s2l ":", Option.none⟩

/-! ## JSON parsing (`json.load`)

A recursive-descent parser over character lists.  Model restrictions (stated
here once): exponent literals, `NaN`/`Infinity`, surrogate-pair `\u` escapes
and the duplicate-key last-wins rule are outside the model; none of them can
be produced by this repository's writers. -/

/-- JSON whitespace. -/
def esJsonWs (c : Char) : Bool := c == ' ' || c == '\t' || c == '\n' || c == '\r'

/-- Skip JSON whitespace. -/
def skipWs (s : Str) : Str := s.dropWhile esJsonWs

/-- Decimal digit test. -/
def esDigito (c : Char) : Bool := '0' ≤ c && c ≤ '9'

/-- Hexadecimal digit test (`\uXXXX` escapes). -/
def esHex (c : Char) : Bool :=
  esDigito c || ('a' ≤ c && c ≤ 'f') || ('A' ≤ c && c ≤ 'F')

/-- Value of a hexadecimal digit. -/
def hexVal (c : Char) : Nat :=
  if esDigito c then digitVal c
  else if 'a' ≤ c && c ≤ 'f' then c.toNat - 'a'.toNat + 10
  else c.toNat - 'A'.toNat + 10

/-- Split the leading run of decimal digits. -/
def cogeDigitos : Str → (Str × Str)
  | [] => ([], [])
  | c :: rest =>
    if esDigito c then
      let (ds, r) := cogeDigitos rest
      (c :: ds, r)
    else ([], c :: rest)

/-- Decode a two-character escape (`\"`, `\\`, `\/`, `\b`, `\f`, `\n`,
`\r`, `\t`). -/
def escDecode (e : Char) : Option Char :=
  if e = '"' then some '"'
  else if e = '\\' then some '\\'
  else if e = '/' then some '/'
  else if e = 'b' then some (Char.ofNat 8)
  else if e = 'f' then some (Char.ofNat 12)
  else if e = 'n' then some '\n'
  else if e = 'r' then some '\r'
  else if e = 't' then some '\t'
  else Option.none

/-- Parse a string body after the opening quote, up to and including the
closing quote.  Python's strict mode rejects raw control characters. -/
def parseStringBody : Str → Option (Str × Str)
  | [] => Option.none
  | c :: rest =>
    if c = '"' then some ([], rest)
    else if c = '\\' then
      match rest with
      | [] => Option.none
      | e :: rest2 =>
        if e = 'u' then
          match rest2 with
          | h1 :: h2 :: h3 :: h4 :: rest3 =>
            if esHex h1 && esHex h2 && esHex h3 && esHex h4 then
              match parseStringBody rest3 with
              | some (cs, r) =>
                some (Char.ofNat (hexVal h1 * 4096 + hexVal h2 * 256 + hexVal h3 * 16 + hexVal h4)
                  :: cs, r)
              | Option.none => Option.none
            else Option.none
          | _ => Option.none
        else
          match escDecode e with
          | some d =>
            match parseStringBody rest2 with
            | some (cs, r) => some (d :: cs, r)
            | Option.none => Option.none
          | Option.none => Option.none
    else if c.toNat < 32 then Option.none
    else
      match parseStringBody rest with
      | some (cs, r) => some (c :: cs, r)
      | Option.none => Option.none

/-- Parse an unsigned number token: digits with an optional fraction.
Python's grammar rejects leading zeros and requires at least one digit after
the decimal point (otherwise the point is not part of the number). -/
def parseNumNat (s : Str) : Option ((Int × Str) × Str) :=
  let (ds, r) := cogeDigitos s
  if ds.isEmpty then Option.none
  else if 1 < ds.length && ds.headD ' ' == '0' then Option.none
  else
    match r with
    | c :: r2 =>
      if c = '.' then
        let (fs, r3) := cogeDigitos r2
        if fs.isEmpty then some ((Int.ofNat (digitsToNat ds), []), '.' :: r2)
        else some ((Int.ofNat (digitsToNat ds), fs), r3)
      else some ((Int.ofNat (digitsToNat ds), []), c :: r2)
    | [] => some ((Int.ofNat (digitsToNat ds), []), [])

/-- Parse a number token with optional sign. -/
def parseNum (s : Str) : Option (PyVal × Str) :=
  match s with
  | [] => Option.none
  | c :: rest =>
    if c = '-' then
      match parseNumNat rest with
      | some ((i, f), r) => some (.num (-i) f, r)
      | Option.none => Option.none
    else
      match parseNumNat (c :: rest) with
      | some ((i, f), r) => some (.num i f, r)
      | Option.none => Option.none

/-- Parse the fixed tail of a `true`/`false`/`null` literal. -/
def parseLit (lit : Str) (v : PyVal) (t : Str) : Option (PyVal × Str) :=
  if empiezaCon lit t then some (v, t.drop lit.length) else Option.none

mutual

/-- Parse one JSON value (leading whitespace allowed).  The fuel argument
only bounds recursion depth; `2 * length + 4` always suffices. -/
def parseVal : Nat → Str → Option (PyVal × Str)
  | 0, _ => Option.none
  | fuel + 1, s =>
    match skipWs s with
    | [] => Option.none
    | c :: t =>
      if c = '[' then
        match parseElems1 fuel t with
        | some (l, r) => some (.list l, r)
        | Option.none => Option.none
      else if c = '\x7b' then
        match parseMems1 fuel t with
        | some (e, r) => some (.dict e, r)
        | Option.none => Option.none
      else if c = '"' then
        match parseStringBody t with
        | some (cs, r) => some (.str cs, r)
        | Option.none => Option.none
      else if c = 't' then parseLit (s2l "rue") (.bool true) t
      else if c = 'f' then parseLit (s2l "alse") (.bool false) t
      else if c = 'n' then parseLit (s2l "ull") .none t
      else parseNum (c :: t)

/-- Parse array elements after the opening bracket. -/
def parseElems1 : Nat → Str → Option (List PyVal × Str)
  | 0, _ => Option.none
  | fuel + 1, s =>
    match skipWs s with
    | [] => Option.none
    | c :: t =>
      if c = ']' then some ([], t)
      else
        match parseVal fuel (c :: t) with
        | some (v, r) => parseElemsR fuel [v] r
        | Option.none => Option.none

/-- Parse the remainder of an array after a parsed element. -/
def parseElemsR : Nat → List PyVal → Str → Option (List PyVal × Str)
  | 0, _, _ => Option.none
  | fuel + 1, acc, s =>
    match skipWs s with
    | [] => Option.none
    | c :: t =>
      if c = ']' then some (acc, t)
      else if c = ',' then
        match parseVal fuel t with
        | some (v, r2) => parseElemsR fuel (acc ++ [v]) r2
        | Option.none => Option.none
      else Option.none

/-- Parse object members after the opening brace. -/
def parseMems1 : Nat → Str → Option (List (Str × PyVal) × Str)
  | 0, _ => Option.none
  | fuel + 1, s =>
    match skipWs s with
    | [] => Option.none
    | c :: t =>
      if c = '\x7d' then some ([], t)
      else if c = '"' then
        match parseStringBody t with
        | some (k, r1) =>
          (match skipWs r1 with
           | c2 :: r2 =>
             if c2 = ':' then
               match parseVal fuel r2 with
               | some (v, r3) => parseMemsR fuel [(k, v)] r3
               | Option.none => Option.none
             else Option.none
           | [] => Option.none)
        | Option.none => Option.none
      else Option.none

/-- Parse the remainder of an object after a parsed member. -/
def parseMemsR : Nat → List (Str × PyVal) → Str → Option (List (Str × PyVal) × Str)
  | 0, _, _ => Option.none
  | fuel + 1, acc, s =>
    match skipWs s with
    | [] => Option.none
    | c :: t =>
      if c = '\x7d' then some (acc, t)
      else if c = ',' then
        match skipWs t with
        | c1 :: t2 =>
          if c1 = '"' then
            match parseStringBody t2 with
            | some (k, r1) =>
              (match skipWs r1 with
               | c2 :: r2 =>
                 if c2 = ':' then
                   match parseVal fuel r2 with
                   | some (v, r3) => parseMemsR fuel (acc ++ [(k, v)]) r3
                   | Option.none => Option.none
                 else Option.none
               | [] => Option.none)
            | Option.none => Option.none
          else Option.none
        | [] => Option.none
      else Option.none

end

/-- `json.load`: parse a complete document, allowing trailing whitespace
only. -/
def parseJson (s : Str) : Option PyVal :=
  match parseVal (2 * s.length + 4) s with
  | some (v, r) => if (skipWs r).isEmpty then some v else Option.none
  | Option.none => Option.none

/-! ## Record store and cache layer (utils_json.py lines 23-115, 160-277, 569-591)

The file system is the single history file: `Option.none` when absent,
otherwise its content and modification time.  Wall-clock instants and
modification times are integers.  `threading.Lock` only serialises the
cache-state transitions modelled here as atomic state updates. -/

/-- The history file: content and last-modification time, or absent. -/
structure FileData where
  contenido : Str
  mtime : Int
deriving DecidableEq

/-- The file system visible to the store. -/
abbrev FileSys := Option FileData

/-- The state of the `CacheJSON` object: cached value, capture instant and
captured file modification time. -/
structure CacheJSON where
  cache : Option PyVal
  timestamp : Option Int
  file_mtime : Option Int
deriving DecidableEq

/-- `cache_duration` (60 seconds). -/
def cache_duration : Int := 60

/-- The state after `CacheJSON.invalidar`. -/
def cacheInvalidado : CacheJSON := ⟨Option.none, Option.none, Option.none⟩

/-- `CacheJSON.is_valid`: a cache entry exists, the file (when present)
still has the captured modification time, and the entry is younger than the
freshness window.  When the file is absent the modification-time check is
skipped. -/
def CacheJSON.is_valid (st : CacheJSON) (fs : FileSys) (now : Int) : Bool :=
  match st.cache, st.timestamp with
  | some _, some ts =>
    (match fs with
     | some fd => if st.file_mtime ≠ some fd.mtime then false else decide (now - ts < cache_duration)
     | Option.none => decide (now - ts < cache_duration))
  | _, _ => false

/-- `CacheJSON.get`: the cached value on a valid hit — except that the
source returns `self._cache.copy() if self._cache else None`, so a falsy
(empty) cached History is reported as a miss. -/
def CacheJSON.get (st : CacheJSON) (fs : FileSys) (now : Int) : Option PyVal :=
  if st.is_valid fs now then
    match st.cache with
    | some v => if pyTruthy v then some v else Option.none
    | Option.none => Option.none
  else Option.none

/-- `CacheJSON.set`: store the loaded data (a falsy value is stored as the
empty list), stamp the current instant, and capture the file's modification
time when the file exists (otherwise the previous captured time persists). -/
def CacheJSON.set (st : CacheJSON) (fs : FileSys) (now : Int) (datos : PyVal) : CacheJSON :=
  { cache := some (if pyTruthy datos then datos else .list []),
    timestamp := some now,
    file_mtime := match fs with | some fd => some fd.mtime | Option.none => st.file_mtime }

/-- The disk branch of `cargar_json` (utils_json.py lines 98-115): read and
parse the file, caching the result; a missing file yields the empty default
and a parse failure yields the empty default plus a printed warning (third
component). -/
def cargarDisco (fs : FileSys) (st : CacheJSON) (now : Int) (usar_cache : Bool) :
    PyVal × CacheJSON × Bool :=
  match fs with
  | some fd =>
    (match parseJson fd.contenido with
     | some datos => (datos, if usar_cache then st.set fs now datos else st, false)
     | Option.none => (.list [], st, true))
  | Option.none => (.list [], st, false)

/-- `cargar_json` (utils_json.py lines 79-115) with its default
`default=None` (both call sites pass a default that is empty, so the
returned fallback is the empty list either way): cache lookup first, then
the disk branch.  Result: loaded data, new cache state, warning printed. -/
def cargar_json (fs : FileSys) (st : CacheJSON) (now : Int) (usar_cache : Bool) :
    PyVal × CacheJSON × Bool :=
  if usar_cache then
    match st.get fs now with
    | some datos => (datos, st, false)
    | Option.none => cargarDisco fs st now usar_cache
  else cargarDisco fs st now usar_cache

/-- What an uncached read of the file yields. -/
def cargaDirecta (fs : FileSys) : PyVal :=
  match fs with
  | some fd => (parseJson fd.contenido).getD (.list [])
  | Option.none => .list []

/-- Largest index `≥ 1` holding `']'`, else 0: the backward scan of
`guardar_json_append` reads positions `size-1` down to `1` and leaves the
cursor at 0 when no `']'` is found. -/
def posCorchete (c : Str) : Nat :=
  List.foldl (fun acc i => if 1 ≤ i && c.getD i ' ' == ']' then i else acc) 0
    (List.range c.length)

/-- `'\n'.join(...)` over split lines. -/
def intercalaNl : List Str → Str
  | [] => []
  | [l] => l
  | l :: ls => l ++ '\n' :: intercalaNl ls

/-- `s.split('\n')`. -/
def divideLineas : Str → List Str
  | [] => [[]]
  | c :: rest =>
    if c = '\n' then [] :: divideLineas rest
    else
      match divideLineas rest with
      | l :: ls => (c :: l) :: ls
      | [] => [[c]]

/-- The reindentation in `guardar_json_append`: four extra spaces on every
line whose stripped content is nonempty. -/
def indentar (s : Str) : Str :=
  intercalaNl ((divideLineas s).map
    (fun l => if (pyStrip l).isEmpty then l else espacios 4 ++ l))

/-- The in-place textual surgery of `guardar_json_append` on a nonempty
file: seek the last `']'`, insert `',\n'` when the preceding character
exists and is not `'['`, then write the reindented record and `'\n]'`,
overwriting in place (bytes of the old file beyond the written region
survive, as with `open(…, 'r+')`). -/
def cirugiaAppend (contenido : Str) (dato : PyVal) : Str :=
  let pos := posCorchete contenido
  let sep : Str :=
    if 1 < pos && !(contenido.getD (pos - 1) ' ' == '[') then s2l ",\n" else []
  let escrito := sep ++ indentar (dumpVal cfgAppend 0 dato) ++ '\n' :: [']']
  contenido.take pos ++ escrito ++ contenido.drop (pos + escrito.length)

/-- `guardar_json_append` (utils_json.py lines 197-247): create
`[dato]` pretty-printed when the file is absent or empty, otherwise apply
the in-place surgery; always invalidate the cache and report success (I/O
faults are outside the model). -/
def guardar_json_append (dato : PyVal) (fs : FileSys) (_st : CacheJSON) (mtNuevo : Int) :
    Bool × FileSys × CacheJSON :=
  let contenido :=
    match fs with
    | Option.none => dumpVal cfgAppend 0 (.list [dato])
    | some fd =>
      if fd.contenido.isEmpty then dumpVal cfgAppend 0 (.list [dato])
      else cirugiaAppend fd.contenido dato
  (true, some ⟨contenido, mtNuevo⟩, cacheInvalidado)

/-- `guardar_json` (utils_json.py lines 160-194): load (through the cache),
append one record, rewrite the whole file choosing the compact format above
100 records; invalidate on success.  A non-list loaded value makes
`datos.append` raise, caught and reported as failure without invalidating. -/
def guardar_json (dato : PyVal) (fs : FileSys) (st : CacheJSON) (now mtNuevo : Int) :
    Bool × FileSys × CacheJSON :=
  match cargar_json fs st now true with
  | (.list l, _, _) =>
    let datos := l ++ [dato]
    let cfg := if 100 < datos.length then cfgCompact else cfgPretty
    (true, some ⟨dumpVal cfg 0 (.list datos), mtNuevo⟩, cacheInvalidado)
  | (_, stDespues, _) => (false, fs, stDespues)

/-- `guardar_json_batch` (utils_json.py lines 250-277): like `guardar_json`
but extending with a batch of records. -/
def guardar_json_batch (datos_nuevos : List PyVal) (fs : FileSys) (st : CacheJSON)
    (now mtNuevo : Int) : Bool × FileSys × CacheJSON :=
  match cargar_json fs st now true with
  | (.list l, _, _) =>
    let datos := l ++ datos_nuevos
    let cfg := if 100 < datos.length then cfgCompact else cfgPretty
    (true, some ⟨dumpVal cfg 0 (.list datos), mtNuevo⟩, cacheInvalidado)
  | (_, stDespues, _) => (false, fs, stDespues)

/-- `limpiar_historial` (utils_json.py lines 569-591): delete the file and
invalidate the cache when it exists; report whether a file was removed. -/
def limpiar_historial (fs : FileSys) (st : CacheJSON) : Bool × FileSys × CacheJSON :=
  match fs with
  | some _ => (true, Option.none, cacheInvalidado)
  | Option.none => (false, Option.none, st)

/-! ## Object-identity model of the cache hit (C4)

`CacheJSON.get` returns `self._cache.copy()`: a fresh list object whose
elements are the same record-dict references.  Object identity is modelled
with a heap of record dicts addressed by index; the cached History is a list
of addresses. -/

/-- Heap address of a record dict. -/
abbrev Addr := Nat

/-- A record dict stored on the heap. -/
abbrev ObjDict := List (Str × PyVal)

/-- The heap: record dicts addressed by index. -/
abbrev Heap := List ObjDict

/-- `CacheJSON` state in the object model: the cached History holds
references to record dicts. -/
structure CacheRefs where
  cache : Option (List Addr)
  timestamp : Option Int
  file_mtime : Option Int
deriving DecidableEq

/-- `CacheJSON.is_valid` in the object model (same logic as above). -/
def CacheRefs.is_valid (st : CacheRefs) (fs : FileSys) (now : Int) : Bool :=
  match st.cache, st.timestamp with
  | some _, some ts =>
    (match fs with
     | some fd => if st.file_mtime ≠ some fd.mtime then false else decide (now - ts < cache_duration)
     | Option.none => decide (now - ts < cache_duration))
  | _, _ => false

/-- `CacheJSON.get` in the object model: `self._cache.copy()` produces a new
list object containing the same addresses. -/
def CacheRefs.get (st : CacheRefs) (fs : FileSys) (now : Int) : Option (List Addr) :=
  if st.is_valid fs now then
    match st.cache with
    | some l => if !l.isEmpty then some l else Option.none
    | Option.none => Option.none
  else Option.none

/-- Dereference a History of record-dict addresses against the heap. -/
def materializar (heap : Heap) (addrs : List Addr) : List ObjDict :=
  addrs.map (fun a => heap.getD a [])

/-! ## Parser metatheory for the append claim (C1)

`guardar_json_append` splices text before the final `']'` of the history
file.  The lemmas below characterise what the parser consumed (decomposition)
and show that the consumed text can be replayed in front of a different
delimiter-headed continuation (replay), which is exactly what the splice
produces. -/

/-- No raw newline. -/
def noNl (s : Str) : Bool := s.all (fun c => !(c == '\n'))

/-- Only JSON whitespace. -/
def esWsStr (s : Str) : Bool := s.all esJsonWs

/-- A continuation that can follow any complete JSON value without altering
it: empty, or headed by whitespace, `','`, `']'` or the closing brace (none
of these can extend a number, literal, string or bracketed value). -/
def cabezaSegura (r : Str) : Bool :=
  match r with
  | [] => true
  | c :: _ => esJsonWs c || c == ',' || c == ']' || c == '\x7d'

/-- `X` parses cleanly as `v` in front of every safe continuation, given
enough fuel. -/
def CleanValP (X : Str) (v : PyVal) : Prop :=
  ∀ (g : Nat) (rest : Str), cabezaSegura rest = true →
    2 * (X.length + rest.length) + 2 ≤ g → parseVal g (X ++ rest) = some (v, rest)

/-- Characters whose JSON escaping is themselves. -/
def esSeguro (c : Char) : Bool := !(c == '"') && !(c == '\\') && !(c.toNat < 32)

/-- Strings that serialise without escapes. -/
def strSegura (s : Str) : Bool := s.all esSeguro

mutual

/-- Values all of whose strings (keys included) serialise without escapes. -/
def seguro : PyVal → Bool
  | .none => true
  | .bool _ => true
  | .num _ _ => true
  | .str s => strSegura s
  | .list l => seguroL l
  | .tup l => seguroL l
  | .dict e => seguroE e

/-- `seguro` on element lists. -/
def seguroL : List PyVal → Bool
  | [] => true
  | v :: vs => seguro v && seguroL vs

/-- `seguro` on entry lists. -/
def seguroE : List (Str × PyVal) → Bool
  | [] => true
  | (k, v) :: es => strSegura k && seguro v && seguroE es

end

/-- A valid Record as the data model describes it: `fecha`, `figura`,
`perimetro` and `parametros` in the order `registrar_resultado` builds them,
string fields escape-free (timestamps and the nine figure names are), the
perimeter a number, and the parameters a dict of escape-free names to
numbers. -/
def esRegistroValido : PyVal → Bool
  | .dict [(kf, .str f), (kg, .str g), (kp, .num _ pf), (kr, .dict params)] =>
    kf == s2l "fecha" && kg == s2l "figura" && kp == s2l "perimetro" &&
      kr == s2l "parametros" && strSegura f && strSegura g && pf.all esDigito &&
      params.all (fun p => strSegura p.1 &&
        (match p.2 with | .num _ vf => vf.all esDigito | _ => false))
  | _ => false

/-- Characters that can start a JSON value. -/
def cabezaValor (c : Char) : Bool :=
  c == '[' || c == '\x7b' || c == '"' || c == 't' || c == 'f' || c == 'n' ||
    c == '-' || esDigito c

/-- Master property of `parseVal` at a given fuel: every success splits the
input as whitespace, then the value text, then the rest; the value text starts
with a value character, does not end in `'['`, and replays after any
whitespace and before any safe continuation, given enough fuel. -/
def MVP (fuel : Nat) : Prop :=
  ∀ s v r, parseVal fuel s = some (v, r) →
    ∃ w d, s = w ++ (d ++ r) ∧ esWsStr w = true ∧ d ≠ [] ∧
      cabezaValor (d.headD ' ') = true ∧ d.getLast? ≠ some '[' ∧
      ∀ g w' r', esWsStr w' = true → cabezaSegura r' = true →
        2 * (w'.length + d.length + r'.length) + 2 ≤ g →
        parseVal g (w' ++ (d ++ r')) = some (v, r')

/-- Master property of `parseElems1`: a success consumes up to a closing
bracket; the consumed text replays before any other rest, and, when at least
one element was read, also replays with one clean value spliced in before the
closing bracket (a comma, a newline, the text, a newline). -/
def ME1P (fuel : Nat) : Prop :=
  ∀ s l r, parseElems1 fuel s = some (l, r) →
    ∃ c, s = c ++ ']' :: r ∧
      (l = [] → esWsStr c = true) ∧ (l ≠ [] → c ≠ []) ∧
      (c ≠ [] → c.getLast? ≠ some '[') ∧
      (∀ g r₂, 2 * (c.length + r₂.length) + 5 ≤ g →
        parseElems1 g (c ++ ']' :: r₂) = some (l, r₂)) ∧
      (l ≠ [] → ∀ g X v rest₂, CleanValP X v →
        2 * (c.length + X.length + rest₂.length) + 12 ≤ g →
        parseElems1 g (c ++ ',' :: '\n' :: (X ++ '\n' :: ']' :: rest₂)) =
          some (l ++ [v], rest₂))

/-- Master property of `parseElemsR`, as for `parseElems1` but carrying the
accumulator through both replays. -/
def MRP (fuel : Nat) : Prop :=
  ∀ acc s l r, parseElemsR fuel acc s = some (l, r) →
    ∃ c nuevos, s = c ++ ']' :: r ∧ l = acc ++ nuevos ∧
      (c ≠ [] → c.getLast? ≠ some '[') ∧
      (c ≠ [] → cabezaSegura c = true) ∧
      (∀ g acc₂ r₂, 2 * (c.length + r₂.length) + 5 ≤ g →
        parseElemsR g acc₂ (c ++ ']' :: r₂) = some (acc₂ ++ nuevos, r₂)) ∧
      (∀ g acc₂ X v rest₂, CleanValP X v →
        2 * (c.length + X.length + rest₂.length) + 12 ≤ g →
        parseElemsR g acc₂ (c ++ ',' :: '\n' :: (X ++ '\n' :: ']' :: rest₂)) =
          some (acc₂ ++ nuevos ++ [v], rest₂))

/-- Master property of `parseMems1`: a success consumes up to a closing brace
and the consumed text replays before any other rest. -/
def MM1P (fuel : Nat) : Prop :=
  ∀ s e r, parseMems1 fuel s = some (e, r) →
    ∃ c, s = c ++ '\x7d' :: r ∧
      ∀ g r₂, 2 * (c.length + r₂.length) + 5 ≤ g →
        parseMems1 g (c ++ '\x7d' :: r₂) = some (e, r₂)

/-- Master property of `parseMemsR`, as for `parseMems1` with the
accumulator. -/
def MMRP (fuel : Nat) : Prop :=
  ∀ acc s e r, parseMemsR fuel acc s = some (e, r) →
    ∃ c nuevos, s = c ++ '\x7d' :: r ∧ e = acc ++ nuevos ∧
      (c ≠ [] → cabezaSegura c = true) ∧
      ∀ g acc₂ r₂, 2 * (c.length + r₂.length) + 5 ≤ g →
        parseMemsR g acc₂ (c ++ '\x7d' :: r₂) = some (acc₂ ++ nuevos, r₂)

mutual

/-- Values that re-parse exactly: digit fractions, escape-free strings, no
tuples (a tuple serialises as an array and re-parses as a list). -/
def limpio : PyVal → Bool
  | .none => true
  | .bool _ => true
  | .num _ fr => fr.all esDigito
  | .str s => strSegura s
  | .list l => limpioL l
  | .tup _ => false
  | .dict e => limpioE e

/-- `limpio` on element lists. -/
def limpioL : List PyVal → Bool
  | [] => true
  | v :: vs => limpio v && limpioL vs

/-- `limpio` on entry lists. -/
def limpioE : List (Str × PyVal) → Bool
  | [] => true
  | (k, v) :: es => strSegura k && limpio v && limpioE es

end

/-- Replace every newline by a newline plus four spaces: the effect of the
append path's reindentation on the lines after the first. -/
def reemplazaNl : Str → Str
  | [] => []
  | c :: rest =>
    if c = '\n' then '\n' :: (espacios 4 ++ reemplazaNl rest)
    else c :: reemplazaNl rest

/-- All lines are non-blank (some non-space character on each). -/
def PPLineas (t : Str) : Prop := ∀ l ∈ divideLineas t, l.all pyIsSpace = false

/-- All lines after the first are non-blank. -/
def PTLineas (t : Str) : Prop := ∀ l ∈ (divideLineas t).tail, l.all pyIsSpace = false

/-- Files the append path can produce: the first record written into a
fresh file, later records added by the in-place surgery. -/
inductive Historial : Str → List PyVal → Prop where
  | primero (R : PyVal) : esRegistroValido R = true →
      Historial (dumpVal cfgAppend 0 (.list [R])) [R]
  | paso (F : Str) (h : List PyVal) (R : PyVal) : esRegistroValido R = true →
      Historial F h → Historial (cirugiaAppend F R) (h ++ [R])

/-- The shape invariant of an append-produced file: a bracketed body that
parses to the records and replays both re-closed and with one clean value
spliced in. -/
def InvArchivo (F : Str) (l : List PyVal) : Prop :=
  ∃ c, F = '[' :: (c ++ [']']) ∧ l ≠ [] ∧ c ≠ [] ∧ c.getLast? ≠ some '[' ∧
    (∀ g r₂, 2 * (c.length + r₂.length) + 5 ≤ g →
      parseElems1 g (c ++ ']' :: r₂) = some (l, r₂)) ∧
    (∀ g X v rest₂, CleanValP X v →
      2 * (c.length + X.length + rest₂.length) + 12 ≤ g →
      parseElems1 g (c ++ ',' :: '\n' :: (X ++ '\n' :: ']' :: rest₂)) =
        some (l ++ [v], rest₂))

/-- A concrete valid Record: a square of side 2.0 with perimeter 8.0. -/
def registroEjemplo : PyVal :=
  .dict [(s2l "fecha", .str (s2l "2024-01-01 00:00:00")),
         (s2l "figura", .str (s2l "cuadrado")),
         (s2l "perimetro", .num 8 (s2l "0")),
         (s2l "parametros", .dict [(s2l "lado", .num 2 (s2l "0"))])]

theorem pyIsSpace_asciiLower (c : Char) : pyIsSpace (asciiLower c) = pyIsSpace c := by
  unfold asciiLower
  split <;> rfl

theorem pyLower_dropWhile (s : Str) :
    (pyLower s).dropWhile pyIsSpace = pyLower (s.dropWhile pyIsSpace) := by
  induction s with
  | nil => rfl
  | cons c cs ih =>
    simp only [pyLower, List.map_cons, List.dropWhile_cons, pyIsSpace_asciiLower]
    split <;> simp_all [pyLower]

/-- Lowercasing commutes with stripping: `s.lower().strip() = s.strip().lower()`.
The source strips after lowering; the spec describes trimming first. -/
theorem pyStrip_pyLower (s : Str) : pyStrip (pyLower s) = pyLower (pyStrip s) := by
  unfold pyStrip
  rw [pyLower_dropWhile]
  generalize s.dropWhile pyIsSpace = t
  have hrev : (pyLower t).reverse = pyLower t.reverse := by
    simp [pyLower, List.map_reverse]
  rw [hrev, pyLower_dropWhile]
  simp [pyLower, List.map_reverse]

theorem filtrarFigura_filter (name : Str) (l : List PyVal)
    (h : ∀ r ∈ l, ∃ e s, r = PyVal.dict e ∧ dictGet e (s2l "figura") (.str []) = .str s) :
    filtrarFigura (pyStrip (pyLower name)) l = .ok (l.filter (matchesFigura name)) := by
  induction l with
  | nil => rfl
  | cons r rest ih =>
    obtain ⟨e, s, rfl, hs⟩ := h r (List.mem_cons_self r rest)
    have htail := ih (fun r hr => h r (List.mem_cons_of_mem _ hr))
    rw [pyStrip_pyLower] at htail
    simp only [filtrarFigura, hs, pyStrip_pyLower, htail, List.filter_cons, matchesFigura]
    rfl

/-- C8: for every History that is a list of record dicts (each with a string
`figura` field) and every query string, `buscar_por_figura` selects exactly
the records whose `figura` equals the query compared case-insensitively after
trimming surrounding whitespace from the query, preserving History order
(`List.filter`); an empty selection yields the `sinResultados` outcome (not an
error), and a non-list History yields the distinct `noEsLista` outcome. -/
theorem C8_buscar_por_figura (name : Str) (l : List PyVal)
    (h : ∀ r ∈ l, ∃ e s, r = PyVal.dict e ∧ dictGet e (s2l "figura") (.str []) = .str s) :
    buscar_por_figura name (.list l) =
      .ok (if (l.filter (matchesFigura name)).isEmpty then .sinResultados
           else .tabla (l.filter (matchesFigura name)))
    ∧ ∀ d : PyVal, (∀ m : List PyVal, d ≠ .list m) →
        buscar_por_figura name d = .ok .noEsLista := by
  constructor
  · simp only [buscar_por_figura, filtrarFigura_filter name l h, Except.bind]
    rfl
  · intro d hd
    cases d with
    | list m => exact absurd rfl (hd m)
    | none => rfl
    | bool b => rfl
    | num i f => rfl
    | str s => rfl
    | tup t => rfl
    | dict e => rfl

theorem C8_buscar_por_figura_witness :
    buscar_por_figura (s2l " CIRCULO ")
      (PyVal.list
        [PyVal.dict [(s2l "figura", .str (s2l "circulo")), (s2l "perimetro", .num 12 (s2l "57"))],
         PyVal.dict [(s2l "figura", .str (s2l "cuadrado")), (s2l "perimetro", .num 8 [])],
         PyVal.dict [(s2l "figura", .str (s2l "circulo"))]]) =
      .ok (.tabla
        [PyVal.dict [(s2l "figura", .str (s2l "circulo")), (s2l "perimetro", .num 12 (s2l "57"))],
         PyVal.dict [(s2l "figura", .str (s2l "circulo"))]])
    ∧ buscar_por_figura (s2l " CIRCULO ") (PyVal.str (s2l "x")) = .ok .noEsLista := by
  have h := C8_buscar_por_figura (s2l " CIRCULO ")
    [PyVal.dict [(s2l "figura", .str (s2l "circulo")), (s2l "perimetro", .num 12 (s2l "57"))],
     PyVal.dict [(s2l "figura", .str (s2l "cuadrado")), (s2l "perimetro", .num 8 [])],
     PyVal.dict [(s2l "figura", .str (s2l "circulo"))]]
    (by
      intro r hr
      simp only [List.mem_cons, List.not_mem_nil, or_false] at hr
      rcases hr with rfl | rfl | rfl
      · exact ⟨_, s2l "circulo", rfl, rfl⟩
      · exact ⟨_, s2l "cuadrado", rfl, rfl⟩
      · exact ⟨_, s2l "circulo", rfl, rfl⟩)
  constructor
  · rw [h.1]
    rfl
  · exact h.2 _ (fun m hm => PyVal.noConfusion hm)

/-- C3: the memoized statistics path is broken in the code.  `datos_a_tuple`
converts each record dict into a tuple, and `calcular_estadisticas_cached`
then calls `.get` on those tuples, raising `AttributeError` for every
History with at least one record; the claimed equality with
`calcular_estadisticas_sin_cache` therefore fails (shown here on the
single-record History `[dict (figura circulo, perimetro 10)]`, on which the
uncached computation succeeds). -/
theorem C3_cached_path_raises :
    datos_a_tuple [PyVal.dict [(s2l "figura", .str (s2l "circulo")),
        (s2l "perimetro", .num 10 [])]] =
      some (PyVal.tup [PyVal.tup [
        PyVal.tup [.str (s2l "figura"), .str (s2l "circulo")],
        PyVal.tup [.str (s2l "perimetro"), .num 10 []]]])
    ∧ calcular_estadisticas_cached (PyVal.tup [PyVal.tup [
        PyVal.tup [.str (s2l "figura"), .str (s2l "circulo")],
        PyVal.tup [.str (s2l "perimetro"), .num 10 []]]]) =
      .error .attributeError
    ∧ calcular_estadisticas_sin_cache [PyVal.dict [(s2l "figura", .str (s2l "circulo")),
        (s2l "perimetro", .num 10 [])]] =
      .ok ⟨1, 10, 10, 10, .str (s2l "circulo")⟩ := by
  refine ⟨by decide, by with_unfolding_all decide, by with_unfolding_all decide⟩

theorem perimetrosNumericos_ok (datos : List PyVal)
    (h : ∀ d ∈ datos, ∃ e, d = PyVal.dict e) :
    perimetrosNumericos datos = .ok (perimetrosDe datos) := by
  induction datos with
  | nil => rfl
  | cons d rest ih =>
    obtain ⟨e, rfl⟩ := h d (List.mem_cons_self d rest)
    have htail := ih (fun d hd => h d (List.mem_cons_of_mem _ hd))
    simp only [perimetrosNumericos, getPerimetro]
    rw [htail]
    rfl

theorem figurasPresentes_ok (datos : List PyVal)
    (h : ∀ d ∈ datos, ∃ e, d = PyVal.dict e) :
    figurasPresentes datos = .ok (figurasDe datos) := by
  induction datos with
  | nil => rfl
  | cons d rest ih =>
    obtain ⟨e, rfl⟩ := h d (List.mem_cons_self d rest)
    have htail := ih (fun d hd => h d (List.mem_cons_of_mem _ hd))
    simp only [figurasPresentes, pyIn, getFigura]
    cases hn : e.any (·.1 == s2l "figura")
    · rw [htail]
      simp only [figurasDe, hn]
      rfl
    · rw [htail]
      simp only [figurasDe, hn]
      rfl

theorem exbind_ok {e a b : Type} (x : a) (f : a → Except e b) :
    (Except.ok x : Except e a) >>= f = f x := rfl

/-- C7: for every History of record dicts the statistics computation (the
effective path `calcular_estadisticas_sin_cache`; cf. C3 for the broken
memoized path) counts every record in `total_calculos` regardless of
validity, and computes average, maximum and minimum only over the records
whose `perimetro` value is an actual number (`perimetrosDe`); in particular
the History with perimeters `10.0, 20.0, "bad"` and figures
`circulo, circulo, cuadrado` yields total 3, average 15, min 10, max 20 and
most-frequent figure `circulo`. -/
theorem C7_estadisticas (datos : List PyVal)
    (h : ∀ d ∈ datos, ∃ e, d = PyVal.dict e) :
    (∃ st, calcular_estadisticas_sin_cache datos = .ok st ∧
      st.total_calculos = datos.length ∧
      st.perimetro_promedio = (if (perimetrosDe datos).isEmpty then 0
        else qdiv (qsum (perimetrosDe datos)) (natQ (perimetrosDe datos).length)) ∧
      st.perimetro_maximo = (if (perimetrosDe datos).isEmpty then 0
        else maxLista (perimetrosDe datos)) ∧
      st.perimetro_minimo = (if (perimetrosDe datos).isEmpty then 0
        else minLista (perimetrosDe datos)))
    ∧ calcular_estadisticas_sin_cache
        [PyVal.dict [(s2l "figura", .str (s2l "circulo")), (s2l "perimetro", .num 10 (s2l "0"))],
         PyVal.dict [(s2l "figura", .str (s2l "circulo")), (s2l "perimetro", .num 20 (s2l "0"))],
         PyVal.dict [(s2l "figura", .str (s2l "cuadrado")), (s2l "perimetro", .str (s2l "bad"))]] =
      .ok ⟨3, 15, 20, 10, .str (s2l "circulo")⟩ := by
  constructor
  · have hp := perimetrosNumericos_ok datos h
    have hf := figurasPresentes_ok datos h
    by_cases hpe : (perimetrosDe datos).isEmpty
    · refine ⟨⟨datos.length, 0, 0, 0,
        if (figurasDe datos).isEmpty then PyVal.str (s2l "ninguna")
        else (masFrecuente (figurasDe datos)).getD (.str (s2l "ninguna"))⟩,
        ?_, rfl, by simp [hpe], by simp [hpe], by simp [hpe]⟩
      simp only [calcular_estadisticas_sin_cache, hp, hf, exbind_ok, hpe]
      rfl
    · refine ⟨⟨datos.length, qdiv (qsum (perimetrosDe datos)) (natQ (perimetrosDe datos).length),
        maxLista (perimetrosDe datos), minLista (perimetrosDe datos),
        if (figurasDe datos).isEmpty then PyVal.str (s2l "ninguna")
        else (masFrecuente (figurasDe datos)).getD (.str (s2l "ninguna"))⟩,
        ?_, rfl, by simp [hpe], by simp [hpe], by simp [hpe]⟩
      rw [Bool.not_eq_true] at hpe
      simp only [calcular_estadisticas_sin_cache, hp, hf, exbind_ok, hpe]
      rfl
  · with_unfolding_all decide

theorem C7_estadisticas_witness :
    ∃ st, calcular_estadisticas_sin_cache
        [PyVal.dict [(s2l "figura", .str (s2l "circulo")), (s2l "perimetro", .num 10 (s2l "0"))],
         PyVal.dict [(s2l "figura", .str (s2l "circulo")), (s2l "perimetro", .num 20 (s2l "0"))],
         PyVal.dict [(s2l "figura", .str (s2l "cuadrado")), (s2l "perimetro", .str (s2l "bad"))]] =
      .ok st ∧ st.total_calculos = 3 := by
  obtain ⟨⟨st, h1, h2, _⟩, _⟩ := C7_estadisticas
    [PyVal.dict [(s2l "figura", .str (s2l "circulo")), (s2l "perimetro", .num 10 (s2l "0"))],
     PyVal.dict [(s2l "figura", .str (s2l "circulo")), (s2l "perimetro", .num 20 (s2l "0"))],
     PyVal.dict [(s2l "figura", .str (s2l "cuadrado")), (s2l "perimetro", .str (s2l "bad"))]]
    (by
      intro d hd
      simp only [List.mem_cons, List.not_mem_nil, or_false] at hd
      rcases hd with rfl | rfl | rfl
      · exact ⟨_, rfl⟩
      · exact ⟨_, rfl⟩
      · exact ⟨_, rfl⟩)
  exact ⟨st, h1, h2⟩

/-- C2: the claim that `calcular_perimetro('triangulo_escaleno', ...)` raises
`ValueError` if and only if the triangle inequality is violated fails on the
code: for the positive sides `5, 1, 2` the inequality is violated
(`1 + 2 > 5` is false), yet the mis-parenthesised check does not fire and the
code returns the perimeter `8.0` (and registers a record) instead of raising.
This matches the operator-precedence bug the spec flags in its design notes. -/
theorem C2_escaleno_desigualdad_bug :
    ((5:ℚ) > 0 ∧ (1:ℚ) > 0 ∧ (2:ℚ) > 0) ∧
    ¬(((5:ℚ) + 1 > 2) ∧ ((1:ℚ) + 2 > 5) ∧ ((5:ℚ) + 2 > 1)) ∧
    perimetro_triangulo_escaleno 5 1 2 = .ok 8 ∧
    calcular_perimetro (s2l "triangulo_escaleno") (s2l "01/01/2026 12:00:00")
        [(s2l "lado_1", 5), (s2l "lado_2", 1), (s2l "lado_3", 2)] =
      .ok (.numero 8, some ⟨s2l "01/01/2026 12:00:00", s2l "triangulo_escaleno", 8,
        [(s2l "lado_1", 5), (s2l "lado_2", 1), (s2l "lado_3", 2)]⟩) := by
  refine ⟨by norm_num, by norm_num, by with_unfolding_all decide, ?_⟩
  with_unfolding_all decide

/-- C10: for every known figure, calling `calcular_perimetro` with a keyword
argument whose name the figure's formula function does not accept raises no
exception: the `TypeError` from binding is caught and the error string
`Argumentos incorrectos para la figura <figura>` is returned, and no record
is registered (second component `none`, so nothing is appended to the
persisted History). -/
theorem C10_argumentos_incorrectos (figura : Str) (params : List Str)
    (kwargs : List (Str × ℚ)) (fecha : Str)
    (hfig : figurasParams.lookup figura = some params)
    (hbad : ∃ p ∈ kwargs, params.contains p.1 = false) :
    calcular_perimetro figura fecha kwargs =
      .ok (.cadena (s2l "Argumentos incorrectos para la figura " ++ figura), Option.none) := by
  obtain ⟨p, hp, hnp⟩ := hbad
  have hall : kwargs.all (fun p => params.contains p.1) = false := by
    rw [List.all_eq_false]
    refine ⟨p, hp, ?_⟩
    intro hmem
    rw [hnp] at hmem
    exact Bool.noConfusion hmem
  have hliga : ligaCorrectamente params kwargs = false := by
    unfold ligaCorrectamente
    rw [hall, Bool.false_and]
  unfold calcular_perimetro
  rw [hfig]
  simp [hliga]

theorem C10_argumentos_incorrectos_witness :
    figurasParams.lookup (s2l "cuadrado") = some [s2l "lado"] ∧
    calcular_perimetro (s2l "cuadrado") (s2l "01/01/2026 12:00:00") [(s2l "ladoo", 1)] =
      .ok (.cadena (s2l "Argumentos incorrectos para la figura " ++ s2l "cuadrado"),
        Option.none) := by
  refine ⟨by decide, ?_⟩
  exact C10_argumentos_incorrectos (s2l "cuadrado") [s2l "lado"]
    [(s2l "ladoo", 1)] (s2l "01/01/2026 12:00:00") (by decide)
    ⟨(s2l "ladoo", 1), by decide, by decide⟩

theorem get_cacheInvalidado (fs : FileSys) (now : Int) :
    CacheJSON.get cacheInvalidado fs now = Option.none := rfl

theorem cargar_invalidado_datos (fs : FileSys) (now : Int) :
    (cargar_json fs cacheInvalidado now true).1 = cargaDirecta fs := by
  have hget : CacheJSON.get cacheInvalidado fs now = Option.none := rfl
  unfold cargar_json
  rw [hget]
  cases fs with
  | none => rfl
  | some fd =>
    rcases hp : parseJson fd.contenido with _ | v <;>
      simp [cargarDisco, cargaDirecta, hp]

/-- C5: after every successful write operation — `guardar_json_append`,
`guardar_json_batch`, or `limpiar_historial` — the returned cache state is
the invalidated one, so at any later instant (even inside the 60-second
freshness window) `CacheJSON.get` cannot produce a hit and an immediately
following `cargar_json` returns the fresh disk read of the written file. -/
theorem C5_invalidacion (dato : PyVal) (lote : List PyVal) (fs : FileSys) (st : CacheJSON)
    (now now2 mtNuevo : Int) :
    ((guardar_json_append dato fs st mtNuevo).1 = true ∧
      (guardar_json_append dato fs st mtNuevo).2.2 = cacheInvalidado ∧
      CacheJSON.get (guardar_json_append dato fs st mtNuevo).2.2
        (guardar_json_append dato fs st mtNuevo).2.1 now2 = Option.none ∧
      (cargar_json (guardar_json_append dato fs st mtNuevo).2.1
        (guardar_json_append dato fs st mtNuevo).2.2 now2 true).1 =
        cargaDirecta (guardar_json_append dato fs st mtNuevo).2.1) ∧
    ((guardar_json_batch lote fs st now mtNuevo).1 = true →
      (guardar_json_batch lote fs st now mtNuevo).2.2 = cacheInvalidado ∧
      CacheJSON.get (guardar_json_batch lote fs st now mtNuevo).2.2
        (guardar_json_batch lote fs st now mtNuevo).2.1 now2 = Option.none ∧
      (cargar_json (guardar_json_batch lote fs st now mtNuevo).2.1
        (guardar_json_batch lote fs st now mtNuevo).2.2 now2 true).1 =
        cargaDirecta (guardar_json_batch lote fs st now mtNuevo).2.1) ∧
    ((limpiar_historial fs st).1 = true →
      (limpiar_historial fs st).2.2 = cacheInvalidado ∧
      CacheJSON.get (limpiar_historial fs st).2.2 (limpiar_historial fs st).2.1 now2 =
        Option.none ∧
      (cargar_json (limpiar_historial fs st).2.1 (limpiar_historial fs st).2.2 now2 true).1 =
        cargaDirecta (limpiar_historial fs st).2.1) := by
  refine ⟨⟨rfl, rfl, get_cacheInvalidado _ _, cargar_invalidado_datos _ _⟩, ?_, ?_⟩
  · intro hok
    unfold guardar_json_batch at hok ⊢
    rcases hm : cargar_json fs st now true with ⟨d, st1, w⟩
    rw [hm] at hok
    cases d with
    | list l => exact ⟨rfl, get_cacheInvalidado _ _, cargar_invalidado_datos _ _⟩
    | none => exact Bool.noConfusion hok
    | bool b => exact Bool.noConfusion hok
    | num i f => exact Bool.noConfusion hok
    | str sx => exact Bool.noConfusion hok
    | tup t => exact Bool.noConfusion hok
    | dict e => exact Bool.noConfusion hok
  · intro hok
    cases fs with
    | none => exact absurd hok (by simp [limpiar_historial])
    | some fd =>
      exact ⟨rfl, get_cacheInvalidado _ _, cargar_invalidado_datos _ _⟩

theorem C5_invalidacion_witness :
    (guardar_json_append (PyVal.dict []) (some ⟨s2l "[]", 0⟩)
      ⟨some (.list [.dict []]), some 0, some 0⟩ 1).2.2 = cacheInvalidado ∧
    (limpiar_historial (some ⟨s2l "[]", 0⟩)
      ⟨some (.list [.dict []]), some 0, some 0⟩).1 = true ∧
    (limpiar_historial (some ⟨s2l "[]", 0⟩)
      ⟨some (.list [.dict []]), some 0, some 0⟩).2.2 = cacheInvalidado := by
  have h := C5_invalidacion (PyVal.dict []) [PyVal.dict []] (some ⟨s2l "[]", 0⟩)
    ⟨some (.list [.dict []]), some 0, some 0⟩ 0 30 1
  exact ⟨h.1.2.1, rfl, (h.2.2 rfl).1⟩

theorem is_valid_sin_cache (st : CacheJSON) (fs : FileSys) (now : Int)
    (hc : st.cache = Option.none) : st.is_valid fs now = false := by
  unfold CacheJSON.is_valid
  rw [hc]

/-- C6: with no cached entry, `cargar_json` on an absent file returns the
empty History without raising and without a warning, and on a file whose
content does not parse as JSON returns the empty History with the parse
error reported as a warning (third component) and without raising — in the
embedding, both outcomes are ordinary return values. -/
theorem C6_cargar_json (fs : FileSys) (st : CacheJSON) (now : Int) (u : Bool)
    (hc : st.cache = Option.none) :
    (fs = Option.none → cargar_json fs st now u = (.list [], st, false)) ∧
    (∀ fd, fs = some fd → parseJson fd.contenido = Option.none →
      cargar_json fs st now u = (.list [], st, true)) := by
  have hget : st.get fs now = Option.none := by
    unfold CacheJSON.get
    rw [is_valid_sin_cache st fs now hc]
    rfl
  constructor
  · intro hfs
    subst hfs
    unfold cargar_json
    rw [hget]
    cases u <;> rfl
  · intro fd hfs hparse
    subst hfs
    unfold cargar_json
    rw [hget]
    cases u <;> simp [cargarDisco, hparse]

theorem C6_cargar_json_witness :
    cargar_json Option.none cacheInvalidado 0 true = (.list [], cacheInvalidado, false) ∧
    cargar_json (some ⟨s2l "not json", 0⟩) cacheInvalidado 0 true =
      (.list [], cacheInvalidado, true) := by
  have h := C6_cargar_json Option.none cacheInvalidado 0 true rfl
  have h2 := C6_cargar_json (some ⟨s2l "not json", 0⟩) cacheInvalidado 0 true rfl
  exact ⟨h.1 rfl, h2.2 ⟨s2l "not json", 0⟩ rfl (by decide)⟩

/-- C9: whenever the cached value is the empty History, `CacheJSON.get`
returns `None` even if the entry is otherwise valid (the source's truthiness
test `self._cache.copy() if self._cache else None`), so `cargar_json`
takes the disk branch: an empty History is never served from the cache. -/
theorem C9_cache_vacia (st : CacheJSON) (fs : FileSys) (now : Int)
    (h : st.cache = some (.list [])) :
    CacheJSON.get st fs now = Option.none ∧
    cargar_json fs st now true = cargarDisco fs st now true := by
  have hget : CacheJSON.get st fs now = Option.none := by
    unfold CacheJSON.get
    rw [h]
    cases st.is_valid fs now <;> rfl
  refine ⟨hget, ?_⟩
  unfold cargar_json
  rw [hget]
  rfl

theorem C9_cache_vacia_witness :
    CacheJSON.is_valid ⟨some (.list []), some 0, some 5⟩ (some ⟨s2l "[]", 5⟩) 10 = true ∧
    CacheJSON.get ⟨some (.list []), some 0, some 5⟩ (some ⟨s2l "[]", 5⟩) 10 = Option.none ∧
    cargar_json (some ⟨s2l "[]", 5⟩) ⟨some (.list []), some 0, some 5⟩ 10 true =
      cargarDisco (some ⟨s2l "[]", 5⟩) ⟨some (.list []), some 0, some 5⟩ 10 true := by
  have h := C9_cache_vacia ⟨some (.list []), some 0, some 5⟩ (some ⟨s2l "[]", 5⟩) 10 rfl
  exact ⟨by decide, h.1, h.2⟩

theorem getD_set_self (h : Heap) (a : Nat) (d : ObjDict) (ha : a < h.length) :
    (h.set a d).getD a [] = d := by
  induction h generalizing a with
  | nil => exact absurd ha (by simp)
  | cons x xs ih =>
    cases a with
    | zero => rfl
    | succ a => exact ih a (Nat.lt_of_succ_lt_succ ha)

theorem materializar_eq_at_mem (l : List Addr) (a : Addr) (h h' : Heap) (hm : a ∈ l)
    (he : materializar h' l = materializar h l) : h'.getD a [] = h.getD a [] := by
  induction l with
  | nil => cases hm
  | cons x xs ih =>
    simp only [materializar, List.map_cons, List.cons.injEq] at he
    rcases List.mem_cons.mp hm with rfl | hm2
    · exact he.1
    · exact ih hm2 he.2

/-- C4 counterexample: the claim that a cache hit is a defensive copy down
to the record dicts fails.  With the heap holding one record dict at address
0 and a valid fresh cache entry `[0]`, `get` returns the address list `[0]`
(sharing the dict), and an in-place mutation of that dict — growing it by a
key — changes the History the cache's internal state denotes, while the
cache state itself still holds the same addresses. -/
theorem C4_copia_superficial_contraejemplo :
    CacheRefs.get ⟨some [0], some 0, some 5⟩ (some ⟨s2l "[]", 5⟩) 10 = some [0] ∧
    materializar ([[(s2l "figura", PyVal.str (s2l "circulo"))]].set 0
        [(s2l "figura", PyVal.str (s2l "circulo")), (s2l "perimetro", PyVal.num 99 [])]) [0] ≠
      materializar [[(s2l "figura", PyVal.str (s2l "circulo"))]] [0] := by
  refine ⟨by decide, by decide⟩

/-- C4 amended: a valid nonempty cache hit returns a shallow copy — a fresh
list object with the same record-dict references (`some l`, the internal
address list itself), so list-level mutation by the caller cannot change the
cache state, but an in-place mutation of any shared record dict changes the
History the cache's internal state denotes. -/
theorem C4_copia_superficial (st : CacheRefs) (fs : FileSys) (now : Int) (l : List Addr)
    (hv : st.is_valid fs now = true) (hc : st.cache = some l) (hne : l ≠ []) :
    CacheRefs.get st fs now = some l ∧
    ∀ a ∈ l, ∀ (heap : Heap) (d : ObjDict), a < heap.length → d ≠ heap.getD a [] →
      materializar (heap.set a d) l ≠ materializar heap l := by
  constructor
  · unfold CacheRefs.get
    rw [hv, hc]
    simp [hne]
  · intro a ha heap d hlen hd he
    exact hd ((getD_set_self heap a d hlen) ▸ materializar_eq_at_mem l a heap (heap.set a d) ha he)

theorem C4_copia_superficial_witness :
    CacheRefs.get ⟨some [0], some 0, some 5⟩ (some ⟨s2l "[]", 5⟩) 10 = some [0] ∧
    materializar ([[(s2l "figura", PyVal.str (s2l "circulo"))]].set 0 []) [0] ≠
      materializar [[(s2l "figura", PyVal.str (s2l "circulo"))]] [0] := by
  have h := C4_copia_superficial ⟨some [0], some 0, some 5⟩ (some ⟨s2l "[]", 5⟩) 10 [0]
    (by decide) rfl (by decide)
  refine ⟨h.1, h.2 0 (by decide) [[(s2l "figura", PyVal.str (s2l "circulo"))]] [] (by decide)
    (by decide)⟩

theorem skipWs_ws_append (w t : Str) (hw : esWsStr w = true) :
    skipWs (w ++ t) = skipWs t := by
  induction w with
  | nil => rfl
  | cons c cs ih =>
    simp only [esWsStr, List.all_cons, Bool.and_eq_true] at hw
    simp only [List.cons_append, skipWs, List.dropWhile_cons, hw.1]
    exact ih hw.2

theorem skipWs_no_ws (c : Char) (t : Str) (hc : esJsonWs c = false) :
    skipWs (c :: t) = c :: t := by
  simp [skipWs, List.dropWhile_cons, hc]

theorem skipWs_decomp (s : Str) :
    ∃ w, s = w ++ skipWs s ∧ esWsStr w = true ∧
      (skipWs s = [] ∨ esJsonWs ((skipWs s).headD ' ') = false) := by
  induction s with
  | nil => exact ⟨[], rfl, rfl, Or.inl rfl⟩
  | cons c cs ih =>
    cases hc : esJsonWs c with
    | true =>
      obtain ⟨w, hw1, hw2, hw3⟩ := ih
      refine ⟨c :: w, ?_, ?_, ?_⟩
      · simp only [skipWs, List.dropWhile_cons, hc, List.cons_append]
        exact congrArg (c :: ·) hw1
      · simp only [esWsStr, List.all_cons, Bool.and_eq_true, hc, true_and]
        exact hw2
      · simpa [skipWs, List.dropWhile_cons, hc] using hw3
    | false =>
      exact ⟨[], by simp [skipWs, List.dropWhile_cons, hc], rfl,
        Or.inr (by simp [skipWs, List.dropWhile_cons, hc])⟩

theorem cogeDigitos_decomp (s : Str) :
    ∃ ds r, cogeDigitos s = (ds, r) ∧ s = ds ++ r ∧ (∀ c ∈ ds, esDigito c = true) ∧
      (r = [] ∨ esDigito (r.headD ' ') = false) := by
  induction s with
  | nil => exact ⟨[], [], rfl, rfl, by simp, Or.inl rfl⟩
  | cons c cs ih =>
    cases hc : esDigito c with
    | true =>
      obtain ⟨ds, r, h1, h2, h3, h4⟩ := ih
      refine ⟨c :: ds, r, ?_, by simpa using h2, ?_, h4⟩
      · simp [cogeDigitos, hc, h1]
      · intro x hx
        rcases List.mem_cons.mp hx with rfl | hx2
        · exact hc
        · exact h3 x hx2
    | false =>
      exact ⟨[], c :: cs, by simp [cogeDigitos, hc], rfl, by simp,
        Or.inr (by simpa using hc)⟩

theorem cogeDigitos_replay (ds r' : Str) (hds : ∀ c ∈ ds, esDigito c = true)
    (hr : r' = [] ∨ esDigito (r'.headD ' ') = false) :
    cogeDigitos (ds ++ r') = (ds, r') := by
  induction ds with
  | nil =>
    rcases hr with rfl | hr2
    · rfl
    · cases r' with
      | nil => rfl
      | cons c t =>
        simp only [List.headD_cons] at hr2
        simp [cogeDigitos, hr2]
  | cons c cs ih =>
    have hc := hds c (List.mem_cons_self c cs)
    have ihr := ih (fun x hx => hds x (List.mem_cons_of_mem _ hx))
    simp [cogeDigitos, hc, ihr]

theorem cabezaSegura_no_digito (r : Str) (h : cabezaSegura r = true) :
    r = [] ∨ esDigito (r.headD ' ') = false := by
  cases r with
  | nil => exact Or.inl rfl
  | cons c t =>
    refine Or.inr ?_
    simp only [cabezaSegura, esJsonWs, Bool.or_eq_true, beq_iff_eq, or_assoc] at h
    simp only [List.headD_cons]
    rcases h with rfl | rfl | rfl | rfl | rfl | rfl | rfl <;> rfl

theorem cabezaSegura_no_punto (r : Str) (h : cabezaSegura r = true) :
    r = [] ∨ (r.headD ' ') ≠ '.' := by
  cases r with
  | nil => exact Or.inl rfl
  | cons c t =>
    refine Or.inr ?_
    simp only [cabezaSegura, esJsonWs, Bool.or_eq_true, beq_iff_eq, or_assoc] at h
    simp only [List.headD_cons]
    rcases h with rfl | rfl | rfl | rfl | rfl | rfl | rfl <;> decide

theorem parseNumNat_master (s : Str) (i : Int) (f r : Str)
    (h : parseNumNat s = some ((i, f), r)) :
    ∃ d, s = d ++ r ∧ d ≠ [] ∧ esDigito (d.headD ' ') = true ∧
      esDigito (d.getLastD ' ') = true ∧
      ∀ r', cabezaSegura r' = true → parseNumNat (d ++ r') = some ((i, f), r') := by
  obtain ⟨ds, r0, hcd, hsplit, hdig, hhead⟩ := cogeDigitos_decomp s
  simp only [parseNumNat, hcd] at h
  by_cases hne : ds.isEmpty = true
  · rw [if_pos hne] at h
    exact Option.noConfusion h
  · rw [if_neg hne] at h
    by_cases hz : (1 < ds.length && ds.headD ' ' == '0') = true
    · rw [if_pos hz] at h
      exact Option.noConfusion h
    · rw [if_neg hz] at h
      have hdsne : ds ≠ [] := by simpa [List.isEmpty_iff] using hne
      have hdhead : esDigito (ds.headD ' ') = true := by
        cases ds with
        | nil => exact absurd rfl hdsne
        | cons c cs => exact hdig c (List.mem_cons_self c cs)
      have hdlast : esDigito (ds.getLastD ' ') = true := by
        cases hlast : ds.getLast? with
        | none => exact absurd (List.getLast?_eq_none_iff.mp hlast) hdsne
        | some c =>
          have hm : c ∈ ds := List.mem_of_getLast?_eq_some hlast
          simp only [List.getLastD_eq_getLast?, hlast, Option.getD_some]
          exact hdig c hm
      have replaySinPunto : ∀ r', cabezaSegura r' = true →
          parseNumNat (ds ++ r') = some ((Int.ofNat (digitsToNat ds), []), r') := by
        intro r' hr'
        rw [parseNumNat]
        simp only [cogeDigitos_replay ds r' hdig (cabezaSegura_no_digito r' hr')]
        rw [if_neg hne, if_neg hz]
        cases r' with
        | nil => rfl
        | cons c t =>
          have hnp := cabezaSegura_no_punto (c :: t) hr'
          simp only [List.headD_cons] at hnp
          rcases hnp with hnp | hnp
          · exact absurd hnp (by simp)
          · simp [hnp]
      cases r0 with
      | nil =>
        simp only [Option.some.injEq, Prod.mk.injEq] at h
        obtain ⟨⟨hi, hf⟩, hr⟩ := h
        subst hi hf hr
        exact ⟨ds, by simpa using hsplit, hdsne, hdhead, hdlast, replaySinPunto⟩
      | cons c0 r2 =>
        have h2 : (if c0 = '.' then
              (if List.isEmpty (cogeDigitos r2).1 = true then
                some ((Int.ofNat (digitsToNat ds), ([] : Str)), '.' :: r2)
              else some ((Int.ofNat (digitsToNat ds), (cogeDigitos r2).1), (cogeDigitos r2).2))
            else some ((Int.ofNat (digitsToNat ds), ([] : Str)), c0 :: r2)) = some ((i, f), r) := h
        clear h
        rename' h2 => h
        by_cases hp : c0 = '.'
        · subst hp
          rw [if_pos rfl] at h
          obtain ⟨fs, r3, hcd2, hsplit2, hdig2, hhead2⟩ := cogeDigitos_decomp r2
          rw [hcd2] at h
          by_cases hfe : fs.isEmpty
          · simp only [hfe, if_true, Option.some.injEq, Prod.mk.injEq] at h
            obtain ⟨⟨hi, hf⟩, hr⟩ := h
            subst hi hf hr
            exact ⟨ds, by simpa using hsplit, hdsne, hdhead, hdlast, replaySinPunto⟩
          · rw [if_neg hfe] at h
            simp only [Option.some.injEq, Prod.mk.injEq] at h
            obtain ⟨⟨hi, hf⟩, hr⟩ := h
            subst hi hf hr
            have hfsne : fs ≠ [] := by simpa [List.isEmpty_iff] using hfe
            refine ⟨ds ++ '.' :: fs, ?_, by simp, ?_, ?_, ?_⟩
            · rw [hsplit, hsplit2]
              simp
            · cases ds with
              | nil => exact absurd rfl hdsne
              | cons c cs => simpa using hdhead
            · have hgl : (ds ++ '.' :: fs).getLast? = fs.getLast? := by
                rw [List.getLast?_append_of_ne_nil _ (by simp)]
                exact List.getLast?_append_of_ne_nil ['.'] hfsne
              cases hlast : fs.getLast? with
              | none => exact absurd (List.getLast?_eq_none_iff.mp hlast) hfsne
              | some c =>
                simp only [List.getLastD_eq_getLast?, hgl, hlast, Option.getD_some]
                exact hdig2 c (List.mem_of_getLast?_eq_some hlast)
            · intro r' hr'
              rw [parseNumNat, List.append_assoc, List.cons_append]
              simp only [cogeDigitos_replay ds ('.' :: (fs ++ r')) hdig
                (Or.inr (by simp [esDigito]))]
              rw [if_neg hne, if_neg hz]
              simp only [if_pos rfl,
                cogeDigitos_replay fs r' hdig2 (cabezaSegura_no_digito r' hr')]
              simp [hfe]
        · simp only [if_neg hp, Option.some.injEq, Prod.mk.injEq] at h
          obtain ⟨⟨hi, hf⟩, hr⟩ := h
          subst hi hf hr
          exact ⟨ds, by simpa using hsplit, hdsne, hdhead, hdlast, replaySinPunto⟩

theorem digito_no_ws (c : Char) (h : esDigito c = true) : esJsonWs c = false := by
  cases hw : esJsonWs c
  · rfl
  · exfalso
    simp only [esJsonWs, Bool.or_eq_true, beq_iff_eq, or_assoc] at hw
    rcases hw with rfl | rfl | rfl | rfl <;> exact absurd h (by decide)

theorem digito_no_corchete (c : Char) (h : esDigito c = true) : c ≠ '[' := by
  intro hc
  subst hc
  exact absurd h (by decide)

theorem getLast_digito_no_corchete (d : Str) (_hne : d ≠ [])
    (h : esDigito (d.getLastD ' ') = true) : d.getLast? ≠ some '[' := by
  intro hl
  rw [List.getLastD_eq_getLast?, hl] at h
  exact digito_no_corchete '[' h rfl

theorem parseNum_cons (c : Char) (t : Str) : parseNum (c :: t) =
    (if c = '-' then
      (match parseNumNat t with
       | some ((i, f), r0) => some (PyVal.num (-i) f, r0)
       | Option.none => Option.none)
    else
      (match parseNumNat (c :: t) with
       | some ((i, f), r0) => some (PyVal.num i f, r0)
       | Option.none => Option.none)) := rfl

theorem parseNum_master (s : Str) (v : PyVal) (r : Str) (h : parseNum s = some (v, r)) :
    ∃ d, s = d ++ r ∧ d ≠ [] ∧ (d.headD ' ' = '-' ∨ esDigito (d.headD ' ') = true) ∧
      d.getLast? ≠ some '[' ∧
      ∀ r', cabezaSegura r' = true → parseNum (d ++ r') = some (v, r') := by
  cases s with
  | nil => exact Option.noConfusion h
  | cons c rest =>
    have h2 : (if c = '-' then
        (match parseNumNat rest with
         | some ((i, f), r0) => some (PyVal.num (-i) f, r0)
         | Option.none => Option.none)
      else
        (match parseNumNat (c :: rest) with
         | some ((i, f), r0) => some (PyVal.num i f, r0)
         | Option.none => Option.none)) = some (v, r) := h
    clear h
    rename' h2 => h
    by_cases hm : c = '-'
    · subst hm
      rw [if_pos rfl] at h
      cases hp : parseNumNat rest with
      | none => rw [hp] at h; exact Option.noConfusion h
      | some par =>
        obtain ⟨⟨i, f⟩, r0⟩ := par
        rw [hp] at h
        simp only [Option.some.injEq, Prod.mk.injEq] at h
        obtain ⟨hv, hr⟩ := h
        subst hv hr
        obtain ⟨d, hsp, hdne, _, hdlast, hreplay⟩ := parseNumNat_master rest i f r0 hp
        refine ⟨'-' :: d, by simpa using hsp, by simp,
          Or.inl (by rw [List.headD_cons]), ?_, ?_⟩
        · rw [show ('-' :: d).getLast? = d.getLast? from
            List.getLast?_append_of_ne_nil ['-'] hdne]
          exact getLast_digito_no_corchete d hdne hdlast
        · intro r' hr'
          rw [List.cons_append, parseNum_cons, if_pos rfl, hreplay r' hr']
    · rw [if_neg hm] at h
      cases hp : parseNumNat (c :: rest) with
      | none => rw [hp] at h; exact Option.noConfusion h
      | some par =>
        obtain ⟨⟨i, f⟩, r0⟩ := par
        rw [hp] at h
        simp only [Option.some.injEq, Prod.mk.injEq] at h
        obtain ⟨hv, hr⟩ := h
        subst hv hr
        obtain ⟨d, hsp, hdne, hdhead, hdlast, hreplay⟩ := parseNumNat_master (c :: rest) i f r0 hp
        have hdd : esDigito (d.headD ' ') = true := hdhead
        refine ⟨d, hsp, hdne, Or.inr hdd, getLast_digito_no_corchete d hdne hdlast, ?_⟩
        intro r' hr'
        have hdc : d.headD ' ' ≠ '-' := by
          intro hq
          rw [hq] at hdd
          exact absurd hdd (by decide)
        cases d with
        | nil => exact absurd rfl hdne
        | cons d0 dr =>
          simp only [List.headD_cons] at hdc
          rw [List.cons_append, parseNum_cons, if_neg hdc, ← List.cons_append,
            hreplay r' hr']

theorem psb_master : ∀ (t cs r : Str), parseStringBody t = some (cs, r) →
    ∃ b, t = b ++ r ∧ b ≠ [] ∧ b.getLast? = some '"' ∧
      ∀ r', parseStringBody (b ++ r') = some (cs, r')
  | [], cs, r => fun h => Option.noConfusion h
  | c :: rest, cs, r => fun h => by
    unfold parseStringBody at h
    by_cases hq : c = '"'
    · subst hq
      rw [if_pos rfl] at h
      simp only [Option.some.injEq, Prod.mk.injEq] at h
      obtain ⟨hcs, hr⟩ := h
      subst hcs hr
      refine ⟨['"'], rfl, by simp, rfl, fun r' => ?_⟩
      rw [List.singleton_append]
      unfold parseStringBody
      rw [if_pos rfl]
    · rw [if_neg hq] at h
      by_cases hb : c = '\\'
      · subst hb
        rw [if_pos rfl] at h
        cases rest with
        | nil => exact Option.noConfusion h
        | cons e rest2 =>
          simp only [] at h
          by_cases hu : e = 'u'
          · subst hu
            rw [if_pos rfl] at h
            cases rest2 with
            | nil => exact Option.noConfusion h
            | cons h1 r21 =>
            cases r21 with
            | nil => exact Option.noConfusion h
            | cons h2 r22 =>
            cases r22 with
            | nil => exact Option.noConfusion h
            | cons h3 r23 =>
            cases r23 with
            | nil => exact Option.noConfusion h
            | cons h4 rest3 =>
            simp only [] at h
            by_cases hx : (esHex h1 && esHex h2 && esHex h3 && esHex h4) = true
            · rw [if_pos hx] at h
              cases hp : parseStringBody rest3 with
              | none => rw [hp] at h; exact Option.noConfusion h
              | some pr =>
                obtain ⟨cs3, r3⟩ := pr
                rw [hp] at h
                simp only [Option.some.injEq, Prod.mk.injEq] at h
                obtain ⟨hcs, hr⟩ := h
                subst hcs hr
                obtain ⟨b3, hb3sp, hb3ne, hb3last, hb3rep⟩ := psb_master rest3 cs3 r3 hp
                refine ⟨'\\' :: 'u' :: h1 :: h2 :: h3 :: h4 :: b3, by simp [hb3sp],
                  by simp, ?_, fun r' => ?_⟩
                · rw [show ('\\' :: 'u' :: h1 :: h2 :: h3 :: h4 :: b3).getLast? = b3.getLast?
                    from List.getLast?_append_of_ne_nil ['\\', 'u', h1, h2, h3, h4] hb3ne]
                  exact hb3last
                · simp only [List.cons_append]
                  unfold parseStringBody
                  rw [if_neg (by decide), if_pos rfl]
                  simp only []
                  rw [if_true, if_pos hx, hb3rep r']
            · rw [if_neg hx] at h
              exact Option.noConfusion h
          · rw [if_neg hu] at h
            cases hd : escDecode e with
            | none => rw [hd] at h; exact Option.noConfusion h
            | some d0 =>
              rw [hd] at h
              simp only [] at h
              cases hp : parseStringBody rest2 with
              | none => rw [hp] at h; exact Option.noConfusion h
              | some pr =>
                obtain ⟨cs2, r2⟩ := pr
                rw [hp] at h
                simp only [Option.some.injEq, Prod.mk.injEq] at h
                obtain ⟨hcs, hr⟩ := h
                subst hcs hr
                obtain ⟨b2, hb2sp, hb2ne, hb2last, hb2rep⟩ := psb_master rest2 cs2 r2 hp
                refine ⟨'\\' :: e :: b2, by simp [hb2sp], by simp, ?_, fun r' => ?_⟩
                · rw [show ('\\' :: e :: b2).getLast? = b2.getLast?
                    from List.getLast?_append_of_ne_nil ['\\', e] hb2ne]
                  exact hb2last
                · simp only [List.cons_append]
                  unfold parseStringBody
                  rw [if_neg (by decide), if_pos rfl]
                  simp only []
                  rw [if_neg hu, hd]
                  simp only []
                  rw [hb2rep r']
      · rw [if_neg hb] at h
        by_cases hctl : c.toNat < 32
        · rw [if_pos hctl] at h
          exact Option.noConfusion h
        · rw [if_neg hctl] at h
          cases hp : parseStringBody rest with
          | none => rw [hp] at h; exact Option.noConfusion h
          | some pr =>
            obtain ⟨cs2, r2⟩ := pr
            rw [hp] at h
            simp only [Option.some.injEq, Prod.mk.injEq] at h
            obtain ⟨hcs, hr⟩ := h
            subst hcs hr
            obtain ⟨b2, hb2sp, hb2ne, hb2last, hb2rep⟩ := psb_master rest cs2 r2 hp
            refine ⟨c :: b2, by simp [hb2sp], by simp, ?_, fun r' => ?_⟩
            · rw [show (c :: b2).getLast? = b2.getLast?
                from List.getLast?_append_of_ne_nil [c] hb2ne]
              exact hb2last
            · simp only [List.cons_append]
              unfold parseStringBody
              rw [if_neg hq, if_neg hb, if_neg hctl, hb2rep r']

theorem esDigito_ne (c x : Char) (h : esDigito c = true) (hx : esDigito x = false) :
    c ≠ x := by
  intro he
  rw [he, hx] at h
  exact Bool.noConfusion h

theorem cabezaValor_no_ws (c : Char) (h : cabezaValor c = true) : esJsonWs c = false := by
  simp only [cabezaValor, Bool.or_eq_true, beq_iff_eq, or_assoc] at h
  rcases h with rfl | rfl | rfl | rfl | rfl | rfl | rfl | hd
  · decide
  · decide
  · decide
  · decide
  · decide
  · decide
  · decide
  · exact digito_no_ws c hd

theorem cabezaValor_no_cierra (c : Char) (h : cabezaValor c = true) :
    c ≠ ']' ∧ c ≠ ',' ∧ c ≠ '\x7d' ∧ c ≠ ':' := by
  simp only [cabezaValor, Bool.or_eq_true, beq_iff_eq, or_assoc] at h
  rcases h with rfl | rfl | rfl | rfl | rfl | rfl | rfl | hd
  · decide
  · decide
  · decide
  · decide
  · decide
  · decide
  · decide
  · exact ⟨esDigito_ne c ']' hd (by decide), esDigito_ne c ',' hd (by decide),
      esDigito_ne c '\x7d' hd (by decide), esDigito_ne c ':' hd (by decide)⟩

theorem parseVal_ws (g : Nat) (w t : Str) (hw : esWsStr w = true) :
    parseVal g (w ++ t) = parseVal g t := by
  cases g with
  | zero => rfl
  | succ g0 =>
    unfold parseVal
    rw [skipWs_ws_append w t hw]

theorem cabezaSegura_append (c X : Str) (hne : c ≠ []) :
    cabezaSegura (c ++ X) = cabezaSegura c := by
  cases c with
  | nil => exact absurd rfl hne
  | cons a t => rfl

theorem esWsStr_getLast (w : Str) (hw : esWsStr w = true) : w.getLast? ≠ some '[' := by
  intro hl
  obtain ⟨hne, heq⟩ := List.mem_getLast?_eq_getLast (Option.mem_def.mpr hl)
  have hm : '[' ∈ w := heq ▸ List.getLast_mem hne
  have h2 := List.all_eq_true.mp hw _ hm
  exact absurd h2 (by decide)

theorem empiezaCon_decomp (lit t : Str) (h : empiezaCon lit t = true) :
    t = lit ++ t.drop lit.length := by
  induction lit generalizing t with
  | nil => simp
  | cons c cs ih =>
    cases t with
    | nil => exact Bool.noConfusion h
    | cons a b =>
      have h2 : (c == a && empiezaCon cs b) = true := h
      rw [Bool.and_eq_true, beq_iff_eq] at h2
      obtain ⟨rfl, h3⟩ := h2
      simpa using ih b h3

theorem empiezaCon_self (lit r : Str) : empiezaCon lit (lit ++ r) = true := by
  induction lit with
  | nil => rfl
  | cons c cs ih => simp [empiezaCon, ih]

theorem parseLit_master (lit : Str) (v0 v : PyVal) (t r : Str)
    (h : parseLit lit v0 t = some (v, r)) :
    v = v0 ∧ t = lit ++ r ∧ ∀ r', parseLit lit v0 (lit ++ r') = some (v0, r') := by
  unfold parseLit at h
  by_cases he : empiezaCon lit t = true
  · rw [if_pos he] at h
    simp only [Option.some.injEq, Prod.mk.injEq] at h
    obtain ⟨hv, hr⟩ := h
    subst hv
    refine ⟨rfl, ?_, fun r' => ?_⟩
    · rw [← hr]; exact empiezaCon_decomp lit t he
    · unfold parseLit
      rw [if_pos (empiezaCon_self lit r'), List.drop_left]
  · rw [if_neg he] at h
    exact Option.noConfusion h

theorem cabezaSegura_cons (c : Char) (t : Str) :
    cabezaSegura (c :: t) = (esJsonWs c || c == ',' || c == ']' || c == '\x7d') := rfl

theorem cabezaNum_facts (c : Char) (h : c = '-' ∨ esDigito c = true) :
    cabezaValor c = true ∧ esJsonWs c = false ∧ c ≠ '[' ∧ c ≠ '\x7b' ∧ c ≠ '"' ∧
      c ≠ 't' ∧ c ≠ 'f' ∧ c ≠ 'n' := by
  rcases h with rfl | hd
  · exact ⟨by decide, by decide, by decide, by decide, by decide, by decide,
      by decide, by decide⟩
  · exact ⟨by simp only [cabezaValor, hd, Bool.or_true], digito_no_ws c hd,
      esDigito_ne c '[' hd (by decide), esDigito_ne c '\x7b' hd (by decide),
      esDigito_ne c '"' hd (by decide), esDigito_ne c 't' hd (by decide),
      esDigito_ne c 'f' hd (by decide), esDigito_ne c 'n' hd (by decide)⟩

theorem mv_step (f : Nat) (ihE : ME1P f) (ihM : MM1P f) : MVP (f + 1) := by
  intro s v r h
  unfold parseVal at h
  obtain ⟨w, hsw, hwws, hhead⟩ := skipWs_decomp s
  cases hss : skipWs s with
  | nil => rw [hss] at h; exact Option.noConfusion h
  | cons c t =>
    rw [hss] at h hsw
    have hcws : esJsonWs c = false := by
      rcases hhead with h0 | h0
      · rw [hss] at h0; exact List.noConfusion h0
      · rw [hss] at h0; exact h0
    simp only [] at h
    by_cases hc1 : c = '['
    · subst hc1
      rw [if_pos rfl] at h
      cases hp : parseElems1 f t with
      | none => rw [hp] at h; exact Option.noConfusion h
      | some pr =>
        obtain ⟨l₁, r₁⟩ := pr
        rw [hp] at h
        simp only [Option.some.injEq, Prod.mk.injEq] at h
        obtain ⟨hv, hr⟩ := h
        subst hv
        subst hr
        obtain ⟨c₃, hsp, _hws, _hne, _hlast, hrepI, _hrepII⟩ := ihE t l₁ _ hp
        refine ⟨w, '[' :: (c₃ ++ [']']), ?_, hwws, by simp,
          by rw [List.headD_cons]; decide, ?_, ?_⟩
        · rw [hsw, hsp]; simp
        · rw [show ('[' :: (c₃ ++ [']'])).getLast? = (c₃ ++ [']']).getLast? from
            List.getLast?_append_of_ne_nil ['['] (by simp), List.getLast?_concat]
          decide
        · intro g w' r' hw' hr' hg
          have hdl : ('[' :: (c₃ ++ [']']) : Str).length = c₃.length + 2 := by simp
          cases g with
          | zero => omega
          | succ g₀ =>
            unfold parseVal
            rw [show ('[' :: (c₃ ++ [']'])) ++ r' = '[' :: (c₃ ++ ']' :: r') from by simp,
              skipWs_ws_append _ _ hw', skipWs_no_ws '[' _ (by decide)]
            simp only []
            rw [if_true, hrepI g₀ r' (by omega)]
    · rw [if_neg hc1] at h
      by_cases hc2 : c = '\x7b'
      · subst hc2
        rw [if_pos rfl] at h
        cases hp : parseMems1 f t with
        | none => rw [hp] at h; exact Option.noConfusion h
        | some pr =>
          obtain ⟨e₁, r₁⟩ := pr
          rw [hp] at h
          simp only [Option.some.injEq, Prod.mk.injEq] at h
          obtain ⟨hv, hr⟩ := h
          subst hv
          subst hr
          obtain ⟨cₘ, hsp, hrepM⟩ := ihM t e₁ _ hp
          refine ⟨w, '\x7b' :: (cₘ ++ ['\x7d']), ?_, hwws, by simp,
            by rw [List.headD_cons]; decide, ?_, ?_⟩
          · rw [hsw, hsp]; simp
          · rw [show ('\x7b' :: (cₘ ++ ['\x7d'])).getLast? = (cₘ ++ ['\x7d']).getLast? from
              List.getLast?_append_of_ne_nil ['\x7b'] (by simp), List.getLast?_concat]
            decide
          · intro g w' r' hw' hr' hg
            have hdl : ('\x7b' :: (cₘ ++ ['\x7d']) : Str).length = cₘ.length + 2 := by simp
            cases g with
            | zero => omega
            | succ g₀ =>
              unfold parseVal
              rw [show ('\x7b' :: (cₘ ++ ['\x7d'])) ++ r' = '\x7b' :: (cₘ ++ '\x7d' :: r')
                  from by simp,
                skipWs_ws_append _ _ hw', skipWs_no_ws '\x7b' _ (by decide)]
              simp only []
              rw [if_neg (by decide), if_true, hrepM g₀ r' (by omega)]
      · rw [if_neg hc2] at h
        by_cases hc3 : c = '"'
        · subst hc3
          rw [if_pos rfl] at h
          cases hp : parseStringBody t with
          | none => rw [hp] at h; exact Option.noConfusion h
          | some pr =>
            obtain ⟨cs, r₁⟩ := pr
            rw [hp] at h
            simp only [Option.some.injEq, Prod.mk.injEq] at h
            obtain ⟨hv, hr⟩ := h
            subst hv
            subst hr
            obtain ⟨b, hbsp, hbne, hblast, hbrep⟩ := psb_master t cs _ hp
            refine ⟨w, '"' :: b, ?_, hwws, by simp,
              by rw [List.headD_cons]; decide, ?_, ?_⟩
            · rw [hsw, hbsp]; simp
            · rw [show ('"' :: b).getLast? = b.getLast? from
                List.getLast?_append_of_ne_nil ['"'] hbne, hblast]
              decide
            · intro g w' r' hw' hr' hg
              cases g with
              | zero => omega
              | succ g₀ =>
                unfold parseVal
                rw [show ('"' :: b) ++ r' = '"' :: (b ++ r') from by simp,
                  skipWs_ws_append _ _ hw', skipWs_no_ws '"' _ (by decide)]
                simp only []
                rw [if_neg (by decide), if_neg (by decide), if_true, hbrep r']
        · rw [if_neg hc3] at h
          by_cases hc4 : c = 't'
          · subst hc4
            rw [if_pos rfl] at h
            obtain ⟨hv, hts, hrep⟩ := parseLit_master (s2l "rue") (.bool true) v t r h
            subst hv
            refine ⟨w, 't' :: s2l "rue", ?_, hwws, by simp,
              by rw [List.headD_cons]; decide, by decide, ?_⟩
            · rw [hsw, hts]; simp
            · intro g w' r' hw' hr' hg
              cases g with
              | zero => omega
              | succ g₀ =>
                unfold parseVal
                rw [show ('t' :: s2l "rue") ++ r' = 't' :: (s2l "rue" ++ r') from by simp,
                  skipWs_ws_append _ _ hw', skipWs_no_ws 't' _ (by decide)]
                simp only []
                rw [if_neg (by decide), if_neg (by decide), if_neg (by decide),
                  if_true, hrep r']
          · rw [if_neg hc4] at h
            by_cases hc5 : c = 'f'
            · subst hc5
              rw [if_pos rfl] at h
              obtain ⟨hv, hts, hrep⟩ := parseLit_master (s2l "alse") (.bool false) v t r h
              subst hv
              refine ⟨w, 'f' :: s2l "alse", ?_, hwws, by simp,
                by rw [List.headD_cons]; decide, by decide, ?_⟩
              · rw [hsw, hts]; simp
              · intro g w' r' hw' hr' hg
                cases g with
                | zero => omega
                | succ g₀ =>
                  unfold parseVal
                  rw [show ('f' :: s2l "alse") ++ r' = 'f' :: (s2l "alse" ++ r')
                      from by simp,
                    skipWs_ws_append _ _ hw', skipWs_no_ws 'f' _ (by decide)]
                  simp only []
                  rw [if_neg (by decide), if_neg (by decide), if_neg (by decide),
                    if_neg (by decide), if_true, hrep r']
            · rw [if_neg hc5] at h
              by_cases hc6 : c = 'n'
              · subst hc6
                rw [if_pos rfl] at h
                obtain ⟨hv, hts, hrep⟩ := parseLit_master (s2l "ull") PyVal.none v t r h
                subst hv
                refine ⟨w, 'n' :: s2l "ull", ?_, hwws, by simp,
                  by rw [List.headD_cons]; decide, by decide, ?_⟩
                · rw [hsw, hts]; simp
                · intro g w' r' hw' hr' hg
                  cases g with
                  | zero => omega
                  | succ g₀ =>
                    unfold parseVal
                    rw [show ('n' :: s2l "ull") ++ r' = 'n' :: (s2l "ull" ++ r')
                        from by simp,
                      skipWs_ws_append _ _ hw', skipWs_no_ws 'n' _ (by decide)]
                    simp only []
                    rw [if_neg (by decide), if_neg (by decide), if_neg (by decide),
                      if_neg (by decide), if_neg (by decide), if_true, hrep r']
              · rw [if_neg hc6] at h
                obtain ⟨d, hdsp, hdne, hdhead, hdlast, hdrep⟩ := parseNum_master (c :: t) v r h
                obtain ⟨hcv, hnws, hn1, hn2, hn3, hn4, hn5, hn6⟩ :=
                  cabezaNum_facts (d.headD ' ') hdhead
                refine ⟨w, d, ?_, hwws, hdne, hcv, hdlast, ?_⟩
                · rw [hsw, hdsp]
                · intro g w' r' hw' hr' hg
                  cases g with
                  | zero => omega
                  | succ g₀ =>
                    obtain ⟨d₀, d₁, rfl⟩ := List.exists_cons_of_ne_nil hdne
                    simp only [List.headD_cons] at hnws hn1 hn2 hn3 hn4 hn5 hn6
                    unfold parseVal
                    rw [List.cons_append, skipWs_ws_append _ _ hw',
                      skipWs_no_ws d₀ _ hnws]
                    simp only []
                    rw [if_neg hn1, if_neg hn2, if_neg hn3, if_neg hn4, if_neg hn5,
                      if_neg hn6, ← List.cons_append, hdrep r' hr']

theorem append_ne_nil_dcha (l₁ l₂ : Str) (h : l₂ ≠ []) : l₁ ++ l₂ ≠ [] :=
  fun hc => h (List.append_eq_nil.mp hc).2

theorem cabezaSegura_ws (w : Str) (hw : esWsStr w = true) (hne : w ≠ []) :
    cabezaSegura w = true := by
  cases w with
  | nil => exact absurd rfl hne
  | cons x xs =>
    rw [cabezaSegura_cons]
    simp only [esWsStr, List.all_cons, Bool.and_eq_true] at hw
    rw [hw.1]
    rfl

theorem cabezaSegura_ws_coma (w rest : Str) (hw : esWsStr w = true) :
    cabezaSegura (w ++ (',' :: rest)) = true := by
  cases w with
  | nil => rw [List.nil_append, cabezaSegura_cons]; decide
  | cons x xs =>
    rw [List.cons_append, cabezaSegura_cons]
    simp only [esWsStr, List.all_cons, Bool.and_eq_true] at hw
    rw [hw.1]
    rfl

theorem getLast_compuesto (w w₁ d c₃ : Str) (hdne : d ≠ [])
    (hdlast : d.getLast? ≠ some '[') (hlast₃ : c₃ ≠ [] → c₃.getLast? ≠ some '[') :
    (w ++ (',' :: (w₁ ++ (d ++ c₃)))).getLast? ≠ some '[' := by
  cases hc : c₃ with
  | nil =>
    rw [List.append_nil, List.getLast?_append_of_ne_nil w (by simp),
      show (','::(w₁ ++ d)) = [','] ++ (w₁ ++ d) from rfl,
      List.getLast?_append_of_ne_nil [','] (append_ne_nil_dcha w₁ d hdne),
      List.getLast?_append_of_ne_nil w₁ hdne]
    exact hdlast
  | cons x xs =>
    rw [List.getLast?_append_of_ne_nil w (by simp),
      show (','::(w₁ ++ (d ++ (x::xs)))) = [','] ++ (w₁ ++ (d ++ (x::xs))) from rfl,
      List.getLast?_append_of_ne_nil [',']
        (append_ne_nil_dcha _ _ (append_ne_nil_dcha _ _ (by simp))),
      List.getLast?_append_of_ne_nil w₁ (append_ne_nil_dcha _ _ (by simp)),
      List.getLast?_append_of_ne_nil d (by simp)]
    exact hc ▸ hlast₃ (by rw [hc]; simp)

theorem getLast_compuesto2 (w d c₃ : Str) (hdne : d ≠ [])
    (hdlast : d.getLast? ≠ some '[') (hlast₃ : c₃ ≠ [] → c₃.getLast? ≠ some '[') :
    (w ++ (d ++ c₃)).getLast? ≠ some '[' := by
  cases hc : c₃ with
  | nil =>
    rw [List.append_nil, List.getLast?_append_of_ne_nil w hdne]
    exact hdlast
  | cons x xs =>
    rw [List.getLast?_append_of_ne_nil w (append_ne_nil_dcha _ _ (by simp)),
      List.getLast?_append_of_ne_nil d (by simp)]
    exact hc ▸ hlast₃ (by rw [hc]; simp)

theorem mr_step (f : Nat) (ihV : MVP f) (ihR : MRP f) : MRP (f + 1) := by
  intro acc s l r h
  unfold parseElemsR at h
  obtain ⟨w, hsw, hwws, hhead⟩ := skipWs_decomp s
  cases hss : skipWs s with
  | nil => rw [hss] at h; exact Option.noConfusion h
  | cons c t =>
    rw [hss] at h hsw
    have hcws : esJsonWs c = false := by
      rcases hhead with h0 | h0
      · rw [hss] at h0; exact List.noConfusion h0
      · rw [hss] at h0; exact h0
    simp only [] at h
    by_cases hc1 : c = ']'
    · subst hc1
      rw [if_pos rfl] at h
      simp only [Option.some.injEq, Prod.mk.injEq] at h
      obtain ⟨hl, hr⟩ := h
      subst hl
      subst hr
      refine ⟨w, [], by rw [hsw], by simp, fun _ => esWsStr_getLast w hwws,
        fun hne => cabezaSegura_ws w hwws hne, ?_, ?_⟩
      · intro g acc₂ r₂ hg
        cases g with
        | zero => omega
        | succ g₀ =>
          unfold parseElemsR
          rw [skipWs_ws_append _ _ hwws, skipWs_no_ws ']' _ (by decide)]
          simp only []
          rw [if_true, List.append_nil]
      · intro g acc₂ X vN rest₂ hX hg
        cases g with
        | zero => omega
        | succ g₀ =>
          unfold parseElemsR
          rw [skipWs_ws_append _ _ hwws, skipWs_no_ws ',' _ (by decide)]
          simp only []
          rw [if_neg (by decide), if_true]
          have hpv : parseVal g₀ ('\n' :: (X ++ '\n' :: ']' :: rest₂))
              = some (vN, '\n' :: ']' :: rest₂) := by
            have h1 : parseVal g₀ (['\n'] ++ (X ++ '\n' :: ']' :: rest₂))
                = parseVal g₀ (X ++ '\n' :: ']' :: rest₂) :=
              parseVal_ws g₀ ['\n'] _ (by decide)
            rw [List.singleton_append] at h1
            rw [h1]
            exact hX g₀ ('\n' :: ']' :: rest₂) (by rw [cabezaSegura_cons]; decide)
              (by simp only [List.length_cons]; omega)
          rw [hpv]
          simp only []
          cases g₀ with
          | zero => omega
          | succ g₁ =>
            unfold parseElemsR
            rw [show ('\n' :: ']' :: rest₂ : Str) = ['\n'] ++ (']' :: rest₂) from rfl,
              skipWs_ws_append _ _ (by decide), skipWs_no_ws ']' _ (by decide)]
            simp only []
            rw [if_true, List.append_nil]
    · rw [if_neg hc1] at h
      by_cases hc2 : c = ','
      · subst hc2
        rw [if_pos rfl] at h
        cases hp : parseVal f t with
        | none => rw [hp] at h; exact Option.noConfusion h
        | some pr =>
          obtain ⟨v₁, r₁⟩ := pr
          rw [hp] at h
          simp only [] at h
          obtain ⟨w₁, d, htsp, hw₁ws, hdne, hdcv, hdlast, hdrep⟩ := ihV t v₁ _ hp
          obtain ⟨c₃, nuevos₃, hr₁sp, hl₃, hlast₃, hcs₃, hrepI₃, hrepII₃⟩ :=
            ihR (acc ++ [v₁]) r₁ l r h
          have hlen : (w ++ (',' :: (w₁ ++ (d ++ c₃)))).length
              = w.length + w₁.length + d.length + c₃.length + 1 := by
            simp [List.length_append]
            omega
          refine ⟨w ++ (',' :: (w₁ ++ (d ++ c₃))), v₁ :: nuevos₃, ?_, ?_,
            fun _ => getLast_compuesto w w₁ d c₃ hdne hdlast hlast₃,
            fun _ => cabezaSegura_ws_coma w _ hwws, ?_, ?_⟩
          · rw [hsw, htsp, hr₁sp]
            simp
          · rw [hl₃]
            simp
          · intro g acc₂ r₂ hg
            cases g with
            | zero => omega
            | succ g₀ =>
              unfold parseElemsR
              rw [show (w ++ (',' :: (w₁ ++ (d ++ c₃)))) ++ ']' :: r₂
                  = w ++ (',' :: (w₁ ++ (d ++ (c₃ ++ ']' :: r₂)))) from by simp,
                skipWs_ws_append _ _ hwws, skipWs_no_ws ',' _ (by decide)]
              simp only []
              rw [if_neg (by decide), if_true]
              have hcs : cabezaSegura (c₃ ++ ']' :: r₂) = true := by
                cases c₃ with
                | nil => rw [List.nil_append, cabezaSegura_cons]; decide
                | cons x xs =>
                  rw [cabezaSegura_append _ _ (by simp)]
                  exact hcs₃ (by simp)
              rw [hdrep g₀ w₁ (c₃ ++ ']' :: r₂) hw₁ws hcs
                (by simp only [List.length_append, List.length_cons]; omega)]
              simp only []
              rw [hrepI₃ g₀ (acc₂ ++ [v₁]) r₂ (by omega)]
              rw [show (acc₂ ++ [v₁]) ++ nuevos₃ = acc₂ ++ (v₁ :: nuevos₃) from by simp]
          · intro g acc₂ X vN rest₂ hX hg
            cases g with
            | zero => omega
            | succ g₀ =>
              unfold parseElemsR
              rw [show (w ++ (',' :: (w₁ ++ (d ++ c₃)))) ++
                    ',' :: '\n' :: (X ++ '\n' :: ']' :: rest₂)
                  = w ++ (',' :: (w₁ ++ (d ++
                      (c₃ ++ ',' :: '\n' :: (X ++ '\n' :: ']' :: rest₂))))) from by simp,
                skipWs_ws_append _ _ hwws, skipWs_no_ws ',' _ (by decide)]
              simp only []
              rw [if_neg (by decide), if_true]
              have hcs : cabezaSegura (c₃ ++ ',' :: '\n' ::
                  (X ++ '\n' :: ']' :: rest₂)) = true := by
                cases c₃ with
                | nil => rw [List.nil_append, cabezaSegura_cons]; decide
                | cons x xs =>
                  rw [cabezaSegura_append _ _ (by simp)]
                  exact hcs₃ (by simp)
              rw [hdrep g₀ w₁ _ hw₁ws hcs
                (by simp only [List.length_append, List.length_cons]; omega)]
              simp only []
              rw [hrepII₃ g₀ (acc₂ ++ [v₁]) X vN rest₂ hX (by omega)]
              rw [show ((acc₂ ++ [v₁]) ++ nuevos₃) ++ [vN]
                  = (acc₂ ++ (v₁ :: nuevos₃)) ++ [vN] from by simp]
      · rw [if_neg hc2] at h
        exact Option.noConfusion h

theorem append_ne_nil_izq (l₁ l₂ : Str) (h : l₁ ≠ []) : l₁ ++ l₂ ≠ [] :=
  fun hc => h (List.append_eq_nil.mp hc).1

theorem me1_step (f : Nat) (ihV : MVP f) (ihR : MRP f) : ME1P (f + 1) := by
  intro s l r h
  unfold parseElems1 at h
  obtain ⟨w, hsw, hwws, hhead⟩ := skipWs_decomp s
  cases hss : skipWs s with
  | nil => rw [hss] at h; exact Option.noConfusion h
  | cons c t =>
    rw [hss] at h hsw
    have hcws : esJsonWs c = false := by
      rcases hhead with h0 | h0
      · rw [hss] at h0; exact List.noConfusion h0
      · rw [hss] at h0; exact h0
    simp only [] at h
    by_cases hc1 : c = ']'
    · subst hc1
      rw [if_pos rfl] at h
      simp only [Option.some.injEq, Prod.mk.injEq] at h
      obtain ⟨hl, hr⟩ := h
      subst hl
      subst hr
      refine ⟨w, by rw [hsw], fun _ => hwws, fun hne => absurd rfl hne,
        fun _ => esWsStr_getLast w hwws, ?_, fun hne => absurd rfl hne⟩
      intro g r₂ hg
      cases g with
      | zero => omega
      | succ g₀ =>
        unfold parseElems1
        rw [skipWs_ws_append _ _ hwws, skipWs_no_ws ']' _ (by decide)]
        simp only []
        rw [if_true]
    · rw [if_neg hc1] at h
      cases hp : parseVal f (c :: t) with
      | none => rw [hp] at h; exact Option.noConfusion h
      | some pr =>
        obtain ⟨v₁, r₁⟩ := pr
        rw [hp] at h
        simp only [] at h
        obtain ⟨w₁, d, htsp, hw₁ws, hdne, hdcv, hdlast, hdrep⟩ := ihV (c :: t) v₁ _ hp
        have hw₁nil : w₁ = [] := by
          cases w₁ with
          | nil => rfl
          | cons x xs =>
            rw [List.cons_append] at htsp
            injection htsp with hc' _
            simp only [esWsStr, List.all_cons, Bool.and_eq_true] at hw₁ws
            rw [← hc', hcws] at hw₁ws
            exact Bool.noConfusion hw₁ws.1
        subst hw₁nil
        rw [List.nil_append] at htsp
        obtain ⟨c₃, nuevos₃, hr₁sp, hl₃, hlast₃, hcs₃, hrepI₃, hrepII₃⟩ :=
          ihR [v₁] r₁ l r h
        obtain ⟨d₀, d₁, rfl⟩ := List.exists_cons_of_ne_nil hdne
        have hdcv' : cabezaValor d₀ = true := by simpa using hdcv
        refine ⟨w ++ ((d₀ :: d₁) ++ c₃), ?_, ?_, ?_,
          fun _ => getLast_compuesto2 w (d₀ :: d₁) c₃ (by simp) hdlast hlast₃, ?_, ?_⟩
        · rw [hsw, htsp, hr₁sp]
          simp
        · intro hle
          rw [hl₃] at hle
          simp at hle
        · intro _
          exact append_ne_nil_dcha w _ (append_ne_nil_izq _ c₃ (by simp))
        · intro g r₂ hg
          cases g with
          | zero => omega
          | succ g₀ =>
            simp only [List.length_append, List.length_cons] at hg
            unfold parseElems1
            rw [show (w ++ ((d₀ :: d₁) ++ c₃)) ++ ']' :: r₂
                = w ++ ((d₀ :: d₁) ++ (c₃ ++ ']' :: r₂)) from by simp,
              skipWs_ws_append _ _ hwws, List.cons_append,
              skipWs_no_ws d₀ _ (cabezaValor_no_ws d₀ hdcv')]
            simp only []
            rw [if_neg (cabezaValor_no_cierra d₀ hdcv').1]
            have hcs : cabezaSegura (c₃ ++ ']' :: r₂) = true := by
              cases c₃ with
              | nil => rw [List.nil_append, cabezaSegura_cons]; decide
              | cons x xs =>
                rw [cabezaSegura_append _ _ (by simp)]
                exact hcs₃ (by simp)
            have hpv := hdrep g₀ [] (c₃ ++ ']' :: r₂) rfl hcs
              (by simp only [List.length_append, List.length_cons, List.length_nil]; omega)
            rw [List.nil_append, List.cons_append] at hpv
            rw [hpv]
            simp only []
            rw [hrepI₃ g₀ [v₁] r₂ (by omega), hl₃]
        · intro _hlne g X vN rest₂ hX hg
          cases g with
          | zero => omega
          | succ g₀ =>
            simp only [List.length_append, List.length_cons] at hg
            unfold parseElems1
            rw [show (w ++ ((d₀ :: d₁) ++ c₃)) ++ ',' :: '\n' :: (X ++ '\n' :: ']' :: rest₂)
                = w ++ ((d₀ :: d₁) ++
                    (c₃ ++ ',' :: '\n' :: (X ++ '\n' :: ']' :: rest₂))) from by simp,
              skipWs_ws_append _ _ hwws, List.cons_append,
              skipWs_no_ws d₀ _ (cabezaValor_no_ws d₀ hdcv')]
            simp only []
            rw [if_neg (cabezaValor_no_cierra d₀ hdcv').1]
            have hcs : cabezaSegura (c₃ ++ ',' :: '\n' ::
                (X ++ '\n' :: ']' :: rest₂)) = true := by
              cases c₃ with
              | nil => rw [List.nil_append, cabezaSegura_cons]; decide
              | cons x xs =>
                rw [cabezaSegura_append _ _ (by simp)]
                exact hcs₃ (by simp)
            have hpv := hdrep g₀ [] (c₃ ++ ',' :: '\n' :: (X ++ '\n' :: ']' :: rest₂)) rfl hcs
              (by simp only [List.length_append, List.length_cons, List.length_nil]; omega)
            rw [List.nil_append, List.cons_append] at hpv
            rw [hpv]
            simp only []
            rw [hrepII₃ g₀ [v₁] X vN rest₂ hX (by omega), hl₃]

theorem mm1_step (f : Nat) (ihV : MVP f) (ihMR : MMRP f) : MM1P (f + 1) := by
  intro s e r h
  unfold parseMems1 at h
  obtain ⟨w, hsw, hwws, hhead⟩ := skipWs_decomp s
  cases hss : skipWs s with
  | nil => rw [hss] at h; exact Option.noConfusion h
  | cons c t =>
    rw [hss] at h hsw
    have hcws : esJsonWs c = false := by
      rcases hhead with h0 | h0
      · rw [hss] at h0; exact List.noConfusion h0
      · rw [hss] at h0; exact h0
    simp only [] at h
    by_cases hc1 : c = '\x7d'
    · subst hc1
      rw [if_pos rfl] at h
      simp only [Option.some.injEq, Prod.mk.injEq] at h
      obtain ⟨he, hr⟩ := h
      subst he
      subst hr
      refine ⟨w, by rw [hsw], ?_⟩
      intro g r₂ hg
      cases g with
      | zero => omega
      | succ g₀ =>
        unfold parseMems1
        rw [skipWs_ws_append _ _ hwws, skipWs_no_ws '\x7d' _ (by decide)]
        simp only []
        rw [if_true]
    · rw [if_neg hc1] at h
      by_cases hc2 : c = '"'
      · subst hc2
        rw [if_pos rfl] at h
        cases hpk : parseStringBody t with
        | none => rw [hpk] at h; exact Option.noConfusion h
        | some prk =>
          obtain ⟨k, r₁⟩ := prk
          rw [hpk] at h
          simp only [] at h
          obtain ⟨b, hbsp, hbne, hblast, hbrep⟩ := psb_master t k _ hpk
          obtain ⟨w₂, hr₁w, hw₂ws, hhead₂⟩ := skipWs_decomp r₁
          cases hss₂ : skipWs r₁ with
          | nil => rw [hss₂] at h; exact Option.noConfusion h
          | cons c₂ t₂ =>
            rw [hss₂] at h hr₁w
            simp only [] at h
            by_cases hcc : c₂ = ':'
            · subst hcc
              rw [if_pos rfl] at h
              cases hpv : parseVal f t₂ with
              | none => rw [hpv] at h; exact Option.noConfusion h
              | some prv =>
                obtain ⟨v₁, r₃⟩ := prv
                rw [hpv] at h
                simp only [] at h
                obtain ⟨w₃, d, ht₂sp, hw₃ws, hdne, hdcv, hdlast, hdrep⟩ := ihV t₂ v₁ _ hpv
                obtain ⟨cₘ, nuevosₘ, hr₃sp, he₃, hcsₘ, hrepₘ⟩ := ihMR [(k, v₁)] r₃ e r h
                obtain ⟨d₀, d₁, rfl⟩ := List.exists_cons_of_ne_nil hdne
                have hdcv' : cabezaValor d₀ = true := by simpa using hdcv
                refine ⟨w ++ ('"' :: (b ++ (w₂ ++ (':' :: (w₃ ++ ((d₀ :: d₁) ++ cₘ)))))),
                  ?_, ?_⟩
                · rw [hsw, hbsp, hr₁w, ht₂sp, hr₃sp]
                  simp
                · intro g r₂ hg
                  cases g with
                  | zero => omega
                  | succ g₀ =>
                    simp only [List.length_append, List.length_cons] at hg
                    unfold parseMems1
                    rw [show (w ++ ('"' :: (b ++ (w₂ ++ (':' :: (w₃ ++ ((d₀ :: d₁) ++ cₘ)))))))
                          ++ '\x7d' :: r₂
                        = w ++ ('"' :: (b ++ (w₂ ++ (':' :: (w₃ ++ ((d₀ :: d₁)
                            ++ (cₘ ++ '\x7d' :: r₂))))))) from by simp,
                      skipWs_ws_append _ _ hwws, skipWs_no_ws '"' _ (by decide)]
                    simp only []
                    rw [if_neg (by decide), if_true, hbrep _]
                    simp only []
                    rw [skipWs_ws_append _ _ hw₂ws, skipWs_no_ws ':' _ (by decide)]
                    simp only []
                    rw [if_true]
                    have hcs : cabezaSegura (cₘ ++ '\x7d' :: r₂) = true := by
                      cases cₘ with
                      | nil => rw [List.nil_append, cabezaSegura_cons]; decide
                      | cons x xs =>
                        rw [cabezaSegura_append _ _ (by simp)]
                        exact hcsₘ (by simp)
                    rw [hdrep g₀ w₃ (cₘ ++ '\x7d' :: r₂) hw₃ws hcs
                      (by simp only [List.length_append, List.length_cons,
                        List.length_nil]; omega)]
                    simp only []
                    rw [hrepₘ g₀ [(k, v₁)] r₂ (by omega), he₃]
            · rw [if_neg hcc] at h
              exact Option.noConfusion h
      · rw [if_neg hc2] at h
        exact Option.noConfusion h

theorem mmr_step (f : Nat) (ihV : MVP f) (ihMR : MMRP f) : MMRP (f + 1) := by
  intro acc s e r h
  unfold parseMemsR at h
  obtain ⟨w, hsw, hwws, hhead⟩ := skipWs_decomp s
  cases hss : skipWs s with
  | nil => rw [hss] at h; exact Option.noConfusion h
  | cons c t =>
    rw [hss] at h hsw
    have hcws : esJsonWs c = false := by
      rcases hhead with h0 | h0
      · rw [hss] at h0; exact List.noConfusion h0
      · rw [hss] at h0; exact h0
    simp only [] at h
    by_cases hc1 : c = '\x7d'
    · subst hc1
      rw [if_pos rfl] at h
      simp only [Option.some.injEq, Prod.mk.injEq] at h
      obtain ⟨he, hr⟩ := h
      subst he
      subst hr
      refine ⟨w, [], by rw [hsw], by simp, fun hne => cabezaSegura_ws w hwws hne, ?_⟩
      intro g acc₂ r₂ hg
      cases g with
      | zero => omega
      | succ g₀ =>
        unfold parseMemsR
        rw [skipWs_ws_append _ _ hwws, skipWs_no_ws '\x7d' _ (by decide)]
        simp only []
        rw [if_true, List.append_nil]
    · rw [if_neg hc1] at h
      by_cases hc2 : c = ','
      · subst hc2
        rw [if_pos rfl] at h
        obtain ⟨w₀, htw, hw₀ws, hhead₀⟩ := skipWs_decomp t
        cases hss₀ : skipWs t with
        | nil => rw [hss₀] at h; exact Option.noConfusion h
        | cons c₁ t₂ =>
          rw [hss₀] at h htw
          simp only [] at h
          by_cases hcq : c₁ = '"'
          · subst hcq
            rw [if_pos rfl] at h
            cases hpk : parseStringBody t₂ with
            | none => rw [hpk] at h; exact Option.noConfusion h
            | some prk =>
              obtain ⟨k, r₁⟩ := prk
              rw [hpk] at h
              simp only [] at h
              obtain ⟨b, hbsp, hbne, hblast, hbrep⟩ := psb_master t₂ k _ hpk
              obtain ⟨w₂, hr₁w, hw₂ws, hhead₂⟩ := skipWs_decomp r₁
              cases hss₂ : skipWs r₁ with
              | nil => rw [hss₂] at h; exact Option.noConfusion h
              | cons c₂ t₃ =>
                rw [hss₂] at h hr₁w
                simp only [] at h
                by_cases hcc : c₂ = ':'
                · subst hcc
                  rw [if_pos rfl] at h
                  cases hpv : parseVal f t₃ with
                  | none => rw [hpv] at h; exact Option.noConfusion h
                  | some prv =>
                    obtain ⟨v₁, r₃⟩ := prv
                    rw [hpv] at h
                    simp only [] at h
                    obtain ⟨w₃, d, ht₃sp, hw₃ws, hdne, hdcv, hdlast, hdrep⟩ := ihV t₃ v₁ _ hpv
                    obtain ⟨cₘ, nuevosₘ, hr₃sp, he₃, hcsₘ, hrepₘ⟩ :=
                      ihMR (acc ++ [(k, v₁)]) r₃ e r h
                    obtain ⟨d₀, d₁, rfl⟩ := List.exists_cons_of_ne_nil hdne
                    have hdcv' : cabezaValor d₀ = true := by simpa using hdcv
                    refine ⟨w ++ (',' :: (w₀ ++ ('"' :: (b ++ (w₂ ++ (':' ::
                        (w₃ ++ ((d₀ :: d₁) ++ cₘ)))))))), (k, v₁) :: nuevosₘ,
                      ?_, ?_, fun _ => cabezaSegura_ws_coma w _ hwws, ?_⟩
                    · rw [hsw, htw, hbsp, hr₁w, ht₃sp, hr₃sp]
                      simp
                    · rw [he₃]
                      simp
                    · intro g acc₂ r₂ hg
                      cases g with
                      | zero => omega
                      | succ g₀ =>
                        simp only [List.length_append, List.length_cons] at hg
                        unfold parseMemsR
                        rw [show (w ++ (',' :: (w₀ ++ ('"' :: (b ++ (w₂ ++ (':' ::
                              (w₃ ++ ((d₀ :: d₁) ++ cₘ))))))))) ++ '\x7d' :: r₂
                            = w ++ (',' :: (w₀ ++ ('"' :: (b ++ (w₂ ++ (':' ::
                              (w₃ ++ ((d₀ :: d₁) ++ (cₘ ++ '\x7d' :: r₂))))))))) from by simp,
                          skipWs_ws_append _ _ hwws, skipWs_no_ws ',' _ (by decide)]
                        simp only []
                        rw [if_neg (by decide), if_true, skipWs_ws_append _ _ hw₀ws,
                          skipWs_no_ws '"' _ (by decide)]
                        simp only []
                        rw [if_true, hbrep _]
                        simp only []
                        rw [skipWs_ws_append _ _ hw₂ws, skipWs_no_ws ':' _ (by decide)]
                        simp only []
                        rw [if_true]
                        have hcs : cabezaSegura (cₘ ++ '\x7d' :: r₂) = true := by
                          cases cₘ with
                          | nil => rw [List.nil_append, cabezaSegura_cons]; decide
                          | cons x xs =>
                            rw [cabezaSegura_append _ _ (by simp)]
                            exact hcsₘ (by simp)
                        rw [hdrep g₀ w₃ (cₘ ++ '\x7d' :: r₂) hw₃ws hcs
                          (by simp only [List.length_append, List.length_cons,
                            List.length_nil]; omega)]
                        simp only []
                        rw [hrepₘ g₀ (acc₂ ++ [(k, v₁)]) r₂ (by omega)]
                        rw [show (acc₂ ++ [(k, v₁)]) ++ nuevosₘ
                            = acc₂ ++ ((k, v₁) :: nuevosₘ) from by simp]
                · rw [if_neg hcc] at h
                  exact Option.noConfusion h
          · rw [if_neg hcq] at h
            exact Option.noConfusion h
      · rw [if_neg hc2] at h
        exact Option.noConfusion h

theorem parse_master : ∀ fuel : Nat, MVP fuel ∧ ME1P fuel ∧ MRP fuel ∧ MM1P fuel ∧ MMRP fuel
  | 0 =>
    ⟨fun s v r h => by unfold parseVal at h; exact Option.noConfusion h,
     fun s l r h => by unfold parseElems1 at h; exact Option.noConfusion h,
     fun acc s l r h => by unfold parseElemsR at h; exact Option.noConfusion h,
     fun s e r h => by unfold parseMems1 at h; exact Option.noConfusion h,
     fun acc s e r h => by unfold parseMemsR at h; exact Option.noConfusion h⟩
  | f + 1 =>
    have ih := parse_master f
    ⟨mv_step f ih.2.1 ih.2.2.2.1,
     me1_step f ih.1 ih.2.2.1,
     mr_step f ih.1 ih.2.2.1,
     mm1_step f ih.1 ih.2.2.2.2,
     mmr_step f ih.1 ih.2.2.2.2⟩

theorem headD_append_left (l₁ l₂ : Str) (h : l₁ ≠ []) (d : Char) :
    (l₁ ++ l₂).headD d = l₁.headD d := by
  cases l₁ with
  | nil => exact absurd rfl h
  | cons => rfl

theorem digitChar_facts (n : Nat) (h : n < 10) :
    esDigito (digitChar n) = true ∧ digitVal (digitChar n) = n := by
  interval_cases n <;> exact ⟨by decide, by decide⟩

theorem digitsToNat_concat (ds : Str) (c : Char) :
    digitsToNat (ds ++ [c]) = 10 * digitsToNat ds + digitVal c := by
  simp [digitsToNat, List.foldl_append]

theorem natCharsGo_ok : ∀ fuel n, n ≤ fuel →
    (∀ c ∈ natCharsGo fuel n, esDigito c = true) ∧ natCharsGo fuel n ≠ [] ∧
      digitsToNat (natCharsGo fuel n) = n ∧
      (1 ≤ n → (natCharsGo fuel n).headD ' ' ≠ '0') := by
  intro fuel
  induction fuel with
  | zero =>
    intro n hn
    have hn0 : n = 0 := by omega
    subst hn0
    exact ⟨by intro c hc; simp [natCharsGo] at hc; subst hc; decide,
      by simp [natCharsGo], by decide, fun h0 => absurd h0 (by omega)⟩
  | succ f ih =>
    intro n hn
    unfold natCharsGo
    by_cases h10 : n < 10
    · rw [if_pos h10]
      obtain ⟨hd1, hd2⟩ := digitChar_facts n h10
      refine ⟨?_, by simp, ?_, ?_⟩
      · intro c hc
        simp at hc
        subst hc
        exact hd1
      · simp [digitsToNat, hd2]
      · intro h1 hc
        simp only [List.headD_cons] at hc
        rw [hc] at hd2
        simp [digitVal] at hd2
        omega
    · rw [if_neg h10]
      have hdiv : n / 10 < n := Nat.div_lt_self (by omega) (by omega)
      obtain ⟨ha, hb, hc, hh⟩ := ih (n / 10) (by omega)
      obtain ⟨hd1, hd2⟩ := digitChar_facts (n % 10) (Nat.mod_lt n (by omega))
      refine ⟨?_, append_ne_nil_izq _ _ hb, ?_, ?_⟩
      · intro c hcm
        rcases List.mem_append.mp hcm with hm | hm
        · exact ha c hm
        · simp at hm
          subst hm
          exact hd1
      · rw [digitsToNat_concat, hc, hd2]
        omega
      · intro _
        rw [headD_append_left _ _ hb]
        exact hh (by omega)

theorem natChars_ok (n : Nat) :
    (∀ c ∈ natChars n, esDigito c = true) ∧ natChars n ≠ [] ∧
      digitsToNat (natChars n) = n ∧ (1 ≤ n → (natChars n).headD ' ' ≠ '0') :=
  natCharsGo_ok n n (Nat.le_refl n)

theorem natChars_sin_cero (n : Nat) :
    (1 < (natChars n).length && (natChars n).headD ' ' == '0') = false := by
  obtain ⟨_, hne, _, hh⟩ := natChars_ok n
  by_cases h1 : 1 ≤ n
  · have := hh h1
    cases hq : (natChars n).headD ' ' == '0' with
    | false => simp
    | true => exact absurd (by simpa using hq) this
  · have hn0 : n = 0 := by omega
    subst hn0
    decide

theorem bfalso {b : Bool} (h : b = false) : ¬ b = true :=
  fun hc => Bool.noConfusion (h.symm.trans hc)

theorem parseNumNat_roundtrip (n : Nat) (fr r' : Str) (hfr : ∀ c ∈ fr, esDigito c = true)
    (hr' : cabezaSegura r' = true) :
    parseNumNat (natChars n ++ ((if fr.isEmpty then [] else '.' :: fr) ++ r'))
      = some ((Int.ofNat n, fr), r') := by
  obtain ⟨hdig, hne, hval, _⟩ := natChars_ok n
  have hne' : (natChars n).isEmpty = false := by
    cases hq : natChars n with
    | nil => exact absurd hq hne
    | cons a as => rfl
  cases fr with
  | nil =>
    rw [show (if ([] : Str).isEmpty then ([] : Str) else '.' :: []) = [] from rfl,
      List.nil_append]
    have hcd := cogeDigitos_replay (natChars n) r' hdig (cabezaSegura_no_digito r' hr')
    simp only [parseNumNat, hcd]
    rw [if_neg (bfalso hne'), if_neg (bfalso (natChars_sin_cero n))]
    cases r' with
    | nil => rw [hval]
    | cons c r2 =>
      simp only []
      have hcp : ¬ c = '.' := by
        rcases cabezaSegura_no_punto (c :: r2) hr' with h0 | h0
        · exact List.noConfusion h0
        · simpa using h0
      rw [if_neg hcp, hval]
  | cons f0 fs =>
    rw [show (if (f0 :: fs : Str).isEmpty then ([] : Str) else '.' :: (f0 :: fs))
        = '.' :: (f0 :: fs) from rfl,
      show ('.' :: (f0 :: fs)) ++ r' = '.' :: ((f0 :: fs) ++ r') from rfl]
    have hcd := cogeDigitos_replay (natChars n) ('.' :: ((f0 :: fs) ++ r')) hdig
      (Or.inr (by rw [List.headD_cons]; decide))
    simp only [parseNumNat, hcd]
    rw [if_neg (bfalso hne'), if_neg (bfalso (natChars_sin_cero n))]
    rw [if_true]
    have hcd2 := cogeDigitos_replay (f0 :: fs) r' hfr (cabezaSegura_no_digito r' hr')
    simp only [hcd2]
    rw [if_neg (by simp), hval]

theorem parseNum_roundtrip (i : Int) (fr r' : Str) (hfr : ∀ c ∈ fr, esDigito c = true)
    (hr' : cabezaSegura r' = true) :
    parseNum (numTok i fr ++ r') = some (.num i fr, r') := by
  cases i with
  | ofNat n =>
    obtain ⟨hdig, hne, _, _⟩ := natChars_ok n
    have hmain := parseNumNat_roundtrip n fr r' hfr hr'
    rw [show numTok (Int.ofNat n) fr ++ r'
        = natChars n ++ ((if fr.isEmpty then [] else '.' :: fr) ++ r') from by
      simp [numTok, intChars]]
    cases hq : natChars n with
    | nil => exact absurd hq hne
    | cons h0 hs =>
      have hd0 : esDigito h0 = true := hdig h0 (by rw [hq]; exact List.mem_cons_self h0 hs)
      rw [List.cons_append, parseNum_cons,
        if_neg (esDigito_ne h0 '-' hd0 (by decide)), ← List.cons_append, ← hq, hmain]
  | negSucc m =>
    have hmain := parseNumNat_roundtrip (m + 1) fr r' hfr hr'
    rw [show numTok (Int.negSucc m) fr ++ r'
        = '-' :: (natChars (m + 1) ++ ((if fr.isEmpty then [] else '.' :: fr) ++ r')) from by
      simp [numTok, intChars]]
    rw [parseNum_cons, if_pos rfl, hmain]
    simp only []
    rfl

theorem escChar_seguro (c : Char) (hc : esSeguro c = true) : escChar c = [c] := by
  simp only [esSeguro, Bool.and_eq_true, Bool.not_eq_true'] at hc
  obtain ⟨⟨hq, hb⟩, h32⟩ := hc
  have h32' : ¬ c.toNat < 32 := of_decide_eq_false h32
  have hq' : ¬ c = '"' := by intro he; rw [he] at hq; exact Bool.noConfusion hq
  have hb' : ¬ c = '\\' := by intro he; rw [he] at hb; exact Bool.noConfusion hb
  unfold escChar
  rw [if_neg hq', if_neg hb', if_neg (fun he => h32' (by rw [he]; decide)),
    if_neg (fun he => h32' (by rw [he]; decide)),
    if_neg (fun he => h32' (by rw [he]; decide)),
    if_neg (fun he => h32' (by omega)), if_neg (fun he => h32' (by omega)),
    if_neg h32']

theorem escRun_segura (s : Str) (hs : strSegura s = true) : escRun s = s := by
  induction s with
  | nil => rfl
  | cons c cs ih =>
    simp only [strSegura, List.all_cons, Bool.and_eq_true] at hs
    show escChar c ++ escRun cs = c :: cs
    rw [escChar_seguro c hs.1, ih hs.2]
    rfl

theorem psb_roundtrip (s : Str) (hs : strSegura s = true) (r' : Str) :
    parseStringBody (s ++ '"' :: r') = some (s, r') := by
  induction s with
  | nil =>
    rw [List.nil_append]
    unfold parseStringBody
    rw [if_pos rfl]
  | cons c cs ih =>
    simp only [strSegura, List.all_cons, Bool.and_eq_true] at hs
    have hc := hs.1
    simp only [esSeguro, Bool.and_eq_true, Bool.not_eq_true'] at hc
    obtain ⟨⟨hq, hb⟩, h32⟩ := hc
    have h32' : ¬ c.toNat < 32 := of_decide_eq_false h32
    have hq' : ¬ c = '"' := by intro he; rw [he] at hq; exact Bool.noConfusion hq
    have hb' : ¬ c = '\\' := by intro he; rw [he] at hb; exact Bool.noConfusion hb
    rw [List.cons_append]
    unfold parseStringBody
    rw [if_neg hq', if_neg hb', if_neg h32', ih hs.2]

theorem dumpStr_roundtrip (s : Str) (hs : strSegura s = true) (r' : Str) :
    dumpStr s ++ r' = '"' :: (s ++ '"' :: r') := by
  rw [dumpStr, escRun_segura s hs]
  simp

theorem dumpArrRest_cons (lvl : Nat) (x : PyVal) (xs : List PyVal) :
    dumpArrRest cfgAppend lvl (x :: xs)
      = ',' :: (nlInd cfgAppend lvl ++ dumpVal cfgAppend lvl x
          ++ dumpArrRest cfgAppend lvl xs) := rfl

theorem dumpObjRest_cons (lvl : Nat) (k : Str) (v : PyVal) (es : List (Str × PyVal)) :
    dumpObjRest cfgAppend lvl ((k, v) :: es)
      = ',' :: (nlInd cfgAppend lvl ++ dumpStr k ++ cfgAppend.kvSep
          ++ dumpVal cfgAppend lvl v ++ dumpObjRest cfgAppend lvl es) := rfl

theorem dumpArr_cons (lvl : Nat) (x : PyVal) (xs : List PyVal) :
    dumpArr cfgAppend lvl (x :: xs)
      = '[' :: (nlInd cfgAppend (lvl + 1) ++ dumpVal cfgAppend (lvl + 1) x
          ++ dumpArrRest cfgAppend (lvl + 1) xs ++ nlInd cfgAppend lvl ++ [']']) := rfl

theorem dumpObj_cons (lvl : Nat) (k : Str) (v : PyVal) (es : List (Str × PyVal)) :
    dumpObj cfgAppend lvl ((k, v) :: es)
      = '\x7b' :: (nlInd cfgAppend (lvl + 1) ++ dumpStr k ++ cfgAppend.kvSep
          ++ dumpVal cfgAppend (lvl + 1) v ++ dumpObjRest cfgAppend (lvl + 1) es
          ++ nlInd cfgAppend lvl ++ ['\x7d']) := rfl

theorem nlInd_cfgAppend (lvl : Nat) : nlInd cfgAppend lvl = '\n' :: espacios (4 * lvl) := rfl

theorem kvSep_cfgAppend : cfgAppend.kvSep = [':', ' '] := rfl

theorem esWsStr_espacios (n : Nat) : esWsStr (espacios n) = true := by
  induction n with
  | zero => rfl
  | succ m ih =>
    rw [espacios, List.replicate_succ]
    simp only [esWsStr, List.all_cons, Bool.and_eq_true]
    exact ⟨by decide, ih⟩

theorem esWsStr_nlInd (lvl : Nat) : esWsStr (nlInd cfgAppend lvl) = true := by
  rw [nlInd_cfgAppend]
  simp only [esWsStr, List.all_cons, Bool.and_eq_true]
  exact ⟨by decide, esWsStr_espacios (4 * lvl)⟩

theorem CleanValP_ws (w X : Str) (v : PyVal) (hw : esWsStr w = true) (h : CleanValP X v) :
    CleanValP (w ++ X) v := by
  intro g rest hrest hg
  rw [List.append_assoc, parseVal_ws g w _ hw]
  exact h g rest hrest (by simp only [List.length_append] at hg; omega)

theorem cabezaSegura_nlInd (lvl : Nat) (Z : Str) :
    cabezaSegura (nlInd cfgAppend lvl ++ Z) = true := by
  rw [nlInd_cfgAppend, List.cons_append, cabezaSegura_cons]
  decide

theorem cabezaSegura_arrRest (lvl : Nat) (xs : List PyVal) (Z : Str)
    (hZ : cabezaSegura Z = true) :
    cabezaSegura (dumpArrRest cfgAppend lvl xs ++ Z) = true := by
  cases xs with
  | nil => rw [show dumpArrRest cfgAppend lvl [] = [] from rfl, List.nil_append]; exact hZ
  | cons x2 xs2 =>
    rw [dumpArrRest_cons, List.cons_append, cabezaSegura_cons]
    decide

theorem cabezaSegura_objRest (lvl : Nat) (es : List (Str × PyVal)) (Z : Str)
    (hZ : cabezaSegura Z = true) :
    cabezaSegura (dumpObjRest cfgAppend lvl es ++ Z) = true := by
  cases es with
  | nil => rw [show dumpObjRest cfgAppend lvl [] = [] from rfl, List.nil_append]; exact hZ
  | cons kv es2 =>
    obtain ⟨k, v⟩ := kv
    rw [dumpObjRest_cons, List.cons_append, cabezaSegura_cons]
    decide

theorem numTok_cabeza (i : Int) (fr : Str) :
    ∃ h0 t, numTok i fr = h0 :: t ∧ (h0 = '-' ∨ esDigito h0 = true) := by
  cases i with
  | ofNat n =>
    obtain ⟨hdig, hne, _, _⟩ := natChars_ok n
    cases hq : natChars n with
    | nil => exact absurd hq hne
    | cons h0 hs =>
      refine ⟨h0, hs ++ (if fr.isEmpty then [] else '.' :: fr), ?_,
        Or.inr (hdig h0 (by rw [hq]; exact List.mem_cons_self h0 hs))⟩
      rw [numTok, show intChars (Int.ofNat n) = natChars n from rfl, hq, List.cons_append]
  | negSucc m =>
    refine ⟨'-', natChars (m + 1) ++ (if fr.isEmpty then [] else '.' :: fr), ?_, Or.inl rfl⟩
    rw [numTok, show intChars (Int.negSucc m) = '-' :: natChars (m + 1) from rfl,
      List.cons_append]

theorem dump_cabeza (lvl : Nat) (v : PyVal) (hv : limpio v = true) :
    ∃ h0 t, dumpVal cfgAppend lvl v = h0 :: t ∧ cabezaValor h0 = true := by
  cases v with
  | none => exact ⟨'n', s2l "ull", rfl, by decide⟩
  | bool b =>
    cases b with
    | true => exact ⟨'t', s2l "rue", rfl, by decide⟩
    | false => exact ⟨'f', s2l "alse", rfl, by decide⟩
  | num i fr =>
    obtain ⟨h0, t, hnt, hcase⟩ := numTok_cabeza i fr
    exact ⟨h0, t, hnt, (cabezaNum_facts h0 hcase).1⟩
  | str s => exact ⟨'"', escRun s ++ ['"'], rfl, by decide⟩
  | list l =>
    cases l with
    | nil => exact ⟨'[', [']'], rfl, by decide⟩
    | cons x xs => exact ⟨'[', _, dumpArr_cons lvl x xs, by decide⟩
  | tup l => exact absurd hv (by simp [limpio])
  | dict e =>
    cases e with
    | nil => exact ⟨'\x7b', ['\x7d'], rfl, by decide⟩
    | cons kv es =>
      obtain ⟨k, v⟩ := kv
      exact ⟨'\x7b', _, dumpObj_cons lvl k v es, by decide⟩

theorem cabezaSegura_ws_pre (W rest : Str) (hW : esWsStr W = true)
    (h : cabezaSegura rest = true) : cabezaSegura (W ++ rest) = true := by
  cases W with
  | nil => rw [List.nil_append]; exact h
  | cons w0 ws =>
    rw [List.cons_append, cabezaSegura_cons]
    simp only [esWsStr, List.all_cons, Bool.and_eq_true] at hW
    rw [hW.1]
    rfl

mutual

theorem clean_dump_val : ∀ (v : PyVal), limpio v = true → ∀ (lvl : Nat),
    CleanValP (dumpVal cfgAppend lvl v) v
  | .none, _hv, lvl => by
    intro g rest hrest hg
    cases g with
    | zero => omega
    | succ g₀ =>
      unfold parseVal
      rw [show dumpVal cfgAppend lvl PyVal.none = 'n' :: s2l "ull" from rfl,
        List.cons_append, skipWs_no_ws 'n' _ (by decide)]
      simp only []
      rw [if_neg (by decide), if_neg (by decide), if_neg (by decide), if_neg (by decide),
        if_neg (by decide), if_true]
      unfold parseLit
      rw [if_pos (empiezaCon_self _ _), List.drop_left]
  | .bool true, _hv, lvl => by
    intro g rest hrest hg
    cases g with
    | zero => omega
    | succ g₀ =>
      unfold parseVal
      rw [show dumpVal cfgAppend lvl (PyVal.bool true) = 't' :: s2l "rue" from rfl,
        List.cons_append, skipWs_no_ws 't' _ (by decide)]
      simp only []
      rw [if_neg (by decide), if_neg (by decide), if_neg (by decide), if_true]
      unfold parseLit
      rw [if_pos (empiezaCon_self _ _), List.drop_left]
  | .bool false, _hv, lvl => by
    intro g rest hrest hg
    cases g with
    | zero => omega
    | succ g₀ =>
      unfold parseVal
      rw [show dumpVal cfgAppend lvl (PyVal.bool false) = 'f' :: s2l "alse" from rfl,
        List.cons_append, skipWs_no_ws 'f' _ (by decide)]
      simp only []
      rw [if_neg (by decide), if_neg (by decide), if_neg (by decide), if_neg (by decide),
        if_true]
      unfold parseLit
      rw [if_pos (empiezaCon_self _ _), List.drop_left]
  | .num i fr, hv, lvl => by
    intro g rest hrest hg
    have hfr : fr.all esDigito = true := hv
    cases g with
    | zero => omega
    | succ g₀ =>
      obtain ⟨h0, t0, hnt, hcase⟩ := numTok_cabeza i fr
      obtain ⟨_, hnws, hn1, hn2, hn3, hn4, hn5, hn6⟩ := cabezaNum_facts h0 hcase
      unfold parseVal
      rw [show dumpVal cfgAppend lvl (PyVal.num i fr) = numTok i fr from rfl,
        hnt, List.cons_append, skipWs_no_ws h0 _ hnws]
      simp only []
      rw [if_neg hn1, if_neg hn2, if_neg hn3, if_neg hn4, if_neg hn5, if_neg hn6,
        ← List.cons_append, ← hnt,
        parseNum_roundtrip i fr rest (List.all_eq_true.mp hfr) hrest]
  | .str s, hv, lvl => by
    intro g rest hrest hg
    have hs : strSegura s = true := hv
    cases g with
    | zero => omega
    | succ g₀ =>
      unfold parseVal
      rw [show dumpVal cfgAppend lvl (PyVal.str s) = '"' :: (escRun s ++ ['"']) from rfl,
        List.cons_append, skipWs_no_ws '"' _ (by decide)]
      simp only []
      rw [if_neg (by decide), if_neg (by decide), if_true,
        show (escRun s ++ ['"']) ++ rest = s ++ '"' :: rest from by
          rw [escRun_segura s hs]; simp,
        psb_roundtrip s hs rest]
  | .list [], _hv, lvl => by
    intro g rest hrest hg
    have hXlen : (dumpVal cfgAppend lvl (PyVal.list [])).length = 2 := rfl
    cases g with
    | zero => omega
    | succ g₀ =>
      unfold parseVal
      rw [show dumpVal cfgAppend lvl (PyVal.list []) = '[' :: [']'] from rfl,
        List.cons_append, skipWs_no_ws '[' _ (by decide)]
      simp only []
      rw [if_true]
      have hpe : parseElems1 g₀ (']' :: rest) = some ([], rest) := by
        cases g₀ with
        | zero => omega
        | succ g₁ =>
          unfold parseElems1
          rw [skipWs_no_ws ']' _ (by decide)]
          simp only []
          rw [if_true]
      rw [show ([']'] : Str) ++ rest = ']' :: rest from rfl, hpe]
  | .list (x :: xs), hv, lvl => by
    have hv' : limpio x = true ∧ limpioL xs = true := by
      have h2 : (limpio x && limpioL xs) = true := hv
      rw [Bool.and_eq_true] at h2
      exact h2
    intro g rest hrest hg
    obtain ⟨h0, t0, hd, hcv⟩ := dump_cabeza (lvl + 1) x hv'.1
    cases g with
    | zero => omega
    | succ g₀ =>
      rw [show dumpVal cfgAppend lvl (PyVal.list (x :: xs)) = dumpArr cfgAppend lvl (x :: xs)
          from rfl, dumpArr_cons, hd] at hg
      simp only [List.length_append, List.length_cons] at hg
      unfold parseVal
      rw [show dumpVal cfgAppend lvl (PyVal.list (x :: xs)) = dumpArr cfgAppend lvl (x :: xs)
          from rfl, dumpArr_cons, List.cons_append, skipWs_no_ws '[' _ (by decide)]
      simp only []
      rw [if_true]
      have hcs : cabezaSegura (dumpArrRest cfgAppend (lvl + 1) xs
          ++ (nlInd cfgAppend lvl ++ ']' :: rest)) = true :=
        cabezaSegura_arrRest (lvl + 1) xs _ (cabezaSegura_nlInd lvl _)
      have hpe : parseElems1 g₀ ((nlInd cfgAppend (lvl + 1) ++ dumpVal cfgAppend (lvl + 1) x
          ++ dumpArrRest cfgAppend (lvl + 1) xs ++ nlInd cfgAppend lvl ++ [']']) ++ rest)
          = some (x :: xs, rest) := by
        cases g₀ with
        | zero => omega
        | succ g₁ =>
          unfold parseElems1
          rw [show (nlInd cfgAppend (lvl + 1) ++ dumpVal cfgAppend (lvl + 1) x
                ++ dumpArrRest cfgAppend (lvl + 1) xs ++ nlInd cfgAppend lvl ++ [']']) ++ rest
              = nlInd cfgAppend (lvl + 1) ++ (dumpVal cfgAppend (lvl + 1) x
                ++ (dumpArrRest cfgAppend (lvl + 1) xs
                  ++ (nlInd cfgAppend lvl ++ ']' :: rest))) from by simp,
            skipWs_ws_append _ _ (esWsStr_nlInd (lvl + 1)), hd, List.cons_append,
            skipWs_no_ws h0 _ (cabezaValor_no_ws h0 hcv)]
          simp only []
          rw [if_neg (cabezaValor_no_cierra h0 hcv).1]
          have hpv := clean_dump_val x hv'.1 (lvl + 1) g₁
            (dumpArrRest cfgAppend (lvl + 1) xs ++ (nlInd cfgAppend lvl ++ ']' :: rest)) hcs
            (by rw [hd]; simp only [List.length_append, List.length_cons]; omega)
          rw [hd, List.cons_append] at hpv
          rw [hpv]
          simp only []
          rw [clean_dump_arr xs hv'.2 (lvl + 1) g₁ [x] (nlInd cfgAppend lvl) rest
            (esWsStr_nlInd lvl) (by omega), List.singleton_append]
      rw [hpe]
  | .tup l, hv, lvl => by
    exact absurd hv (by simp [limpio])
  | .dict [], _hv, lvl => by
    intro g rest hrest hg
    have hXlen : (dumpVal cfgAppend lvl (PyVal.dict [])).length = 2 := rfl
    cases g with
    | zero => omega
    | succ g₀ =>
      unfold parseVal
      rw [show dumpVal cfgAppend lvl (PyVal.dict []) = '\x7b' :: ['\x7d'] from rfl,
        List.cons_append, skipWs_no_ws '\x7b' _ (by decide)]
      simp only []
      rw [if_neg (by decide), if_true]
      have hpm : parseMems1 g₀ ('\x7d' :: rest) = some ([], rest) := by
        cases g₀ with
        | zero => omega
        | succ g₁ =>
          unfold parseMems1
          rw [skipWs_no_ws '\x7d' _ (by decide)]
          simp only []
          rw [if_true]
      rw [show (['\x7d'] : Str) ++ rest = '\x7d' :: rest from rfl, hpm]
  | .dict ((k, v) :: es), hv, lvl => by
    have hv' : strSegura k = true ∧ limpio v = true ∧ limpioE es = true := by
      have h2 : (strSegura k && limpio v && limpioE es) = true := hv
      rw [Bool.and_eq_true, Bool.and_eq_true] at h2
      exact ⟨h2.1.1, h2.1.2, h2.2⟩
    intro g rest hrest hg
    obtain ⟨h0, t0, hd, hcv⟩ := dump_cabeza (lvl + 1) v hv'.2.1
    cases g with
    | zero => omega
    | succ g₀ =>
      rw [show dumpVal cfgAppend lvl (PyVal.dict ((k, v) :: es))
          = dumpObj cfgAppend lvl ((k, v) :: es) from rfl, dumpObj_cons, hd,
        dumpStr, escRun_segura k hv'.1, kvSep_cfgAppend] at hg
      simp only [List.length_append, List.length_cons] at hg
      unfold parseVal
      rw [show dumpVal cfgAppend lvl (PyVal.dict ((k, v) :: es))
          = dumpObj cfgAppend lvl ((k, v) :: es) from rfl, dumpObj_cons,
        List.cons_append, skipWs_no_ws '\x7b' _ (by decide)]
      simp only []
      rw [if_neg (by decide), if_true]
      have hcs : cabezaSegura (dumpObjRest cfgAppend (lvl + 1) es
          ++ (nlInd cfgAppend lvl ++ '\x7d' :: rest)) = true :=
        cabezaSegura_objRest (lvl + 1) es _ (cabezaSegura_nlInd lvl _)
      have hpm : parseMems1 g₀ ((nlInd cfgAppend (lvl + 1) ++ dumpStr k ++ cfgAppend.kvSep
          ++ dumpVal cfgAppend (lvl + 1) v ++ dumpObjRest cfgAppend (lvl + 1) es
          ++ nlInd cfgAppend lvl ++ ['\x7d']) ++ rest) = some ((k, v) :: es, rest) := by
        cases g₀ with
        | zero => omega
        | succ g₁ =>
          unfold parseMems1
          rw [show (nlInd cfgAppend (lvl + 1) ++ dumpStr k ++ cfgAppend.kvSep
                ++ dumpVal cfgAppend (lvl + 1) v ++ dumpObjRest cfgAppend (lvl + 1) es
                ++ nlInd cfgAppend lvl ++ ['\x7d']) ++ rest
              = nlInd cfgAppend (lvl + 1) ++ (dumpStr k ++ (cfgAppend.kvSep
                ++ (dumpVal cfgAppend (lvl + 1) v ++ (dumpObjRest cfgAppend (lvl + 1) es
                  ++ (nlInd cfgAppend lvl ++ '\x7d' :: rest))))) from by simp,
            skipWs_ws_append _ _ (esWsStr_nlInd (lvl + 1)),
            dumpStr_roundtrip k hv'.1 _, skipWs_no_ws '"' _ (by decide)]
          simp only []
          rw [if_neg (by decide), if_true, psb_roundtrip k hv'.1 _]
          simp only []
          rw [kvSep_cfgAppend,
            show ([':', ' '] : Str) ++ (dumpVal cfgAppend (lvl + 1) v
                ++ (dumpObjRest cfgAppend (lvl + 1) es
                  ++ (nlInd cfgAppend lvl ++ '\x7d' :: rest)))
              = ':' :: (' ' :: (dumpVal cfgAppend (lvl + 1) v
                ++ (dumpObjRest cfgAppend (lvl + 1) es
                  ++ (nlInd cfgAppend lvl ++ '\x7d' :: rest)))) from rfl,
            skipWs_no_ws ':' _ (by decide)]
          simp only []
          rw [if_true]
          have hval2 : parseVal g₁ (' ' :: (dumpVal cfgAppend (lvl + 1) v
              ++ (dumpObjRest cfgAppend (lvl + 1) es
                ++ (nlInd cfgAppend lvl ++ '\x7d' :: rest))))
              = some (v, dumpObjRest cfgAppend (lvl + 1) es
                ++ (nlInd cfgAppend lvl ++ '\x7d' :: rest)) := by
            rw [show (' ' :: (dumpVal cfgAppend (lvl + 1) v
                ++ (dumpObjRest cfgAppend (lvl + 1) es
                  ++ (nlInd cfgAppend lvl ++ '\x7d' :: rest))))
                = [' '] ++ (dumpVal cfgAppend (lvl + 1) v
                  ++ (dumpObjRest cfgAppend (lvl + 1) es
                    ++ (nlInd cfgAppend lvl ++ '\x7d' :: rest))) from rfl,
              parseVal_ws g₁ [' '] _ (by decide)]
            exact clean_dump_val v hv'.2.1 (lvl + 1) g₁ _ hcs
              (by rw [hd]; simp only [List.length_append, List.length_cons]; omega)
          rw [hval2]
          simp only []
          rw [clean_dump_obj es hv'.2.2 (lvl + 1) g₁ [(k, v)] (nlInd cfgAppend lvl) rest
            (esWsStr_nlInd lvl) (by omega), List.singleton_append]
      rw [hpm]

theorem clean_dump_arr : ∀ (l : List PyVal), limpioL l = true → ∀ (lvl g : Nat)
    (acc : List PyVal) (W rest' : Str), esWsStr W = true →
    2 * ((dumpArrRest cfgAppend lvl l).length + W.length + rest'.length) + 5 ≤ g →
    parseElemsR g acc (dumpArrRest cfgAppend lvl l ++ (W ++ ']' :: rest'))
      = some (acc ++ l, rest')
  | [], _hl, lvl, g, acc, W, rest', hW, hg => by
    rw [show dumpArrRest cfgAppend lvl [] = [] from rfl, List.nil_append]
    cases g with
    | zero => omega
    | succ g₀ =>
      unfold parseElemsR
      rw [skipWs_ws_append _ _ hW, skipWs_no_ws ']' _ (by decide)]
      simp only []
      rw [if_true, List.append_nil]
  | x :: xs, hl, lvl, g, acc, W, rest', hW, hg => by
    have hv' : limpio x = true ∧ limpioL xs = true := by
      have h2 : (limpio x && limpioL xs) = true := hl
      rw [Bool.and_eq_true] at h2
      exact h2
    obtain ⟨h0, t0, hd, hcv⟩ := dump_cabeza lvl x hv'.1
    cases g with
    | zero => omega
    | succ g₀ =>
      rw [dumpArrRest_cons, hd] at hg
      simp only [List.length_append, List.length_cons] at hg
      rw [show dumpArrRest cfgAppend lvl (x :: xs) ++ (W ++ ']' :: rest')
          = ',' :: (nlInd cfgAppend lvl ++ (dumpVal cfgAppend lvl x
            ++ (dumpArrRest cfgAppend lvl xs ++ (W ++ ']' :: rest')))) from by
        rw [dumpArrRest_cons]; simp]
      unfold parseElemsR
      rw [skipWs_no_ws ',' _ (by decide)]
      simp only []
      rw [if_neg (by decide), if_true]
      have hcs : cabezaSegura (dumpArrRest cfgAppend lvl xs ++ (W ++ ']' :: rest')) = true :=
        cabezaSegura_arrRest lvl xs _
          (cabezaSegura_ws_pre W _ hW (by rw [cabezaSegura_cons]; decide))
      have hpv := clean_dump_val x hv'.1 lvl g₀
        (dumpArrRest cfgAppend lvl xs ++ (W ++ ']' :: rest')) hcs
        (by rw [hd]; simp only [List.length_append, List.length_cons]; omega)
      rw [parseVal_ws g₀ (nlInd cfgAppend lvl) _ (esWsStr_nlInd lvl), hpv]
      simp only []
      rw [clean_dump_arr xs hv'.2 lvl g₀ (acc ++ [x]) W rest' hW (by omega),
        show (acc ++ [x]) ++ xs = acc ++ (x :: xs) from by simp]

theorem clean_dump_obj : ∀ (e : List (Str × PyVal)), limpioE e = true → ∀ (lvl g : Nat)
    (acc : List (Str × PyVal)) (W rest' : Str), esWsStr W = true →
    2 * ((dumpObjRest cfgAppend lvl e).length + W.length + rest'.length) + 5 ≤ g →
    parseMemsR g acc (dumpObjRest cfgAppend lvl e ++ (W ++ '\x7d' :: rest'))
      = some (acc ++ e, rest')
  | [], _he, lvl, g, acc, W, rest', hW, hg => by
    rw [show dumpObjRest cfgAppend lvl [] = [] from rfl, List.nil_append]
    cases g with
    | zero => omega
    | succ g₀ =>
      unfold parseMemsR
      rw [skipWs_ws_append _ _ hW, skipWs_no_ws '\x7d' _ (by decide)]
      simp only []
      rw [if_true, List.append_nil]
  | (k, v) :: es, he, lvl, g, acc, W, rest', hW, hg => by
    have hv' : strSegura k = true ∧ limpio v = true ∧ limpioE es = true := by
      have h2 : (strSegura k && limpio v && limpioE es) = true := he
      rw [Bool.and_eq_true, Bool.and_eq_true] at h2
      exact ⟨h2.1.1, h2.1.2, h2.2⟩
    obtain ⟨h0, t0, hd, hcv⟩ := dump_cabeza lvl v hv'.2.1
    cases g with
    | zero => omega
    | succ g₀ =>
      rw [dumpObjRest_cons, hd, dumpStr, escRun_segura k hv'.1, kvSep_cfgAppend] at hg
      simp only [List.length_append, List.length_cons] at hg
      rw [show dumpObjRest cfgAppend lvl ((k, v) :: es) ++ (W ++ '\x7d' :: rest')
          = ',' :: (nlInd cfgAppend lvl ++ (dumpStr k ++ (cfgAppend.kvSep
            ++ (dumpVal cfgAppend lvl v ++ (dumpObjRest cfgAppend lvl es
              ++ (W ++ '\x7d' :: rest')))))) from by
        rw [dumpObjRest_cons]; simp]
      unfold parseMemsR
      rw [skipWs_no_ws ',' _ (by decide)]
      simp only []
      rw [if_neg (by decide), if_true, skipWs_ws_append _ _ (esWsStr_nlInd lvl),
        dumpStr_roundtrip k hv'.1 _, skipWs_no_ws '"' _ (by decide)]
      simp only []
      rw [if_true, psb_roundtrip k hv'.1 _]
      simp only []
      rw [kvSep_cfgAppend,
        show ([':', ' '] : Str) ++ (dumpVal cfgAppend lvl v
            ++ (dumpObjRest cfgAppend lvl es ++ (W ++ '\x7d' :: rest')))
          = ':' :: (' ' :: (dumpVal cfgAppend lvl v
            ++ (dumpObjRest cfgAppend lvl es ++ (W ++ '\x7d' :: rest')))) from rfl,
        skipWs_no_ws ':' _ (by decide)]
      simp only []
      rw [if_true]
      have hcs : cabezaSegura (dumpObjRest cfgAppend lvl es ++ (W ++ '\x7d' :: rest')) = true :=
        cabezaSegura_objRest lvl es _
          (cabezaSegura_ws_pre W _ hW (by rw [cabezaSegura_cons]; decide))
      have hval2 : parseVal g₀ (' ' :: (dumpVal cfgAppend lvl v
          ++ (dumpObjRest cfgAppend lvl es ++ (W ++ '\x7d' :: rest'))))
          = some (v, dumpObjRest cfgAppend lvl es ++ (W ++ '\x7d' :: rest')) := by
        rw [show (' ' :: (dumpVal cfgAppend lvl v
            ++ (dumpObjRest cfgAppend lvl es ++ (W ++ '\x7d' :: rest'))))
            = [' '] ++ (dumpVal cfgAppend lvl v
              ++ (dumpObjRest cfgAppend lvl es ++ (W ++ '\x7d' :: rest'))) from rfl,
          parseVal_ws g₀ [' '] _ (by decide)]
        exact clean_dump_val v hv'.2.1 lvl g₀ _ hcs
          (by rw [hd]; simp only [List.length_append, List.length_cons]; omega)
      rw [hval2]
      simp only []
      rw [clean_dump_obj es hv'.2.2 lvl g₀ (acc ++ [(k, v)]) W rest' hW (by omega),
        show (acc ++ [(k, v)]) ++ es = acc ++ ((k, v) :: es) from by simp]

end

theorem reemplazaNl_cons (c : Char) (rest : Str) :
    reemplazaNl (c :: rest) = if c = '\n' then '\n' :: (espacios 4 ++ reemplazaNl rest)
      else c :: reemplazaNl rest := rfl

theorem reemplazaNl_append (a b : Str) :
    reemplazaNl (a ++ b) = reemplazaNl a ++ reemplazaNl b := by
  induction a with
  | nil => rfl
  | cons c cs ih =>
    rw [List.cons_append, reemplazaNl_cons, reemplazaNl_cons]
    by_cases hc : c = '\n'
    · rw [if_pos hc, if_pos hc, ih]
      simp
    · rw [if_neg hc, if_neg hc, ih]
      rfl

theorem reemplazaNl_noNl (s : Str) (h : noNl s = true) : reemplazaNl s = s := by
  induction s with
  | nil => rfl
  | cons c cs ih =>
    simp only [noNl, List.all_cons, Bool.and_eq_true, Bool.not_eq_true'] at h
    rw [reemplazaNl_cons,
      if_neg (by intro he; rw [he] at h; exact absurd h.1 (by decide)),
      ih (by simp only [noNl]; exact h.2)]

theorem espacios_add (a b : Nat) : espacios (a + b) = espacios a ++ espacios b := by
  unfold espacios
  rw [List.replicate_add]

theorem noNl_espacios (n : Nat) : noNl (espacios n) = true := by
  induction n with
  | zero => rfl
  | succ m ih =>
    rw [espacios, List.replicate_succ]
    simp only [noNl, List.all_cons, Bool.and_eq_true]
    exact ⟨by decide, ih⟩

theorem reemplazaNl_nlInd (lvl : Nat) (X : Str) :
    reemplazaNl (nlInd cfgAppend lvl ++ X)
      = nlInd cfgAppend (lvl + 1) ++ reemplazaNl X := by
  rw [nlInd_cfgAppend, nlInd_cfgAppend, List.cons_append, reemplazaNl_cons, if_pos rfl,
    reemplazaNl_append, reemplazaNl_noNl _ (noNl_espacios (4 * lvl)),
    show (4 * (lvl + 1)) = 4 + 4 * lvl from by omega, espacios_add]
  simp

theorem noNl_digitos (s : Str) (h : ∀ c ∈ s, esDigito c = true) : noNl s = true := by
  rw [noNl, List.all_eq_true]
  intro c hc
  have hdc := h c hc
  simp only [Bool.not_eq_true', beq_eq_false_iff_ne, ne_eq]
  intro he
  rw [he] at hdc
  exact absurd hdc (by decide)

theorem noNl_numTok (i : Int) (fr : Str) (hfr : ∀ c ∈ fr, esDigito c = true) :
    noNl (numTok i fr) = true := by
  have hnat : ∀ n : Nat, noNl (natChars n) = true :=
    fun n => noNl_digitos _ (natChars_ok n).1
  have htail : noNl (if fr.isEmpty then [] else '.' :: fr) = true := by
    cases fr with
    | nil => rfl
    | cons f0 fs =>
      rw [if_neg (by simp)]
      simp only [noNl, List.all_cons, Bool.and_eq_true]
      have hf0 : esDigito f0 = true := hfr f0 (List.mem_cons_self f0 fs)
      refine ⟨by decide, ?_, ?_⟩
      · simp only [Bool.not_eq_true', beq_eq_false_iff_ne, ne_eq]
        intro he
        rw [he] at hf0
        exact absurd hf0 (by decide)
      · rw [show (fs.all fun c => !(c == '\n')) = noNl fs from rfl]
        exact noNl_digitos fs (fun c hc => hfr c (List.mem_cons_of_mem f0 hc))
  rw [numTok, noNl, List.all_append]
  cases i with
  | ofNat n =>
    rw [show intChars (Int.ofNat n) = natChars n from rfl]
    have h1 := hnat n
    rw [noNl] at h1 htail
    rw [h1, htail]
    rfl
  | negSucc m =>
    rw [show intChars (Int.negSucc m) = '-' :: natChars (m + 1) from rfl]
    have h1 := hnat (m + 1)
    rw [noNl] at h1 htail
    simp only [List.all_cons, h1, htail]
    rfl

theorem noNl_dumpStr (k : Str) (hk : strSegura k = true) : noNl (dumpStr k) = true := by
  rw [dumpStr, escRun_segura k hk]
  simp only [noNl, List.all_cons, List.all_append, Bool.and_eq_true]
  refine ⟨by decide, ?_, by decide⟩
  rw [List.all_eq_true]
  intro c hc
  have hs := List.all_eq_true.mp hk c hc
  simp only [esSeguro, Bool.and_eq_true, Bool.not_eq_true'] at hs
  have h32 : ¬ c.toNat < 32 := of_decide_eq_false hs.2
  simp only [Bool.not_eq_true', beq_eq_false_iff_ne, ne_eq]
  intro he
  rw [he] at h32
  exact h32 (by decide)

mutual

theorem rnl_dump_val : ∀ (v : PyVal), limpio v = true → ∀ (lvl : Nat),
    reemplazaNl (dumpVal cfgAppend lvl v) = dumpVal cfgAppend (lvl + 1) v
  | .none, _hv, lvl => by
    rw [show dumpVal cfgAppend lvl PyVal.none = s2l "null" from rfl,
      show dumpVal cfgAppend (lvl + 1) PyVal.none = s2l "null" from rfl,
      reemplazaNl_noNl _ (by decide)]
  | .bool true, _hv, lvl => by
    rw [show dumpVal cfgAppend lvl (PyVal.bool true) = s2l "true" from rfl,
      show dumpVal cfgAppend (lvl + 1) (PyVal.bool true) = s2l "true" from rfl,
      reemplazaNl_noNl _ (by decide)]
  | .bool false, _hv, lvl => by
    rw [show dumpVal cfgAppend lvl (PyVal.bool false) = s2l "false" from rfl,
      show dumpVal cfgAppend (lvl + 1) (PyVal.bool false) = s2l "false" from rfl,
      reemplazaNl_noNl _ (by decide)]
  | .num i fr, hv, lvl => by
    have hfr : fr.all esDigito = true := hv
    rw [show dumpVal cfgAppend lvl (PyVal.num i fr) = numTok i fr from rfl,
      show dumpVal cfgAppend (lvl + 1) (PyVal.num i fr) = numTok i fr from rfl,
      reemplazaNl_noNl _ (noNl_numTok i fr (List.all_eq_true.mp hfr))]
  | .str s, hv, lvl => by
    have hs : strSegura s = true := hv
    rw [show dumpVal cfgAppend lvl (PyVal.str s) = dumpStr s from rfl,
      show dumpVal cfgAppend (lvl + 1) (PyVal.str s) = dumpStr s from rfl,
      reemplazaNl_noNl _ (noNl_dumpStr s hs)]
  | .list [], _hv, lvl => by
    rw [show dumpVal cfgAppend lvl (PyVal.list []) = s2l "[]" from rfl,
      show dumpVal cfgAppend (lvl + 1) (PyVal.list []) = s2l "[]" from rfl,
      reemplazaNl_noNl _ (by decide)]
  | .list (x :: xs), hv, lvl => by
    have hv' : limpio x = true ∧ limpioL xs = true := by
      have h2 : (limpio x && limpioL xs) = true := hv
      rw [Bool.and_eq_true] at h2
      exact h2
    rw [show dumpVal cfgAppend lvl (PyVal.list (x :: xs))
        = dumpArr cfgAppend lvl (x :: xs) from rfl,
      show dumpVal cfgAppend (lvl + 1) (PyVal.list (x :: xs))
        = dumpArr cfgAppend (lvl + 1) (x :: xs) from rfl,
      dumpArr_cons, dumpArr_cons, reemplazaNl_cons, if_neg (by decide),
      show nlInd cfgAppend (lvl + 1) ++ dumpVal cfgAppend (lvl + 1) x
          ++ dumpArrRest cfgAppend (lvl + 1) xs ++ nlInd cfgAppend lvl ++ [']']
        = nlInd cfgAppend (lvl + 1) ++ (dumpVal cfgAppend (lvl + 1) x
          ++ (dumpArrRest cfgAppend (lvl + 1) xs ++ (nlInd cfgAppend lvl ++ [']'])))
        from by simp,
      reemplazaNl_nlInd, reemplazaNl_append, reemplazaNl_append, reemplazaNl_nlInd,
      reemplazaNl_noNl [']'] (by decide),
      rnl_dump_val x hv'.1 (lvl + 1), rnl_dump_arr xs hv'.2 (lvl + 1)]
    simp
  | .tup l, hv, lvl => absurd hv (by simp [limpio])
  | .dict [], _hv, lvl => by
    rw [show dumpVal cfgAppend lvl (PyVal.dict []) = ['\x7b', '\x7d'] from rfl,
      show dumpVal cfgAppend (lvl + 1) (PyVal.dict []) = ['\x7b', '\x7d'] from rfl,
      reemplazaNl_noNl _ (by decide)]
  | .dict ((k, v) :: es), hv, lvl => by
    have hv' : strSegura k = true ∧ limpio v = true ∧ limpioE es = true := by
      have h2 : (strSegura k && limpio v && limpioE es) = true := hv
      rw [Bool.and_eq_true, Bool.and_eq_true] at h2
      exact ⟨h2.1.1, h2.1.2, h2.2⟩
    rw [show dumpVal cfgAppend lvl (PyVal.dict ((k, v) :: es))
        = dumpObj cfgAppend lvl ((k, v) :: es) from rfl,
      show dumpVal cfgAppend (lvl + 1) (PyVal.dict ((k, v) :: es))
        = dumpObj cfgAppend (lvl + 1) ((k, v) :: es) from rfl,
      dumpObj_cons, dumpObj_cons, reemplazaNl_cons, if_neg (by decide),
      show nlInd cfgAppend (lvl + 1) ++ dumpStr k ++ cfgAppend.kvSep
          ++ dumpVal cfgAppend (lvl + 1) v ++ dumpObjRest cfgAppend (lvl + 1) es
          ++ nlInd cfgAppend lvl ++ ['\x7d']
        = nlInd cfgAppend (lvl + 1) ++ (dumpStr k ++ (cfgAppend.kvSep
          ++ (dumpVal cfgAppend (lvl + 1) v ++ (dumpObjRest cfgAppend (lvl + 1) es
            ++ (nlInd cfgAppend lvl ++ ['\x7d']))))) from by simp,
      reemplazaNl_nlInd, reemplazaNl_append, reemplazaNl_append, reemplazaNl_append,
      reemplazaNl_append, reemplazaNl_nlInd, reemplazaNl_noNl ['\x7d'] (by decide),
      reemplazaNl_noNl _ (noNl_dumpStr k hv'.1), kvSep_cfgAppend,
      reemplazaNl_noNl [':', ' '] (by decide),
      rnl_dump_val v hv'.2.1 (lvl + 1), rnl_dump_obj es hv'.2.2 (lvl + 1)]
    simp [kvSep_cfgAppend]

theorem rnl_dump_arr : ∀ (l : List PyVal), limpioL l = true → ∀ (lvl : Nat),
    reemplazaNl (dumpArrRest cfgAppend lvl l) = dumpArrRest cfgAppend (lvl + 1) l
  | [], _hl, _lvl => rfl
  | x :: xs, hl, lvl => by
    have hv' : limpio x = true ∧ limpioL xs = true := by
      have h2 : (limpio x && limpioL xs) = true := hl
      rw [Bool.and_eq_true] at h2
      exact h2
    rw [dumpArrRest_cons, dumpArrRest_cons, reemplazaNl_cons, if_neg (by decide),
      show nlInd cfgAppend lvl ++ dumpVal cfgAppend lvl x ++ dumpArrRest cfgAppend lvl xs
        = nlInd cfgAppend lvl ++ (dumpVal cfgAppend lvl x ++ dumpArrRest cfgAppend lvl xs)
        from by simp,
      reemplazaNl_nlInd, reemplazaNl_append,
      rnl_dump_val x hv'.1 lvl, rnl_dump_arr xs hv'.2 lvl]
    simp

theorem rnl_dump_obj : ∀ (e : List (Str × PyVal)), limpioE e = true → ∀ (lvl : Nat),
    reemplazaNl (dumpObjRest cfgAppend lvl e) = dumpObjRest cfgAppend (lvl + 1) e
  | [], _he, _lvl => rfl
  | (k, v) :: es, he, lvl => by
    have hv' : strSegura k = true ∧ limpio v = true ∧ limpioE es = true := by
      have h2 : (strSegura k && limpio v && limpioE es) = true := he
      rw [Bool.and_eq_true, Bool.and_eq_true] at h2
      exact ⟨h2.1.1, h2.1.2, h2.2⟩
    rw [dumpObjRest_cons, dumpObjRest_cons, reemplazaNl_cons, if_neg (by decide),
      show nlInd cfgAppend lvl ++ dumpStr k ++ cfgAppend.kvSep ++ dumpVal cfgAppend lvl v
          ++ dumpObjRest cfgAppend lvl es
        = nlInd cfgAppend lvl ++ (dumpStr k ++ (cfgAppend.kvSep
          ++ (dumpVal cfgAppend lvl v ++ dumpObjRest cfgAppend lvl es))) from by simp,
      reemplazaNl_nlInd, reemplazaNl_append, reemplazaNl_append, reemplazaNl_append,
      reemplazaNl_noNl _ (noNl_dumpStr k hv'.1), kvSep_cfgAppend,
      reemplazaNl_noNl [':', ' '] (by decide),
      rnl_dump_val v hv'.2.1 lvl, rnl_dump_obj es hv'.2.2 lvl]
    simp [kvSep_cfgAppend]

end

theorem divideLineas_cons (c : Char) (rest : Str) :
    divideLineas (c :: rest) = if c = '\n' then [] :: divideLineas rest
      else match divideLineas rest with
        | l :: ls => (c :: l) :: ls
        | [] => [[c]] := rfl

theorem divideLineas_ne_nil (s : Str) : divideLineas s ≠ [] := by
  cases s with
  | nil => simp [divideLineas]
  | cons c rest =>
    rw [divideLineas_cons]
    by_cases hc : c = '\n'
    · rw [if_pos hc]; simp
    · rw [if_neg hc]
      cases divideLineas rest with
      | nil => simp
      | cons l ls => simp

theorem pyIsSpace_no_nl (c : Char) (hc : pyIsSpace c = false) : ¬ c = '\n' := by
  intro he
  rw [he] at hc
  exact absurd hc (by decide)

theorem divideLineas_noNl_append (w s : Str) (hw : noNl w = true) :
    ∀ l₀ ls, divideLineas s = l₀ :: ls → divideLineas (w ++ s) = (w ++ l₀) :: ls := by
  induction w with
  | nil => intro l₀ ls h; simpa using h
  | cons c cs ih =>
    intro l₀ ls h
    simp only [noNl, List.all_cons, Bool.and_eq_true, Bool.not_eq_true'] at hw
    have hc : ¬ c = '\n' := by
      intro he
      rw [he] at hw
      exact absurd hw.1 (by decide)
    rw [List.cons_append, divideLineas_cons, if_neg hc,
      ih (by simp only [noNl]; exact hw.2) l₀ ls h]
    rfl

theorem PT_de_PP (s : Str) (h : PPLineas s) : PTLineas s :=
  fun l hl => h l (List.mem_of_mem_tail hl)

theorem PT_vacia : PTLineas [] := by
  intro l hl
  simp [divideLineas] at hl

theorem PP_de_nl (W : Str) (h : PPLineas W) : PTLineas ('\n' :: W) := by
  intro l hl
  rw [divideLineas_cons, if_pos rfl, List.tail_cons] at hl
  exact h l hl

theorem PP_noNl_append (w s : Str) (hw : noNl w = true) (h : PPLineas s) :
    PPLineas (w ++ s) := by
  cases hq : divideLineas s with
  | nil => exact absurd hq (divideLineas_ne_nil s)
  | cons l₀ ls =>
    intro l hl
    rw [divideLineas_noNl_append w s hw l₀ ls hq] at hl
    rcases List.mem_cons.mp hl with rfl | hm
    · have h₀ := h l₀ (by rw [hq]; exact List.mem_cons_self _ _)
      rw [List.all_append, h₀, Bool.and_false]
    · exact h l (by rw [hq]; exact List.mem_cons_of_mem _ hm)

theorem PP_token_append (w s : Str) (hw : noNl w = true) (hnb : w.all pyIsSpace = false)
    (h : PTLineas s) : PPLineas (w ++ s) := by
  cases hq : divideLineas s with
  | nil => exact absurd hq (divideLineas_ne_nil s)
  | cons l₀ ls =>
    intro l hl
    rw [divideLineas_noNl_append w s hw l₀ ls hq] at hl
    rcases List.mem_cons.mp hl with rfl | hm
    · rw [List.all_append, hnb, Bool.false_and]
    · exact h l (by rw [hq, List.tail_cons]; exact hm)

theorem PP_cons_nl (c : Char) (Z : Str) (hc : pyIsSpace c = false) (h : PPLineas Z) :
    PPLineas (c :: '\n' :: Z) := by
  intro l hl
  rw [divideLineas_cons, if_neg (pyIsSpace_no_nl c hc), divideLineas_cons,
    if_pos rfl] at hl
  simp only [] at hl
  rcases List.mem_cons.mp hl with rfl | hm
  · simp [hc]
  · exact h l hm

theorem PT_cons_nl (c : Char) (Z : Str) (hc : ¬ c = '\n') (h : PPLineas Z) :
    PTLineas (c :: '\n' :: Z) := by
  intro l hl
  rw [divideLineas_cons, if_neg hc, divideLineas_cons, if_pos rfl] at hl
  simp only [] at hl
  rw [List.tail_cons] at hl
  exact h l hl

theorem PP_cons (c : Char) (s : Str) (hc : pyIsSpace c = false) (h : PTLineas s) :
    PPLineas (c :: s) := by
  cases hq : divideLineas s with
  | nil => exact absurd hq (divideLineas_ne_nil s)
  | cons l₀ ls =>
    intro l hl
    rw [divideLineas_cons, if_neg (pyIsSpace_no_nl c hc), hq] at hl
    simp only [] at hl
    rcases List.mem_cons.mp hl with rfl | hm
    · rw [List.all_cons, hc, Bool.false_and]
    · exact h l (by rw [hq, List.tail_cons]; exact hm)

theorem cabezaValor_no_space (c : Char) (h : cabezaValor c = true) :
    pyIsSpace c = false := by
  simp only [cabezaValor, Bool.or_eq_true, beq_iff_eq, or_assoc] at h
  rcases h with rfl | rfl | rfl | rfl | rfl | rfl | rfl | hd
  · decide
  · decide
  · decide
  · decide
  · decide
  · decide
  · decide
  · cases hs : pyIsSpace c
    · rfl
    · exfalso
      simp only [pyIsSpace, Bool.or_eq_true, beq_iff_eq, or_assoc] at hs
      rcases hs with rfl | rfl | rfl | rfl | rfl | rfl <;> exact absurd hd (by decide)

theorem token_no_blanco (w : Str) (h0 : Char) (t0 : Str) (hw : w = h0 :: t0)
    (hc : cabezaValor h0 = true) : w.all pyIsSpace = false := by
  rw [hw, List.all_cons, cabezaValor_no_space h0 hc, Bool.false_and]

mutual

theorem lineas_val : ∀ (v : PyVal), limpio v = true → ∀ (lvl : Nat) (t : Str),
    PTLineas t → PPLineas (dumpVal cfgAppend lvl v ++ t)
  | .none, _hv, lvl, t, ht => PP_token_append _ t
      (by rw [show dumpVal cfgAppend lvl PyVal.none = s2l "null" from rfl]; decide)
      (by rw [show dumpVal cfgAppend lvl PyVal.none = s2l "null" from rfl]; decide) ht
  | .bool true, _hv, lvl, t, ht => PP_token_append _ t
      (by rw [show dumpVal cfgAppend lvl (PyVal.bool true) = s2l "true" from rfl]; decide)
      (by rw [show dumpVal cfgAppend lvl (PyVal.bool true) = s2l "true" from rfl]; decide) ht
  | .bool false, _hv, lvl, t, ht => PP_token_append _ t
      (by rw [show dumpVal cfgAppend lvl (PyVal.bool false) = s2l "false" from rfl]; decide)
      (by rw [show dumpVal cfgAppend lvl (PyVal.bool false) = s2l "false" from rfl]; decide) ht
  | .num i fr, hv, lvl, t, ht => by
    have hfr : fr.all esDigito = true := hv
    obtain ⟨h0, t0, hnt, hcase⟩ := numTok_cabeza i fr
    exact PP_token_append _ t (noNl_numTok i fr (List.all_eq_true.mp hfr))
      (token_no_blanco _ h0 t0 hnt (cabezaNum_facts h0 hcase).1) ht
  | .str s, hv, lvl, t, ht => by
    have hs : strSegura s = true := hv
    exact PP_token_append _ t (noNl_dumpStr s hs)
      (token_no_blanco _ '"' (escRun s ++ ['"']) rfl (by decide)) ht
  | .list [], _hv, lvl, t, ht => PP_token_append _ t
      (by rw [show dumpVal cfgAppend lvl (PyVal.list []) = s2l "[]" from rfl]; decide)
      (by rw [show dumpVal cfgAppend lvl (PyVal.list []) = s2l "[]" from rfl]; decide) ht
  | .list (x :: xs), hv, lvl, t, ht => by
    have hv' : limpio x = true ∧ limpioL xs = true := by
      have h2 : (limpio x && limpioL xs) = true := hv
      rw [Bool.and_eq_true] at h2
      exact h2
    rw [show dumpVal cfgAppend lvl (PyVal.list (x :: xs)) ++ t
        = '[' :: '\n' :: (espacios (4 * (lvl + 1)) ++ (dumpVal cfgAppend (lvl + 1) x
          ++ (dumpArrRest cfgAppend (lvl + 1) xs
            ++ ('\n' :: (espacios (4 * lvl) ++ (']' :: t)))))) from by
      rw [show dumpVal cfgAppend lvl (PyVal.list (x :: xs))
          = dumpArr cfgAppend lvl (x :: xs) from rfl, dumpArr_cons, nlInd_cfgAppend,
        nlInd_cfgAppend]
      simp]
    exact PP_cons_nl '[' _ (by decide)
      (PP_noNl_append _ _ (noNl_espacios _)
        (lineas_val x hv'.1 (lvl + 1) _
          (lineas_arr xs hv'.2 (lvl + 1) _
            (PP_noNl_append _ _ (noNl_espacios _)
              (PP_cons ']' t (by decide) ht)))))
  | .tup l, hv, _lvl, _t, _ht => absurd hv (by simp [limpio])
  | .dict [], _hv, lvl, t, ht => PP_token_append _ t
      (by rw [show dumpVal cfgAppend lvl (PyVal.dict []) = ['\x7b', '\x7d'] from rfl]; decide)
      (by rw [show dumpVal cfgAppend lvl (PyVal.dict []) = ['\x7b', '\x7d'] from rfl]; decide) ht
  | .dict ((k, v) :: es), hv, lvl, t, ht => by
    have hv' : strSegura k = true ∧ limpio v = true ∧ limpioE es = true := by
      have h2 : (strSegura k && limpio v && limpioE es) = true := hv
      rw [Bool.and_eq_true, Bool.and_eq_true] at h2
      exact ⟨h2.1.1, h2.1.2, h2.2⟩
    rw [show dumpVal cfgAppend lvl (PyVal.dict ((k, v) :: es)) ++ t
        = '\x7b' :: '\n' :: (espacios (4 * (lvl + 1)) ++ (dumpStr k ++ ([':', ' ']
          ++ (dumpVal cfgAppend (lvl + 1) v ++ (dumpObjRest cfgAppend (lvl + 1) es
            ++ ('\n' :: (espacios (4 * lvl) ++ ('\x7d' :: t)))))))) from by
      rw [show dumpVal cfgAppend lvl (PyVal.dict ((k, v) :: es))
          = dumpObj cfgAppend lvl ((k, v) :: es) from rfl, dumpObj_cons, nlInd_cfgAppend,
        nlInd_cfgAppend, kvSep_cfgAppend]
      simp]
    exact PP_cons_nl '\x7b' _ (by decide)
      (PP_noNl_append _ _ (noNl_espacios _)
        (PP_noNl_append _ _ (noNl_dumpStr k hv'.1)
          (PP_noNl_append _ _ (by decide)
            (lineas_val v hv'.2.1 (lvl + 1) _
              (lineas_obj es hv'.2.2 (lvl + 1) _
                (PP_noNl_append _ _ (noNl_espacios _)
                  (PP_cons '\x7d' t (by decide) ht)))))))

theorem lineas_arr : ∀ (l : List PyVal), limpioL l = true → ∀ (lvl : Nat) (W : Str),
    PPLineas W → PTLineas (dumpArrRest cfgAppend lvl l ++ ('\n' :: W))
  | [], _hl, lvl, W, hW => by
    rw [show dumpArrRest cfgAppend lvl [] = [] from rfl, List.nil_append]
    exact PP_de_nl W hW
  | x :: xs, hl, lvl, W, hW => by
    have hv' : limpio x = true ∧ limpioL xs = true := by
      have h2 : (limpio x && limpioL xs) = true := hl
      rw [Bool.and_eq_true] at h2
      exact h2
    rw [show dumpArrRest cfgAppend lvl (x :: xs) ++ ('\n' :: W)
        = ',' :: '\n' :: (espacios (4 * lvl) ++ (dumpVal cfgAppend lvl x
          ++ (dumpArrRest cfgAppend lvl xs ++ ('\n' :: W)))) from by
      rw [dumpArrRest_cons, nlInd_cfgAppend]
      simp]
    exact PT_cons_nl ',' _ (by decide)
      (PP_noNl_append _ _ (noNl_espacios _)
        (lineas_val x hv'.1 lvl _ (lineas_arr xs hv'.2 lvl W hW)))

theorem lineas_obj : ∀ (e : List (Str × PyVal)), limpioE e = true → ∀ (lvl : Nat) (W : Str),
    PPLineas W → PTLineas (dumpObjRest cfgAppend lvl e ++ ('\n' :: W))
  | [], _he, lvl, W, hW => by
    rw [show dumpObjRest cfgAppend lvl [] = [] from rfl, List.nil_append]
    exact PP_de_nl W hW
  | (k, v) :: es, he, lvl, W, hW => by
    have hv' : strSegura k = true ∧ limpio v = true ∧ limpioE es = true := by
      have h2 : (strSegura k && limpio v && limpioE es) = true := he
      rw [Bool.and_eq_true, Bool.and_eq_true] at h2
      exact ⟨h2.1.1, h2.1.2, h2.2⟩
    rw [show dumpObjRest cfgAppend lvl ((k, v) :: es) ++ ('\n' :: W)
        = ',' :: '\n' :: (espacios (4 * lvl) ++ (dumpStr k ++ ([':', ' ']
          ++ (dumpVal cfgAppend lvl v ++ (dumpObjRest cfgAppend lvl es ++ ('\n' :: W))))))
        from by
      rw [dumpObjRest_cons, nlInd_cfgAppend, kvSep_cfgAppend]
      simp]
    exact PT_cons_nl ',' _ (by decide)
      (PP_noNl_append _ _ (noNl_espacios _)
        (PP_noNl_append _ _ (noNl_dumpStr k hv'.1)
          (PP_noNl_append _ _ (by decide)
            (lineas_val v hv'.2.1 lvl _ (lineas_obj es hv'.2.2 lvl W hW)))))

end

theorem lineas_dump (v : PyVal) (hv : limpio v = true) (lvl : Nat) :
    PPLineas (dumpVal cfgAppend lvl v) := by
  have h := lineas_val v hv lvl [] PT_vacia
  rw [List.append_nil] at h
  exact h

theorem dropWhile_head_false (p : Char → Bool) :
    ∀ (l : Str) (c : Char) (cs : Str), l.dropWhile p = c :: cs → p c = false := by
  intro l
  induction l with
  | nil => intro c cs h; exact List.noConfusion h
  | cons a as ih =>
    intro c cs h
    rw [List.dropWhile_cons] at h
    by_cases hp : p a = true
    · rw [if_pos hp] at h
      exact ih c cs h
    · rw [if_neg hp] at h
      injection h with h1 _
      subst h1
      exact Bool.not_eq_true _ ▸ Bool.of_not_eq_true hp

theorem pyStrip_isEmpty (l : Str) : (pyStrip l).isEmpty = l.all pyIsSpace := by
  cases hd : l.dropWhile pyIsSpace with
  | nil =>
    have hall : l.all pyIsSpace = true := by
      rw [List.all_eq_true]
      exact List.dropWhile_eq_nil_iff.mp hd
    rw [hall, pyStrip, hd]
    rfl
  | cons c cs =>
    have hc : pyIsSpace c = false := dropWhile_head_false pyIsSpace l c cs hd
    have hcl : c ∈ l := by
      have hsub := List.dropWhile_sublist (p := pyIsSpace) (l := l)
      exact hsub.subset (by rw [hd]; exact List.mem_cons_self c cs)
    have hall : l.all pyIsSpace = false := by
      cases ha : l.all pyIsSpace with
      | false => rfl
      | true =>
        have := List.all_eq_true.mp ha c hcl
        rw [hc] at this
        exact Bool.noConfusion this
    rw [hall, pyStrip, hd]
    have hne : ((c :: cs).reverse.dropWhile pyIsSpace) ≠ [] := by
      intro hcon
      have := List.dropWhile_eq_nil_iff.mp hcon c (by simp)
      rw [hc] at this
      exact Bool.noConfusion this
    cases hq : (c :: cs).reverse.dropWhile pyIsSpace with
    | nil => exact absurd hq hne
    | cons d ds => simp

theorem intercalaNl_head_append (a x : Str) (t : List Str) :
    intercalaNl ((a ++ x) :: t) = a ++ intercalaNl (x :: t) := by
  cases t with
  | nil => rfl
  | cons y ys =>
    rw [show intercalaNl ((a ++ x) :: y :: ys)
        = (a ++ x) ++ '\n' :: intercalaNl (y :: ys) from rfl,
      show intercalaNl (x :: y :: ys) = x ++ '\n' :: intercalaNl (y :: ys) from rfl,
      List.append_assoc]

theorem reemplazaNl_lines : ∀ (s : Str) (l₀ : Str) (ls : List Str),
    divideLineas s = l₀ :: ls →
    reemplazaNl s = intercalaNl (l₀ :: ls.map (fun l => espacios 4 ++ l)) := by
  intro s
  induction s with
  | nil =>
    intro l₀ ls h
    injection h with h1 h2
    subst h1
    subst h2
    rfl
  | cons c cs ih =>
    intro l₀ ls h
    rw [divideLineas_cons] at h
    by_cases hc : c = '\n'
    · rw [if_pos hc] at h
      subst hc
      cases hq : divideLineas cs with
      | nil => exact absurd hq (divideLineas_ne_nil cs)
      | cons m₀ ms =>
        rw [hq] at h
        injection h with h1 h2
        subst h1
        subst h2
        rw [reemplazaNl_cons, if_pos rfl, ih m₀ ms hq]
        simp only [List.map_cons]
        rw [show intercalaNl (([] : Str) :: (espacios 4 ++ m₀)
              :: List.map (fun l => espacios 4 ++ l) ms)
            = [] ++ '\n' :: intercalaNl ((espacios 4 ++ m₀)
              :: List.map (fun l => espacios 4 ++ l) ms) from rfl,
          List.nil_append, intercalaNl_head_append]
    · rw [if_neg hc] at h
      cases hq : divideLineas cs with
      | nil => exact absurd hq (divideLineas_ne_nil cs)
      | cons m₀ ms =>
        rw [hq] at h
        simp only [] at h
        injection h with h1 h2
        subst h1
        subst h2
        rw [reemplazaNl_cons, if_neg hc, ih m₀ ms hq,
          show ((c :: m₀) :: List.map (fun l => espacios 4 ++ l) ms)
            = (([c] ++ m₀) :: List.map (fun l => espacios 4 ++ l) ms) from rfl,
          intercalaNl_head_append]
        rfl

theorem indentar_eq (s : Str) (h : PPLineas s) :
    indentar s = espacios 4 ++ reemplazaNl s := by
  cases hq : divideLineas s with
  | nil => exact absurd hq (divideLineas_ne_nil s)
  | cons l₀ ls =>
    rw [indentar, hq, reemplazaNl_lines s l₀ ls hq]
    have hmap : List.map (fun l => if (pyStrip l).isEmpty then l else espacios 4 ++ l)
        (l₀ :: ls) = (espacios 4 ++ l₀) :: ls.map (fun l => espacios 4 ++ l) := by
      simp only [List.map_cons]
      congr 1
      · rw [pyStrip_isEmpty, h l₀ (by rw [hq]; exact List.mem_cons_self _ _)]
        simp
      · apply List.map_congr_left
        intro l hl
        rw [pyStrip_isEmpty, h l (by rw [hq]; exact List.mem_cons_of_mem _ hl)]
        simp
    rw [hmap, intercalaNl_head_append]

theorem indentar_dump (R : PyVal) (hR : limpio R = true) :
    indentar (dumpVal cfgAppend 0 R) = espacios 4 ++ dumpVal cfgAppend 1 R := by
  rw [indentar_eq _ (lineas_dump R hR 0), rnl_dump_val R hR 0]

theorem clean_indentar (R : PyVal) (hR : limpio R = true) :
    CleanValP (indentar (dumpVal cfgAppend 0 R)) R := by
  rw [indentar_dump R hR]
  exact CleanValP_ws _ _ R (esWsStr_espacios 4) (clean_dump_val R hR 1)

theorem params_limpio : ∀ (params : List (Str × PyVal)),
    params.all (fun p => strSegura p.1 &&
      (match p.2 with | .num _ vf => vf.all esDigito | _ => false)) = true →
    limpioE params = true := by
  intro params
  induction params with
  | nil => intro _; rfl
  | cons p ps ih =>
    obtain ⟨k, v⟩ := p
    intro h
    rw [List.all_cons, Bool.and_eq_true] at h
    obtain ⟨h1, h2⟩ := h
    simp only [] at h1
    rw [Bool.and_eq_true] at h1
    show (strSegura k && limpio v && limpioE ps) = true
    rw [Bool.and_eq_true, Bool.and_eq_true]
    refine ⟨⟨h1.1, ?_⟩, ih h2⟩
    cases v with
    | num i vf => exact h1.2
    | none => exact Bool.noConfusion h1.2
    | bool b => exact Bool.noConfusion h1.2
    | str s => exact Bool.noConfusion h1.2
    | list l => exact Bool.noConfusion h1.2
    | tup l => exact Bool.noConfusion h1.2
    | dict e => exact Bool.noConfusion h1.2

theorem registro_limpio (R : PyVal) (h : esRegistroValido R = true) : limpio R = true := by
  unfold esRegistroValido at h
  split at h
  case _ kf f kg g kp i pf kr params =>
    simp only [Bool.and_eq_true, beq_iff_eq] at h
    obtain ⟨⟨⟨⟨⟨⟨⟨hkf, hkg⟩, hkp⟩, hkr⟩, hf⟩, hg⟩, hpf⟩, hparams⟩ := h
    subst hkf
    subst hkg
    subst hkp
    subst hkr
    show limpioE _ = true
    show (strSegura (s2l "fecha") && limpio (.str f) &&
      (strSegura (s2l "figura") && limpio (.str g) &&
        (strSegura (s2l "perimetro") && limpio (.num i pf) &&
          (strSegura (s2l "parametros") && limpio (.dict params) && true)))) = true
    have hlf : limpio (.str f) = true := hf
    have hlg : limpio (.str g) = true := hg
    have hlp : limpio (.num i pf) = true := hpf
    have hld : limpio (.dict params) = true := params_limpio params hparams
    rw [hlf, hlg, hlp, hld]
    decide
  case _ => exact Bool.noConfusion h

theorem getD_ultimo (s : Str) (x : Char) (h : s.getLast? = some x) :
    s.getD (s.length - 1) ' ' = x := by
  rw [List.getLast?_eq_getElem?] at h
  rw [List.getD_eq_getElem?_getD, h]
  rfl

theorem posCorchete_ultimo (s : Str) (h2 : 2 ≤ s.length)
    (hlast : s.getLast? = some ']') : posCorchete s = s.length - 1 := by
  obtain ⟨n, hn⟩ : ∃ n, s.length = n + 1 := ⟨s.length - 1, by omega⟩
  have hgd : s.getD n ' ' = ']' := by
    have := getD_ultimo s ']' hlast
    rw [hn] at this
    simpa using this
  rw [posCorchete, hn, List.range_succ, List.foldl_append]
  simp only [List.foldl_cons, List.foldl_nil]
  rw [if_pos]
  · omega
  · rw [Bool.and_eq_true]
    exact ⟨decide_eq_true (by omega), beq_iff_eq.mpr hgd⟩

theorem cirugia_forma (F : Str) (c : Str) (R : PyVal) (hF : F = '[' :: (c ++ [']']))
    (hcne : c ≠ []) (hlast : c.getLast? ≠ some '[') :
    cirugiaAppend F R = '[' :: (c ++ ',' :: '\n' ::
      (indentar (dumpVal cfgAppend 0 R) ++ '\n' :: [']'])) := by
  subst hF
  have hc0 : 0 < c.length := List.length_pos.mpr hcne
  have hlen : ('[' :: (c ++ [']']) : Str).length = c.length + 2 := by simp
  have hlastF : ('[' :: (c ++ [']']) : Str).getLast? = some ']' := by
    rw [show ('[' :: (c ++ [']']) : Str) = ('[' :: c) ++ [']'] from by simp,
      List.getLast?_concat]
  have hpos : posCorchete ('[' :: (c ++ [']'])) = c.length + 1 := by
    rw [posCorchete_ultimo _ (by rw [hlen]; omega) hlastF, hlen]
    omega
  obtain ⟨lc, hlc⟩ : ∃ lc, c.getLast? = some lc := by
    cases hq : c.getLast? with
    | none => exact absurd (List.getLast?_eq_none_iff.mp hq) hcne
    | some lc => exact ⟨lc, rfl⟩
  have hlcne : lc ≠ '[' := by
    intro he
    rw [he] at hlc
    exact hlast hlc
  have hgd : ('[' :: (c ++ [']']) : Str).getD c.length ' ' = lc := by
    obtain ⟨m, hm⟩ : ∃ m, c.length = m + 1 := ⟨c.length - 1, by omega⟩
    rw [hm, List.getD_cons_succ]
    have hgc := getD_ultimo c lc hlc
    rw [hm] at hgc
    simp only [Nat.add_sub_cancel] at hgc
    rw [List.getD_eq_getElem?_getD, List.getElem?_append_left (by omega),
      ← List.getD_eq_getElem?_getD, hgc]
  simp only [cirugiaAppend]
  rw [hpos, Nat.add_sub_cancel, hgd,
    show (lc == '[') = false from beq_eq_false_iff_ne.mpr hlcne,
    show s2l ",\n" = [',', '\n'] from rfl]
  rw [if_pos (by rw [Bool.and_eq_true]; exact ⟨decide_eq_true (by omega), rfl⟩)]
  rw [show ('[' :: (c ++ [']']) : Str).take (c.length + 1)
      = '[' :: c from by rw [List.take_succ_cons, List.take_left],
    List.drop_eq_nil_of_le (by
      simp only [hlen, List.length_append, List.length_cons]
      omega)]
  simp

theorem inv_de_exito (F : Str) (l : List PyVal) (inner : Str) (g : Nat)
    (hF : F = '[' :: inner) (hne : l ≠ [])
    (hp : parseElems1 g inner = some (l, [])) : InvArchivo F l := by
  obtain ⟨c, hsp, _hws, hcne, hlast, hrepI, hrepII⟩ := (parse_master g).2.1 inner l [] hp
  exact ⟨c, by rw [hF, hsp], hne, hcne hne, hlast (hcne hne), hrepI,
    fun g' X v r₂ hX hb => hrepII hne g' X v r₂ hX hb⟩

theorem exito_base (R : PyVal) (hR : limpio R = true) (g : Nat)
    (hg : 2 * (dumpVal cfgAppend 1 R).length + 20 ≤ g) :
    parseElems1 g (nlInd cfgAppend 1 ++ dumpVal cfgAppend 1 R
      ++ dumpArrRest cfgAppend 1 [] ++ nlInd cfgAppend 0 ++ [']']) = some ([R], []) := by
  obtain ⟨h0, t0, hd, hcv⟩ := dump_cabeza 1 R hR
  have hdl : (dumpVal cfgAppend 1 R).length = t0.length + 1 := by rw [hd]; rfl
  cases g with
  | zero => omega
  | succ g₀ =>
    unfold parseElems1
    rw [show nlInd cfgAppend 1 ++ dumpVal cfgAppend 1 R ++ dumpArrRest cfgAppend 1 []
          ++ nlInd cfgAppend 0 ++ [']']
        = nlInd cfgAppend 1 ++ (dumpVal cfgAppend 1 R ++ ('\n' :: ']' :: [])) from by
      rw [show dumpArrRest cfgAppend 1 [] = [] from rfl, nlInd_cfgAppend 0]
      simp [espacios],
      skipWs_ws_append _ _ (esWsStr_nlInd 1), hd, List.cons_append,
      skipWs_no_ws h0 _ (cabezaValor_no_ws h0 hcv)]
    simp only []
    rw [if_neg (cabezaValor_no_cierra h0 hcv).1]
    have hpv := clean_dump_val R hR 1 g₀ ('\n' :: ']' :: [])
      (by rw [cabezaSegura_cons]; decide)
      (by rw [hd]; simp only [List.length_append, List.length_cons, List.length_nil]
          omega)
    rw [hd, List.cons_append] at hpv
    rw [hpv]
    simp only []
    cases g₀ with
    | zero => omega
    | succ g₁ =>
      unfold parseElemsR
      rw [show ('\n' :: ']' :: [] : Str) = ['\n'] ++ (']' :: []) from rfl,
        skipWs_ws_append _ _ (by decide), skipWs_no_ws ']' _ (by decide)]
      simp only []
      rw [if_true]

theorem historial_inv (F : Str) (l : List PyVal) (hist : Historial F l) :
    InvArchivo F l := by
  induction hist with
  | primero R hR =>
    exact inv_de_exito _ [R] _ (2 * (dumpVal cfgAppend 1 R).length + 20)
      (dumpArr_cons 0 R []) (by simp)
      (exito_base R (registro_limpio R hR) _ (Nat.le_refl _))
  | paso F h R hR _hist ih =>
    obtain ⟨c, hF, _hlne, hcne, hlast, _hrepI, hrepII⟩ := ih
    have hX := clean_indentar R (registro_limpio R hR)
    have hsucc := hrepII
      (2 * (c.length + (indentar (dumpVal cfgAppend 0 R)).length) + 12)
      (indentar (dumpVal cfgAppend 0 R)) R [] hX
      (by simp only [List.length_nil]; omega)
    exact inv_de_exito _ (h ++ [R]) _ _
      (cirugia_forma F c R hF hcne hlast) (by simp) hsucc

theorem historial_parse (F : Str) (l : List PyVal) (hist : Historial F l) :
    parseJson F = some (.list l) := by
  obtain ⟨c, hF, _hlne, _hcne, _hlast, hrepI, _⟩ := historial_inv F l hist
  have hpv : parseVal (2 * F.length + 4) F = some (.list l, []) := by
    rw [hF, show 2 * ('[' :: (c ++ [']']) : Str).length + 4
        = (2 * c.length + 7) + 1 from by simp; omega]
    unfold parseVal
    rw [skipWs_no_ws '[' _ (by decide)]
    simp only []
    rw [if_true, hrepI (2 * c.length + 7) [] (by simp only [List.length_nil]; omega)]
  rw [parseJson, hpv]
  rfl

set_option maxRecDepth 100000 in
/-- C1 counterexample: the claim quantifies over every well-formed persisted
History file, but the file `"[ ]"` — valid JSON holding the empty History —
is corrupted by the append surgery: the character before the final `']'` is
a space, not `'['`, so a comma is inserted after no element, the rewritten
file no longer parses, and the subsequent load falls back to the empty
History: the appended record is silently lost even though the append
reported success. -/
theorem C1_append_contraejemplo :
    esRegistroValido registroEjemplo = true ∧
    parseJson (s2l "[ ]") = some (.list []) ∧
    (guardar_json_append registroEjemplo (some ⟨s2l "[ ]", 0⟩) cacheInvalidado 1).1
      = true ∧
    parseJson (cirugiaAppend (s2l "[ ]") registroEjemplo) = Option.none ∧
    (cargar_json (guardar_json_append registroEjemplo
        (some ⟨s2l "[ ]", 0⟩) cacheInvalidado 1).2.1 cacheInvalidado 1 true).1
      = .list [] := by
  refine ⟨by decide, by decide, rfl, by decide, by decide⟩

/-- C1 (amended): for every valid Record R and every History file that the
append path itself produced (first record into a fresh file, others by the
in-place surgery), `guardar_json_append` succeeds, the rewritten file
re-parses as the old array extended by R, and a following `cargar_json`
with the cache invalidated returns the History whose last element is R. -/
theorem C1_append_historial (F : Str) (l : List PyVal) (R : PyVal) (mt mtN now : Int)
    (hist : Historial F l) (hR : esRegistroValido R = true) :
    guardar_json_append R (some ⟨F, mt⟩) cacheInvalidado mtN
      = (true, some ⟨cirugiaAppend F R, mtN⟩, cacheInvalidado) ∧
    parseJson (cirugiaAppend F R) = some (.list (l ++ [R])) ∧
    (cargar_json (some ⟨cirugiaAppend F R, mtN⟩) cacheInvalidado now true).1
      = .list (l ++ [R]) ∧
    (l ++ [R]).getLast? = some R := by
  have hparse : parseJson (cirugiaAppend F R) = some (.list (l ++ [R])) :=
    historial_parse _ _ (Historial.paso F l R hR hist)
  obtain ⟨c, hF, _, _, _, _, _⟩ := historial_inv F l hist
  have hne : F.isEmpty = false := by rw [hF]; rfl
  refine ⟨?_, hparse, ?_, List.getLast?_concat _⟩
  · unfold guardar_json_append
    simp only []
    rw [hne]
    rfl
  · rw [cargar_invalidado_datos _ now]
    unfold cargaDirecta
    simp only []
    rw [hparse]
    rfl

/-- C1 witness: the amended theorem applied to the one-record file the
append path creates first, appending the example record again. -/
theorem C1_append_historial_witness :
    Historial (dumpVal cfgAppend 0 (.list [registroEjemplo])) [registroEjemplo] ∧
    esRegistroValido registroEjemplo = true ∧
    parseJson (cirugiaAppend (dumpVal cfgAppend 0 (.list [registroEjemplo]))
        registroEjemplo)
      = some (.list ([registroEjemplo] ++ [registroEjemplo])) ∧
    ([registroEjemplo] ++ [registroEjemplo]).getLast? = some registroEjemplo :=
  ⟨Historial.primero registroEjemplo (by decide), by decide,
    (C1_append_historial _ [registroEjemplo] registroEjemplo 0 1 2
      (Historial.primero registroEjemplo (by decide)) (by decide)).2.1,
    (C1_append_historial _ [registroEjemplo] registroEjemplo 0 1 2
      (Historial.primero registroEjemplo (by decide)) (by decide)).2.2.2⟩
